import Mathlib

/-!
Verification of the ShapeShifter path core.

This file gives a shallow embedding of

  * `src/src/app/scripts/svg/pathparser.ts`   (`parseCommands`, `commandsToString`)
  * `src/src/app/scripts/algorithms/AutoAwesome.ts` (`autoFix`, `autoFixSubPath`,
    `autoConvert`)

into Lean, and proves or refutes the specification claims about them.

Numbers are modelled by `ℚ`.  JavaScript `number` is a binary float; the
rational model is exact for every decimal literal occurring in a path string,
and the claims under study do not hinge on float artifacts (where they could,
this is noted at the claim).  Code that lives outside `src/` (the
`drawcommand.ts` command classes, `NeedlemanWunsch.ts`, the `Path` container
and `MathUtil`) is modelled from the spec and marked as such.
-/

set_option maxRecDepth 40000

namespace ShapeShifter

/-- Decidable equality of `Except` values, for evaluating the embedded
functions on concrete inputs. -/
instance exceptDecEq {ε α : Type} [DecidableEq ε] [DecidableEq α] :
    DecidableEq (Except ε α) := by
  intro x y
  cases x <;> cases y
  case error.error a b =>
    exact if h : a = b then isTrue (by rw [h]) else isFalse (fun hc => h (by injection hc))
  case error.ok a b => exact isFalse (fun hc => Except.noConfusion hc)
  case ok.error a b => exact isFalse (fun hc => Except.noConfusion hc)
  case ok.ok a b =>
    exact if h : a = b then isTrue (by rw [h]) else isFalse (fun hc => h (by injection hc))

/-- A 2-d point with rational coordinates (`Point` of `scripts/common`). -/
structure Point where
  x : ℚ
  y : ℚ
deriving DecidableEq, Repr

/-- The lexer's token classification (the `Token` enum of `pathparser.ts`). -/
inductive Token where
  | AbsoluteCommand
  | RelativeCommand
  | Value
  | EOF
deriving DecidableEq, Repr

/-- The parse errors `parseCommands` can throw.  Each constructor corresponds
to one `throw new Error(...)` site in `pathparser.ts`; `outOfFuel` is an
artifact of the embedding's fuel-based recursion and is never returned for the
fuel supplied by `parseCommands`. -/
inductive Err where
  /-- From `consumeCommand_` (message `Expected command`). -/
  | expectedCommand
  /-- From `consumeValue_` (message `Expected value`). -/
  | expectedValue
  /-- From the `M`/`m` case (message
  `Current point must be set for a relative command`). -/
  | currentPointRequired
  /-- From every other case's guard (message `Current point does not exist`). -/
  | currentPointMissing
  /-- Fuel exhaustion of the embedding; unreachable for the supplied fuel. -/
  | outOfFuel
deriving DecidableEq, Repr

/-- The parsed drawing commands.  Modelled from the spec: `drawcommand.ts` is
not under `src/`; each class carries exactly the constructor arguments that
`parseCommands` passes to it (§3 of the spec: a type tag, the start/end
anchors and the kind-specific control points or arc parameters).  The first
`MoveCommand` of a parse receives an undefined start, hence the `Option`. -/
inductive DrawCommand where
  | MoveCommand (start : Option Point) (endPt : Point)
  | LineCommand (start endPt : Point)
  | QuadraticCurveCommand (start cp endPt : Point)
  | BezierCurveCommand (start cp1 cp2 endPt : Point)
  | EllipticalArcCommand (startX startY rx ry xAxisRot largeArcFlag sweepFlag endX endY : ℚ)
  | ClosePathCommand (start : Point) (endPt : Option Point)
deriving DecidableEq, Repr

/-- The mutable parser state of one `parseCommands` call: the unread suffix of
the path string (the source's `index` cursor), `currentPoint`,
`currentControlPoint` and `lastMovePoint`. -/
structure PState where
  rest : List Char
  currentPoint : Option Point
  currentControlPoint : Option Point
  lastMovePoint : Option Point
deriving DecidableEq, Repr

/-- `advanceToNextToken_`: skip unrecognized characters until a command letter
or a numeric-value start is found; classify it without consuming it. -/
def advanceToNextToken : List Char → Token × List Char
  | [] => (Token.EOF, [])
  | c :: cs =>
    if 'a' ≤ c ∧ c ≤ 'z' then (Token.RelativeCommand, c :: cs)
    else if 'A' ≤ c ∧ c ≤ 'Z' then (Token.AbsoluteCommand, c :: cs)
    else if ('0' ≤ c ∧ c ≤ '9') ∨ c = '.' ∨ c = '-' then (Token.Value, c :: cs)
    else advanceToNextToken cs

/-- `consumeCommand_`: advance to the next token; it must be a command letter,
which is consumed and returned together with its (relative/absolute) token. -/
def consumeCommand (s : List Char) : Except Err (Char × Token × List Char) :=
  let a := advanceToNextToken s
  if a.1 = Token.RelativeCommand ∨ a.1 = Token.AbsoluteCommand then
    match a.2 with
    | c :: r => .ok (c, a.1, r)
    | [] => .error .expectedCommand
  else .error .expectedCommand

/-- The value scanner inside `consumeValue_`: starting at a numeric-value
character, extend the token while the next character is a digit, a first `.`,
a `-` in start position, or `e` (which resets the start flag). -/
def scanValue : List Char → Bool → Bool → List Char × List Char
  | [], _, _ => ([], [])
  | c :: cs, start, seenDot =>
    if ¬ (('0' ≤ c ∧ c ≤ '9') ∨ (c = '.' ∧ seenDot = false) ∨ (c = '-' ∧ start = true) ∨ c = 'e')
    then ([], c :: cs)
    else
      let p := scanValue cs (c = 'e') (seenDot || c = '.')
      (c :: p.1, p.2)

/-- Digit value of a digit character. -/
def digitVal (c : Char) : ℕ := c.toNat - 48

/-- Split off a maximal run of decimal digits. -/
def takeDigits : List Char → List Char × List Char
  | [] => ([], [])
  | c :: cs =>
    if '0' ≤ c ∧ c ≤ '9' then
      let p := takeDigits cs
      (c :: p.1, p.2)
    else ([], c :: cs)

/-- Fold a digit run into a natural number. -/
def digitsToNat (ds : List Char) : ℕ := ds.foldl (fun a c => a * 10 + digitVal c) 0

/-- JavaScript `parseFloat` on the tokens produced by `scanValue`: optional
sign, integer digits, optional fraction, optional `e`-exponent whose
incomplete forms are ignored.  Modelled over `ℚ`, which carries every finite
value exactly but has no carrier for two float-only outcomes: a token with
no digits at all (such as a bare `-` or `.`) yields `NaN` in JavaScript (the
model returns `0` there), and an overflowing value such as `1e999` yields
`Infinity` (the model returns the exact rational).  The round-trip claim C1
excludes both corners by hypothesis — `DigitTokens` rules out digitless
tokens and the `PlainCmd` magnitude bound rules out overflow — and no other
claim touches them. -/
def jsParseFloat (cs : List Char) : ℚ :=
  let sgn : ℚ × List Char := match cs with
    | '-' :: r => (-1, r)
    | _ => (1, cs)
  let ip := takeDigits sgn.2
  let fp : List Char × List Char := match ip.2 with
    | '.' :: r => takeDigits r
    | _ => ([], ip.2)
  if ip.1.length + fp.1.length = 0 then 0
  else
    let mant : ℚ := sgn.1 * ((digitsToNat ip.1 : ℚ) + (digitsToNat fp.1 : ℚ) / (10 : ℚ) ^ fp.1.length)
    match fp.2 with
    | 'e' :: r =>
      let es : ℤ × List Char := match r with
        | '-' :: r2 => (-1, r2)
        | '+' :: r2 => (1, r2)
        | _ => (1, r)
      let eds := takeDigits es.2
      if eds.1.length = 0 then mant
      else mant * (10 : ℚ) ^ (es.1 * (digitsToNat eds.1 : ℤ))
    | _ => mant

/-- `consumeValue_`: advance to the next token, require a numeric value, scan
it and parse it. -/
def consumeValue (s : List Char) : Except Err (ℚ × List Char) :=
  let a := advanceToNextToken s
  if a.1 = Token.Value then
    let p := scanValue a.2 true false
    if p.1 = [] then .error .expectedValue
    else .ok (jsParseFloat p.1, p.2)
  else .error .expectedValue

/-- `consumePoint_`: two values, offset by the current point when relative.
Every relative call site is guarded so that `currentPoint` is set; the `none`
branch is unreachable there. -/
def consumePoint (relative : Bool) (currentPoint : Option Point) (s : List Char) :
    Except Err (Point × List Char) := do
  let xv ← consumeValue s
  let yv ← consumeValue xv.2
  if relative then
    match currentPoint with
    | some c => .ok (⟨xv.1 + c.x, yv.1 + c.y⟩, yv.2)
    | none => .ok (⟨xv.1, yv.1⟩, yv.2)
  else .ok (⟨xv.1, yv.1⟩, yv.2)

/-- The `M`/`m` repetition loop: the first point emits a Move (and sets
`lastMovePoint`), every further point emits a Line; each iteration clears
`currentControlPoint` and updates `currentPoint`. -/
def runM (relative : Bool) : ℕ → Bool → PState → Except Err (List DrawCommand × PState)
  | 0, _, _ => .error .outOfFuel
  | fuel + 1, isFirstPoint, st =>
    let a := advanceToNextToken st.rest
    if a.1 = Token.Value then do
      let p ← consumePoint relative st.currentPoint a.2
      let cmd := if isFirstPoint then DrawCommand.MoveCommand st.currentPoint p.1
                 else DrawCommand.LineCommand (st.currentPoint.getD ⟨0, 0⟩) p.1
      let lm := if isFirstPoint then some p.1 else st.lastMovePoint
      let r ← runM relative fuel false ⟨p.2, some p.1, none, lm⟩
      .ok (cmd :: r.1, r.2)
    else .ok ([], { st with rest := a.2 })

/-- The `C`/`c` repetition loop: two control points and an end point per
iteration; sets `currentControlPoint` to the second control point. -/
def runC (relative : Bool) : ℕ → PState → Except Err (List DrawCommand × PState)
  | 0, _ => .error .outOfFuel
  | fuel + 1, st =>
    let a := advanceToNextToken st.rest
    if a.1 = Token.Value then do
      let cp1 ← consumePoint relative st.currentPoint a.2
      let cp2 ← consumePoint relative st.currentPoint cp1.2
      let ep ← consumePoint relative st.currentPoint cp2.2
      let start := st.currentPoint.getD ⟨0, 0⟩
      let r ← runC relative fuel ⟨ep.2, some ep.1, some cp2.1, st.lastMovePoint⟩
      .ok (DrawCommand.BezierCurveCommand start cp1.1 cp2.1 ep.1 :: r.1, r.2)
    else .ok ([], { st with rest := a.2 })

/-- The `S`/`s` repetition loop: the first control point is the reflection of
`currentControlPoint` through the current point when that slot is set, and
otherwise it is `cp2`, the consumed second control point. -/
def runS (relative : Bool) : ℕ → PState → Except Err (List DrawCommand × PState)
  | 0, _ => .error .outOfFuel
  | fuel + 1, st =>
    let a := advanceToNextToken st.rest
    if a.1 = Token.Value then do
      let cp2 ← consumePoint relative st.currentPoint a.2
      let ep ← consumePoint relative st.currentPoint cp2.2
      let cur := st.currentPoint.getD ⟨0, 0⟩
      let cp1 : Point := match st.currentControlPoint with
        | some q => ⟨cur.x + (cur.x - q.x), cur.y + (cur.y - q.y)⟩
        | none => cp2.1
      let r ← runS relative fuel ⟨ep.2, some ep.1, some cp2.1, st.lastMovePoint⟩
      .ok (DrawCommand.BezierCurveCommand cur cp1 cp2.1 ep.1 :: r.1, r.2)
    else .ok ([], { st with rest := a.2 })

/-- The `Q`/`q` repetition loop. -/
def runQ (relative : Bool) : ℕ → PState → Except Err (List DrawCommand × PState)
  | 0, _ => .error .outOfFuel
  | fuel + 1, st =>
    let a := advanceToNextToken st.rest
    if a.1 = Token.Value then do
      let cp ← consumePoint relative st.currentPoint a.2
      let ep ← consumePoint relative st.currentPoint cp.2
      let cur := st.currentPoint.getD ⟨0, 0⟩
      let r ← runQ relative fuel ⟨ep.2, some ep.1, some cp.1, st.lastMovePoint⟩
      .ok (DrawCommand.QuadraticCurveCommand cur cp.1 ep.1 :: r.1, r.2)
    else .ok ([], { st with rest := a.2 })

/-- The `T`/`t` repetition loop: the control point is the reflection of
`currentControlPoint` when set, and otherwise the new end point. -/
def runT (relative : Bool) : ℕ → PState → Except Err (List DrawCommand × PState)
  | 0, _ => .error .outOfFuel
  | fuel + 1, st =>
    let a := advanceToNextToken st.rest
    if a.1 = Token.Value then do
      let ep ← consumePoint relative st.currentPoint a.2
      let cur := st.currentPoint.getD ⟨0, 0⟩
      let cp : Point := match st.currentControlPoint with
        | some q => ⟨cur.x + (cur.x - q.x), cur.y + (cur.y - q.y)⟩
        | none => ep.1
      let r ← runT relative fuel ⟨ep.2, some ep.1, some cp, st.lastMovePoint⟩
      .ok (DrawCommand.QuadraticCurveCommand cur cp ep.1 :: r.1, r.2)
    else .ok ([], { st with rest := a.2 })

/-- The `L`/`l` repetition loop. -/
def runL (relative : Bool) : ℕ → PState → Except Err (List DrawCommand × PState)
  | 0, _ => .error .outOfFuel
  | fuel + 1, st =>
    let a := advanceToNextToken st.rest
    if a.1 = Token.Value then do
      let ep ← consumePoint relative st.currentPoint a.2
      let cur := st.currentPoint.getD ⟨0, 0⟩
      let r ← runL relative fuel ⟨ep.2, some ep.1, none, st.lastMovePoint⟩
      .ok (DrawCommand.LineCommand cur ep.1 :: r.1, r.2)
    else .ok ([], { st with rest := a.2 })

/-- The `H`/`h` repetition loop: one value fixes the x coordinate, y comes
from the current point. -/
def runH (relative : Bool) : ℕ → PState → Except Err (List DrawCommand × PState)
  | 0, _ => .error .outOfFuel
  | fuel + 1, st =>
    let a := advanceToNextToken st.rest
    if a.1 = Token.Value then do
      let xv ← consumeValue a.2
      let cur := st.currentPoint.getD ⟨0, 0⟩
      let ep : Point := ⟨if relative then xv.1 + cur.x else xv.1, cur.y⟩
      let r ← runH relative fuel ⟨xv.2, some ep, none, st.lastMovePoint⟩
      .ok (DrawCommand.LineCommand cur ep :: r.1, r.2)
    else .ok ([], { st with rest := a.2 })

/-- The `V`/`v` repetition loop. -/
def runV (relative : Bool) : ℕ → PState → Except Err (List DrawCommand × PState)
  | 0, _ => .error .outOfFuel
  | fuel + 1, st =>
    let a := advanceToNextToken st.rest
    if a.1 = Token.Value then do
      let yv ← consumeValue a.2
      let cur := st.currentPoint.getD ⟨0, 0⟩
      let ep : Point := ⟨cur.x, if relative then yv.1 + cur.y else yv.1⟩
      let r ← runV relative fuel ⟨yv.2, some ep, none, st.lastMovePoint⟩
      .ok (DrawCommand.LineCommand cur ep :: r.1, r.2)
    else .ok ([], { st with rest := a.2 })

/-- The `A`/`a` repetition loop: five raw numeric parameters and an end
point.  The two flags are consumed as raw numbers, unvalidated. -/
def runA (relative : Bool) : ℕ → PState → Except Err (List DrawCommand × PState)
  | 0, _ => .error .outOfFuel
  | fuel + 1, st =>
    let a := advanceToNextToken st.rest
    if a.1 = Token.Value then do
      let rx ← consumeValue a.2
      let ry ← consumeValue rx.2
      let rot ← consumeValue ry.2
      let laf ← consumeValue rot.2
      let sf ← consumeValue laf.2
      let ep ← consumePoint relative st.currentPoint sf.2
      let cur := st.currentPoint.getD ⟨0, 0⟩
      let r ← runA relative fuel ⟨ep.2, some ep.1, none, st.lastMovePoint⟩
      .ok (DrawCommand.EllipticalArcCommand cur.x cur.y rx.1 ry.1 rot.1 laf.1 sf.1
            ep.1.x ep.1.y :: r.1, r.2)
    else .ok ([], { st with rest := a.2 })

/-- The main `while (index < pathString.length)` loop of `parseCommands`: one
iteration consumes one command letter and dispatches on it.  A letter with no
matching `switch` case is silently skipped (the source has no `default`
branch).  The `Z`/`z` case emits a Close and, like the source, updates
neither `currentPoint` nor `currentControlPoint`. -/
def parseLoop : ℕ → PState → Except Err (List DrawCommand)
  | 0, _ => .error .outOfFuel
  | fuel + 1, st =>
    match st.rest with
    | [] => .ok []
    | _ :: _ => do
      let c ← consumeCommand st.rest
      let relative : Bool := c.2.1 = Token.RelativeCommand
      let st1 : PState := { st with rest := c.2.2 }
      if c.1 = 'M' ∨ c.1 = 'm' then
        if relative ∧ st1.currentPoint = none then .error .currentPointRequired
        else do
          let r ← runM relative (st1.rest.length + 1) true st1
          let more ← parseLoop fuel r.2
          .ok (r.1 ++ more)
      else if c.1 = 'C' ∨ c.1 = 'c' then
        if st1.currentPoint = none then .error .currentPointMissing
        else do
          let r ← runC relative (st1.rest.length + 1) st1
          let more ← parseLoop fuel r.2
          .ok (r.1 ++ more)
      else if c.1 = 'S' ∨ c.1 = 's' then
        if st1.currentPoint = none then .error .currentPointMissing
        else do
          let r ← runS relative (st1.rest.length + 1) st1
          let more ← parseLoop fuel r.2
          .ok (r.1 ++ more)
      else if c.1 = 'Q' ∨ c.1 = 'q' then
        if st1.currentPoint = none then .error .currentPointMissing
        else do
          let r ← runQ relative (st1.rest.length + 1) st1
          let more ← parseLoop fuel r.2
          .ok (r.1 ++ more)
      else if c.1 = 'T' ∨ c.1 = 't' then
        if st1.currentPoint = none then .error .currentPointMissing
        else do
          let r ← runT relative (st1.rest.length + 1) st1
          let more ← parseLoop fuel r.2
          .ok (r.1 ++ more)
      else if c.1 = 'L' ∨ c.1 = 'l' then
        if st1.currentPoint = none then .error .currentPointMissing
        else do
          let r ← runL relative (st1.rest.length + 1) st1
          let more ← parseLoop fuel r.2
          .ok (r.1 ++ more)
      else if c.1 = 'H' ∨ c.1 = 'h' then
        if st1.currentPoint = none then .error .currentPointMissing
        else do
          let r ← runH relative (st1.rest.length + 1) st1
          let more ← parseLoop fuel r.2
          .ok (r.1 ++ more)
      else if c.1 = 'V' ∨ c.1 = 'v' then
        if st1.currentPoint = none then .error .currentPointMissing
        else do
          let r ← runV relative (st1.rest.length + 1) st1
          let more ← parseLoop fuel r.2
          .ok (r.1 ++ more)
      else if c.1 = 'A' ∨ c.1 = 'a' then
        if st1.currentPoint = none then .error .currentPointMissing
        else do
          let r ← runA relative (st1.rest.length + 1) st1
          let more ← parseLoop fuel r.2
          .ok (r.1 ++ more)
      else if c.1 = 'Z' ∨ c.1 = 'z' then
        match st1.currentPoint with
        | none => .error .currentPointMissing
        | some cur => do
          let more ← parseLoop fuel st1
          .ok (DrawCommand.ClosePathCommand cur st1.lastMovePoint :: more)
      else parseLoop fuel st1

/-- `parseCommands` (without the optional transform-matrix argument, which no
claim involves): parse a path string into its drawing commands.  The fuel
`length + 1` is always sufficient because every loop iteration consumes at
least one character. -/
def parseCommands (pathString : String) : Except Err (List DrawCommand) :=
  parseLoop (pathString.length + 1) ⟨pathString.toList, none, none, none⟩

/-! ### The serializer `commandsToString` -/

/-- JavaScript `Number.prototype.toFixed(3)` as a rounding operation on the
numeric value: the nearest multiple of `1/1000`, ties toward the larger value
(ECMA-262: of two equally near integers `n`, the larger is picked). -/
def toFixed3 (n : ℚ) : ℚ := (⌊n * 1000 + 1 / 2⌋ : ℚ) / 1000

/-- Multiplicity of `p` in `n` (fuel-based so that it reduces in the kernel). -/
def countFactorAux (p : ℕ) : ℕ → ℕ → ℕ
  | 0, _ => 0
  | fuel + 1, n => if 2 ≤ p ∧ 0 < n ∧ n % p = 0 then countFactorAux p fuel (n / p) + 1 else 0

/-- Multiplicity of `p` in `n`. -/
def countFactor (p n : ℕ) : ℕ := countFactorAux p n n

/-- Little-endian decimal digits of `n` (fuel-based; `[]` for `0`). -/
def natDigitsAux : ℕ → ℕ → List ℕ
  | 0, _ => []
  | fuel + 1, n => if n = 0 then [] else n % 10 :: natDigitsAux fuel (n / 10)

/-- Little-endian decimal digits of `n`. -/
def natDigits (n : ℕ) : List ℕ := natDigitsAux n n

/-- The character of a decimal digit. -/
def digitChar (d : ℕ) : Char := Char.ofNat (48 + d)

/-- Big-endian decimal digit characters of `n`, with `"0"` for zero. -/
def natToChars (n : ℕ) : List Char :=
  if n = 0 then ['0'] else ((natDigits n).reverse).map digitChar

/-- Pad a digit-character list with leading zeros up to length `k`. -/
def padZeros (k : ℕ) (ds : List Char) : List Char :=
  List.replicate (k - ds.length) '0' ++ ds

/-- The plain-decimal branch of JavaScript `Number(q).toString()`: sign,
integer digits, and the fractional digits with no trailing zeros.  Taken when
`1e-6 ≤ |q| < 1e21` (or `q = 0`); see `jsNumToString` for the exponential
branches.  A rational with no finite decimal expansion cannot arise from a
JavaScript number; the fallback branch for it is unreachable. -/
def jsPlainString (q : ℚ) : String :=
  if q = 0 then "0"
  else
    let sgn := if q < 0 then "-" else ""
    let a := |q|
    let k := max (countFactor 2 a.den) (countFactor 5 a.den)
    let t : ℚ := a * (10 : ℚ) ^ k
    if t.den = 1 then
      let m := t.num.toNat
      let ip := m / 10 ^ k
      let fp := m % 10 ^ k
      if fp = 0 then sgn ++ String.mk (natToChars ip)
      else sgn ++ String.mk (natToChars ip) ++ "." ++ String.mk (padZeros k (natToChars fp))
    else sgn ++ String.mk (natToChars a.num.toNat)

/-- A digit-character run with its trailing zeros removed. -/
def stripZeros (ds : List Char) : List Char :=
  (ds.reverse.dropWhile (fun c => c = '0')).reverse

/-- The exponential branch of JavaScript `Number.toString` on a positive
finite decimal: the significant digits with the point after the first one,
then `e`, the exponent sign, and the exponent (ECMA-262 `Number::toString`
with radix 10, cases `k ≤ n ≤ 21` excluded by the caller's guard).  On the
scaled integer `m` with `a = m / 10 ^ k`, the significant digits are those of
`m` without trailing zeros and the decimal exponent is
`(digit count of m) - k - 1`. -/
def jsExpChars (a : ℚ) : List Char :=
  let k := max (countFactor 2 a.den) (countFactor 5 a.den)
  let t : ℚ := a * (10 : ℚ) ^ k
  if t.den = 1 then
    let m := t.num.toNat
    let ds := natToChars m
    let mant := stripZeros ds
    let expo : ℤ := (ds.length : ℤ) - k - 1
    let etail := (if expo < 0 then '-' else '+') :: natToChars expo.natAbs
    match mant with
    | [] => ['0']
    | [d] => d :: 'e' :: etail
    | d :: rest => d :: '.' :: (rest ++ 'e' :: etail)
  else natToChars a.num.toNat

/-- JavaScript `Number(q).toString()` on the serializer's values, over the
rational model of the stored numbers: plain decimal rendering for
`1e-6 ≤ |q| < 1e21` and for `0`, exponential `d.ddde±NN` notation outside
that band (ECMA-262 `Number::toString`).  The binary-float shortest-digit
selection is outside the rational model: a value the model carries exactly
is rendered with all its decimal digits.  `NaN` and `Infinity` have no
rational carrier; see `jsParseFloat` for where they would arise. -/
def jsNumToString (q : ℚ) : String :=
  if q ≠ 0 ∧ ((10 : ℚ) ^ 21 ≤ |q| ∨ |q| < 1 / 10 ^ 6) then
    (if q < 0 then "-" else "") ++ String.mk (jsExpChars |q|)
  else jsPlainString q

/-- `Number(n.toFixed(3))` as a value: ECMA-262 `Number.prototype.toFixed`
rounds to 3 decimals only below `10^21`; at or above it, `toFixed` returns
`ToString(x)` and the `Number(...)` wrapper gives the value back
unchanged. -/
def jsToFixed3 (n : ℚ) : ℚ := if |n| < (10 : ℚ) ^ 21 then toFixed3 n else n

/-- `svgChar` of a command.  Modelled from the spec: `drawcommand.ts` is not
under `src/`; every command class reports its absolute (upper-case) letter,
`BezierCurveCommand` being the `C` kind and `QuadraticCurveCommand` the `Q`
kind. -/
def svgChar : DrawCommand → Char
  | .MoveCommand .. => 'M'
  | .LineCommand .. => 'L'
  | .QuadraticCurveCommand .. => 'Q'
  | .BezierCurveCommand .. => 'C'
  | .EllipticalArcCommand .. => 'A'
  | .ClosePathCommand .. => 'Z'

/-- `cmd.points.slice(1)`: the points after the start anchor.  Modelled from
the spec: `points` lists the start anchor, the control points in order and
the end anchor.  The arc case is never used by the serializer (it returns
early on arcs). -/
def pointsAfterStart : DrawCommand → List Point
  | .MoveCommand _ e => [e]
  | .LineCommand _ e => [e]
  | .QuadraticCurveCommand _ cp e => [cp, e]
  | .BezierCurveCommand _ c1 c2 e => [c1, c2, e]
  | .ClosePathCommand _ _ => []
  | .EllipticalArcCommand .. => []

/-- The tokens the serializer pushes for one command: its kind letter, then
for an arc the single element `args.slice(2)` (the seven raw arc parameters,
which `Array.prototype.join` renders comma-separated and unrounded), for a
close nothing, and otherwise each coordinate of the points after the start,
rounded via `Number(n.toFixed(3)).toString()` (`jsToFixed3`, which leaves
magnitudes at or above `10^21` unrounded). -/
def cmdTokens (cmd : DrawCommand) : List String :=
  match cmd with
  | .EllipticalArcCommand _ _ rx ry rot laf sf ex ey =>
    [String.mk [svgChar cmd],
     String.intercalate "," ([rx, ry, rot, laf, sf, ex, ey].map jsNumToString)]
  | _ =>
    String.mk [svgChar cmd] ::
      ((pointsAfterStart cmd).flatMap (fun p => [p.x, p.y])).map
        (fun n => jsNumToString (jsToFixed3 n))

/-- `commandsToString`: all pushed tokens joined by single spaces. -/
def commandsToString (commands : List DrawCommand) : String :=
  String.intercalate " " (commands.flatMap cmdTokens)

/-! ### The compatibility fixer (`AutoAwesome.ts`)

`AutoAwesome.ts` is under `src/`; the `Path`/`SubPath`/`Command` model it
operates on, `NeedlemanWunsch.ts` and `MathUtil` are not, and are modelled
from the spec below.  `autoFixSubPath` reads only `getSvgChar()`, `getEnd()`
and `canConvertTo()` of a command, so the modelled `Command` carries exactly
a kind tag and an end anchor. -/

/-- The six command kinds (§3 of the spec). -/
inductive SvgChar where
  | M
  | L
  | Q
  | C
  | A
  | Z
deriving DecidableEq, Repr

/-- Modelled from the spec: a path `Command` as consumed by the fixer — a
kind tag plus the end anchor (`getSvgChar()` / `getEnd()`). -/
structure Command where
  svgChar : SvgChar
  endPt : Point
deriving DecidableEq, Repr

instance : Inhabited Command := ⟨⟨SvgChar.M, ⟨0, 0⟩⟩⟩

/-- Modelled from the spec: an immutable `Path` is an ordered sequence of
subpaths, each an ordered sequence of commands (§3). -/
abbrev PPath := List (List Command)

/-- Tuning values and collaborators external to `src/`: the
`NeedlemanWunsch.ts` constants `MATCH` and `MISMATCH`, its fixed gap penalty,
the command-kind capability table (`canConvertTo`, §6) and
`MathUtil.distance`.  Modelled from the spec as parameters, since their
values are not derivable from the visible code (§9). -/
structure FixParams where
  matchFloor : ℚ
  mismatch : ℚ
  gapPenalty : ℚ
  canConvert : SvgChar → SvgChar → Bool
  dist : Point → Point → ℚ

/-- `getSubPath` / `getSubPaths()[i].getCommands()`. -/
def getSubPath (p : PPath) (subIdx : ℕ) : List Command := p.getD subIdx []

/-- `path.getCommand(subIdx, cmdIdx)`; out of range gives `none` (the source
would fault there, and no call below reaches that case). -/
def getCommand (p : PPath) (subIdx cmdIdx : ℕ) : Option Command :=
  (getSubPath p subIdx).get? cmdIdx

/-- Replace the `n`-th entry of a list by `f` of it (identity out of range);
the mutator builder applied to one index. -/
def modifyNth {α : Type} : List α → ℕ → (α → α) → List α
  | [], _, _ => []
  | a :: rest, 0, f => f a :: rest
  | a :: rest, n + 1, f => a :: modifyNth rest n f

/-- Modelled from the spec (§3): a subpath is closed when it begins with a
Move and ends with a Close whose end equals the initial Move target. -/
def isClosed (cs : List Command) : Bool :=
  match cs, cs.getLast? with
  | c0 :: _, some cl =>
    decide (c0.svgChar = SvgChar.M ∧ cl.svgChar = SvgChar.Z ∧ cl.endPt = c0.endPt)
  | _, _ => false

/-- Modelled from the spec: `reverseSubPath` performs a point-order reversal
of one subpath.  The Move stays first; for a closed subpath the Close stays
last and the interior commands are reversed, for an open one the endpoints
are visited in reverse order. -/
def reverseSubPathCmds (cs : List Command) : List Command :=
  match cs with
  | [] => []
  | c0 :: rest =>
    match rest with
    | [] => [c0]
    | _ :: _ =>
      let cl := rest.getLastD c0
      let mids := rest.dropLast
      if isClosed cs then
        c0 :: (mids.reverse ++ [cl])
      else
        (⟨c0.svgChar, cl.endPt⟩ : Command) ::
          (((rest.map (fun c => c.svgChar)).reverse).zipWith
            (fun k e => (⟨k, e⟩ : Command))
            ((c0.endPt :: mids.map (fun c => c.endPt)).reverse))

/-- `path.mutate().reverseSubPath(subIdx).build()`. -/
def reverseSubPath (p : PPath) (subIdx : ℕ) : PPath :=
  modifyNth p subIdx reverseSubPathCmds

/-- Modelled from the spec: `shiftSubPathBack(subIdx, i)` moves the seam of a
closed subpath `i` commands forward: the cycle of anchor points is rotated by
`i`, the rotated closing segment is drawn as a Line, and the subpath stays
closed.  The identity on open subpaths (the fixer only shifts closed ones). -/
def shiftSubPathBackCmds (i : ℕ) (cs : List Command) : List Command :=
  if isClosed cs then
    match cs with
    | c0 :: rest@(_ :: _) =>
      let mids := rest.dropLast
      let cyclePts : List Point := c0.endPt :: mids.map (fun c => c.endPt)
      let cycleKinds : List SvgChar := mids.map (fun c => c.svgChar) ++ [SvgChar.L]
      let pts := cyclePts.rotate i
      let kinds := cycleKinds.rotate i
      match pts with
      | [] => cs
      | p0 :: restPts =>
        (⟨SvgChar.M, p0⟩ : Command) ::
          (kinds.zipWith (fun k e => (⟨k, e⟩ : Command)) restPts ++
            [(⟨SvgChar.Z, p0⟩ : Command)])
    | _ => cs
  else cs

/-- `path.mutate().shiftSubPathBack(subIdx, i).build()`. -/
def shiftSubPathBack (p : PPath) (subIdx i : ℕ) : PPath :=
  modifyNth p subIdx (shiftSubPathBackCmds i)

/-- Modelled from the spec: `convertCommand` re-expresses a command as the
target kind with unchanged endpoints (§6, glossary). -/
def convertCommand (p : PPath) (subIdx cmdIdx : ℕ) (k : SvgChar) : PPath :=
  modifyNth p subIdx (fun cs => modifyNth cs cmdIdx (fun c => ⟨k, c.endPt⟩))

/-- Modelled from the spec (§4.4 step 4): `splitCommand(subIdx, cmdIdx, ts)`
decomposes the command at `cmdIdx` into `|ts| + 1` commands of the same kind
covering the same start-to-end geometry, the new interior anchors placed at
the parametric fractions `ts` (linear interpolation stands in for the
per-kind split formula, which the spec delegates to the Command model). -/
def splitCommandCmds (cmdIdx : ℕ) (ts : List ℚ) (cs : List Command) : List Command :=
  match cs.get? cmdIdx with
  | none => cs
  | some c =>
    let start : Point := match cmdIdx with
      | 0 => c.endPt
      | n + 1 => ((cs.get? n).map (fun d => d.endPt)).getD c.endPt
    let pieces :=
      (ts.map (fun t =>
        (⟨c.svgChar, ⟨start.x + t * (c.endPt.x - start.x),
                      start.y + t * (c.endPt.y - start.y)⟩⟩ : Command))) ++ [c]
    cs.take cmdIdx ++ pieces ++ cs.drop (cmdIdx + 1)

/-- `mutator.splitCommand(subIdx, cmdIdx, ...ts)`. -/
def splitCommand (p : PPath) (subIdx cmdIdx : ℕ) (ts : List ℚ) : PPath :=
  modifyNth p subIdx (splitCommandCmds cmdIdx ts)

/-- The scoring function `getScoreFn` built inside `autoFixSubPath`:
kind-incompatible pairs score the mismatch constant, every other pair scores
the reciprocal of the end-anchor distance floored at the match constant. -/
def getScoreFn (P : FixParams) (a b : Command) : ℚ :=
  if a.svgChar ≠ b.svgChar ∧ P.canConvert a.svgChar b.svgChar = false ∧
      P.canConvert b.svgChar a.svgChar = false then
    P.mismatch
  else 1 / max P.matchFloor (P.dist a.endPt b.endPt)

/-- The two gap-marked rows and the score produced by the aligner — the
`Alignment<T>` lists of the source, an entry being `none` exactly when
`!alignment.obj` (a gap). -/
structure AlignResult where
  fromList : List (Option Command)
  toList : List (Option Command)
  score : ℚ
deriving DecidableEq, Repr

/-- One row of the Needleman–Wunsch table from the previous row: each cell is
the best of the diagonal match, the gap from above and the gap from the left.
Modelled from the spec (§4.3): `NeedlemanWunsch.ts` is not under `src/`. -/
def nwNextRow (scoreFn : Command → Command → ℚ) (gap : ℚ) (ai : Command)
    (b : List Command) (prev : List ℚ) : List ℚ :=
  let first := prev.headD 0 + gap
  let r := b.foldl
    (fun (acc : List ℚ × List ℚ) bj =>
      match acc.2 with
      | pj :: restPrev =>
        let diag := pj + scoreFn ai bj
        let up := restPrev.headD 0 + gap
        let left := acc.1.headD 0 + gap
        (max (max diag up) left :: acc.1, restPrev)
      | [] => (acc.1, []))
    ([first], prev)
  r.1.reverse

/-- The full `(|a|+1) × (|b|+1)` dynamic-programming table (§4.3). -/
def nwTable (scoreFn : Command → Command → ℚ) (gap : ℚ) (a b : List Command) :
    List (List ℚ) :=
  let row0 := (List.range (b.length + 1)).map (fun j => (j : ℚ) * gap)
  let r := a.foldl
    (fun (acc : List (List ℚ) × List ℚ) ai =>
      let nr := nwNextRow scoreFn gap ai b acc.2
      (nr :: acc.1, nr))
    ([row0], row0)
  r.1.reverse

/-- Table lookup with a zero default. -/
def tGet (T : List (List ℚ)) (i j : ℕ) : ℚ := (T.getD i []).getD j 0

/-- The backtrace of §4.3: from the far corner, prefer the diagonal on ties,
then consuming the `from` side, then the `to` side; prepending while walking
back yields the rows in forward order. -/
def nwBacktrace (scoreFn : Command → Command → ℚ) (gap : ℚ) (a b : List Command)
    (T : List (List ℚ)) :
    ℕ → ℕ → ℕ → List (Option Command) → List (Option Command) →
    List (Option Command) × List (Option Command)
  | 0, _, _, accF, accT => (accF, accT)
  | fuel + 1, i, j, accF, accT =>
    if i = 0 ∧ j = 0 then (accF, accT)
    else if 0 < i ∧ 0 < j ∧
        tGet T i j = tGet T (i - 1) (j - 1) +
          scoreFn (a.getD (i - 1) default) (b.getD (j - 1) default) then
      nwBacktrace scoreFn gap a b T fuel (i - 1) (j - 1)
        (some (a.getD (i - 1) default) :: accF)
        (some (b.getD (j - 1) default) :: accT)
    else if 0 < i ∧ (j = 0 ∨ tGet T i j = tGet T (i - 1) j + gap) then
      nwBacktrace scoreFn gap a b T fuel (i - 1) j
        (some (a.getD (i - 1) default) :: accF) (none :: accT)
    else if 0 < j then
      nwBacktrace scoreFn gap a b T fuel i (j - 1)
        (none :: accF) (some (b.getD (j - 1) default) :: accT)
    else (accF, accT)

/-- `align(a, b, scoreFn)` of `NeedlemanWunsch.ts`, modelled from §4.3 of the
spec: fill the table, backtrace, report the far-corner score. -/
def align (a b : List Command) (scoreFn : Command → Command → ℚ) (gap : ℚ) :
    AlignResult :=
  let T := nwTable scoreFn gap a b
  let r := nwBacktrace scoreFn gap a b T (a.length + b.length + 1)
    a.length b.length [] []
  ⟨r.1, r.2, tGet T a.length b.length⟩

/-- The candidate generation step of `autoFixSubPath`: flat-map over the
original and its reversal, each followed (when the subpath is closed) by its
cyclic shifts `1 … count − 2`. -/
def candidatePaths (subIdx : ℕ) (fromPath : PPath) : List PPath :=
  ([fromPath, reverseSubPath fromPath subIdx]).flatMap
    (fun p =>
      p :: (if isClosed (getSubPath p subIdx) then
              (List.range' 1 ((getSubPath p subIdx).length - 2)).map
                (fun i => shiftSubPathBack p subIdx i)
            else []))

/-- The alignment-selection `reduce` of `autoFixSubPath`:
`prevScore > currScore ? prev : curr` folded over the candidate alignments. -/
def chooseBest (h : PPath × AlignResult) (t : List (PPath × AlignResult)) :
    PPath × AlignResult :=
  t.foldl (fun prev curr => if prev.2.score > curr.2.score then prev else curr) h

/-- The per-position gap bookkeeping record of `autoFixSubPath`. -/
structure CmdInfo where
  isGap : Bool
  isNextGap : Bool
  nextCmdIdx : ℕ
deriving DecidableEq, Repr

instance : Inhabited CmdInfo := ⟨⟨false, false, 0⟩⟩

/-- `processAlignmentsFn`: mark each alignment position as gap or not, record
whether its successor is a gap, and carry the index of the next matched
command (incremented on non-gaps before being recorded). -/
def processAlignmentsAux : ℕ → List (Option Command) → List CmdInfo
  | _, [] => []
  | k, a :: rest =>
    let g := a.isNone
    let ng := match rest with
      | [] => false
      | b :: _ => b.isNone
    let k2 := if g then k else k + 1
    ⟨g, ng, k2⟩ :: processAlignmentsAux k2 rest

/-- `processAlignmentsFn` with the counter started at zero. -/
def processAlignmentsFn (l : List (Option Command)) : List CmdInfo :=
  processAlignmentsAux 0 l

/-- `createGapStreaksFn`: collect the maximal runs of consecutive gaps. -/
def createGapStreaksAux : List CmdInfo → List CmdInfo → List (List CmdInfo)
  | _, [] => []
  | current, ci :: rest =>
    if ci.isGap then
      if ci.isNextGap then createGapStreaksAux (current ++ [ci]) rest
      else (current ++ [ci]) :: createGapStreaksAux [] rest
    else createGapStreaksAux current rest

/-- `createGapStreaksFn` with an empty running streak. -/
def createGapStreaksFn (l : List CmdInfo) : List (List CmdInfo) :=
  createGapStreaksAux [] l

/-- Lodash `_.clamp(x, lower, upper)`: upper bound first, then lower. -/
def jsClamp (x lo hi : ℕ) : ℕ := max lo (min x hi)

/-- One queued `splitCommand` operation. -/
structure SplitOp where
  subIdx : ℕ
  cmdIdx : ℕ
  ts : List ℚ
deriving DecidableEq, Repr

/-- Insertion step for `sortPathOps`. -/
def insertOp (op : SplitOp) : List SplitOp → List SplitOp
  | [] => [op]
  | o :: rest =>
    if op.subIdx > o.subIdx ∨ (op.subIdx = o.subIdx ∧ op.cmdIdx > o.cmdIdx) then
      op :: o :: rest
    else o :: insertOp op rest

/-- `PathUtil.sortPathOps`, modelled from the spec (§4.4 step 4): order the
queued splits by descending position so earlier insertions never invalidate
later indices. -/
def sortPathOps (ops : List SplitOp) : List SplitOp := ops.foldr insertOp []

/-- Application of one queued split through the mutator. -/
def applyOp (acc : PPath) (op : SplitOp) : PPath :=
  splitCommand acc op.subIdx op.cmdIdx op.ts

/-- `applySplitsFn`: walk the gap streaks from the last to the first, clamp
each streak's insertion index into `[1, count − 1]`, queue the parametric
fractions `(i+1)/(k+1)`, sort the ops and run them through one mutator. -/
def applySplitsFn (subIdx : ℕ) (p : PPath) (gapGroups : List (List CmdInfo)) :
    PPath :=
  let numPaths := (getSubPath p subIdx).length
  let splitOps : List SplitOp := gapGroups.reverse.map
    (fun g =>
      ⟨subIdx, jsClamp (g.getLastD default).nextCmdIdx 1 (numPaths - 1),
        (List.range g.length).map (fun gi => ((gi : ℚ) + 1) / ((g.length : ℚ) + 1))⟩)
  let ops := sortPathOps splitOps
  ops.foldl applyOp p

/-- One step of the `autoConvert` walk at the enumerated pair `ci`: convert
the `from` side when it can become the `to` kind, else the `to` side when the
converse holds, else leave the pair mismatched.  The walk reads the original
`toPath` (as the source mutators do) while the edits accumulate. -/
def convertStep (P : FixParams) (subIdx : ℕ) (toPath : PPath)
    (acc : PPath × PPath) (ci : ℕ × Command) : PPath × PPath :=
  match getCommand toPath subIdx ci.1 with
  | none => acc
  | some toCmd =>
    if ci.2.svgChar = toCmd.svgChar then acc
    else if P.canConvert ci.2.svgChar toCmd.svgChar then
      (convertCommand acc.1 subIdx ci.1 toCmd.svgChar, acc.2)
    else if P.canConvert toCmd.svgChar ci.2.svgChar then
      (acc.1, convertCommand acc.2 subIdx ci.1 ci.2.svgChar)
    else acc

/-- `autoConvert`: walk the pairs at one subpath index with `convertStep`. -/
def autoConvert (P : FixParams) (subIdx : ℕ) (fromPath toPath : PPath) :
    PPath × PPath :=
  (getSubPath fromPath subIdx).enum.foldl (convertStep P subIdx toPath)
    (fromPath, toPath)

/-- `autoFixSubPath`: generate the candidates, align each against the target,
keep the reduce's choice, turn each row's gap streaks into splits on the
chosen candidate and the target, and convert the command kinds pairwise. -/
def autoFixSubPath (P : FixParams) (subIdx : ℕ) (fromPath toPath : PPath) :
    PPath × PPath :=
  let alignmentInfos : List (PPath × AlignResult) :=
    (candidatePaths subIdx fromPath).map
      (fun gp =>
        (gp, align (getSubPath gp subIdx) (getSubPath toPath subIdx)
          (getScoreFn P) P.gapPenalty))
  let alignmentInfo : PPath × AlignResult :=
    match alignmentInfos with
    | [] => (fromPath, align [] [] (getScoreFn P) P.gapPenalty)
    | h :: t => chooseBest h t
  let fromCmdInfos := processAlignmentsFn alignmentInfo.2.fromList
  let toCmdInfos := processAlignmentsFn alignmentInfo.2.toList
  let fromGapGroups := createGapStreaksFn fromCmdInfos
  let toGapGroups := createGapStreaksFn toCmdInfos
  let fromPathResult := applySplitsFn subIdx alignmentInfo.1 fromGapGroups
  let toPathResult := applySplitsFn subIdx toPath toGapGroups
  autoConvert P subIdx fromPathResult toPathResult

/-- One iteration of the `autoFix` loop at `subIdx`: the pair is fixed with
the command-richer side in the `from` role and the results are swapped back
into place. -/
def autoFixStep (P : FixParams) (acc : PPath × PPath) (subIdx : ℕ) :
    PPath × PPath :=
  let numFromCmds := (getSubPath acc.1 subIdx).length
  let numToCmds := (getSubPath acc.2 subIdx).length
  if numToCmds ≤ numFromCmds then
    autoFixSubPath P subIdx acc.1 acc.2
  else
    let r := autoFixSubPath P subIdx acc.2 acc.1
    (r.2, r.1)

/-- `autoFix`: for each common subpath index, fix the pair with the
command-richer side in the `from` role, threading the mutated paths through
the subsequent indices. -/
def autoFix (P : FixParams) (fromPath toPath : PPath) : PPath × PPath :=
  let numSubPaths := min fromPath.length toPath.length
  (List.range numSubPaths).foldl (autoFixStep P) (fromPath, toPath)

/-! ### Claim-side descriptions and concrete inputs -/

/-- The serializer's per-command output as the amended claim C6 words it: the
kind letter; for an elliptical arc one comma-joined token holding the seven
arc parameters rendered raw (the leading start-point pair skipped); for a
close nothing; for every other kind the `(x, y)` pair of each point after
the start, every coordinate rounded to 3 decimal places (`toFixed(3)`, which
leaves magnitudes at or above `10^21` unrounded) and rendered without a
forced trailing zero. -/
def claimTokensAmended (cmd : DrawCommand) : List String :=
  match cmd with
  | .MoveCommand _ e =>
    ["M", jsNumToString (jsToFixed3 e.x), jsNumToString (jsToFixed3 e.y)]
  | .LineCommand _ e =>
    ["L", jsNumToString (jsToFixed3 e.x), jsNumToString (jsToFixed3 e.y)]
  | .QuadraticCurveCommand _ cp e =>
    ["Q", jsNumToString (jsToFixed3 cp.x), jsNumToString (jsToFixed3 cp.y),
      jsNumToString (jsToFixed3 e.x), jsNumToString (jsToFixed3 e.y)]
  | .BezierCurveCommand _ c1 c2 e =>
    ["C", jsNumToString (jsToFixed3 c1.x), jsNumToString (jsToFixed3 c1.y),
      jsNumToString (jsToFixed3 c2.x), jsNumToString (jsToFixed3 c2.y),
      jsNumToString (jsToFixed3 e.x), jsNumToString (jsToFixed3 e.y)]
  | .ClosePathCommand _ _ => ["Z"]
  | .EllipticalArcCommand _ _ rx ry rot laf sf ex ey =>
    ["A", String.intercalate "," ([rx, ry, rot, laf, sf, ex, ey].map jsNumToString)]

/-- The serializer's per-command output as claim C6 states it verbatim: the
same shape, but with every numeric argument — the seven arc parameters
included — rounded to 3 decimal places. -/
def claimTokensOriginal (cmd : DrawCommand) : List String :=
  match cmd with
  | .EllipticalArcCommand _ _ rx ry rot laf sf ex ey =>
    ["A", String.intercalate ","
      ([rx, ry, rot, laf, sf, ex, ey].map (fun n => jsNumToString (toFixed3 n)))]
  | c => claimTokensAmended c

/-- The fold that turns a pair of commands with mismatched kinds into a
compatible pair when possible: the closed form of one `convertStep` at its
own index. -/
def convertPairResult (P : FixParams) (fc tc : Command) : Command × Command :=
  if fc.svgChar = tc.svgChar then (fc, tc)
  else if P.canConvert fc.svgChar tc.svgChar then ((⟨tc.svgChar, fc.endPt⟩ : Command), tc)
  else if P.canConvert tc.svgChar fc.svgChar then (fc, (⟨fc.svgChar, tc.endPt⟩ : Command))
  else (fc, tc)

/-- Counterexample path string for claim C5: a smooth cubic with no
established control point. -/
def exSmoothNoCtrl : String := "M0 0S1 2 3 4"

/-- The tail of `exSmoothNoCtrl` after the `S`, as a parser state. -/
def exSmoothTail : String := "1 2 3 4"

/-- The parser state just after consuming `S` in `exSmoothNoCtrl`. -/
def exSmoothState : PState := ⟨exSmoothTail.toList, some ⟨0, 0⟩, none, some ⟨0, 0⟩⟩

/-- Counterexample path string for claim C7: a relative move with no current
point. -/
def exRelFirst : String := "m1 2"

/-- An absolute-move path state tail for the C7 witness. -/
def exMoveTail : String := "10 20 30 40"

/-- The parser state at the start of an `M` run for the C7 witness. -/
def exMoveState : PState := ⟨exMoveTail.toList, none, none, none⟩

/-- Counterexample path string for claim C8: a quadratic, a close, then a
smooth quadratic that still sees the pre-close control point. -/
def exZKeepCtrl : String := "M0 0Q1 1 2 0ZT4 0"

/-- Counterexample path string for claim C9: trailing blank after a final
`z`. -/
def exTrailingSep : String := "M0 0z "

/-- The same path string without the trailing blank. -/
def exNoTrailing : String := "M0 0z"

/-- A round-trip input for the C1 witness. -/
def exTrianglePath : String := "M0,0L10,0L10,10Z"

/-- Counterexample arc for claim C6: its `rx` has more than three decimal
places. -/
def exArcFine : DrawCommand := DrawCommand.EllipticalArcCommand 0 0 (3 / 4000) 2 0 1 0 10 10

/-- Concrete fixer parameters for the counterexamples: a mismatch constant of
`-1000`, a gap penalty of `-1`, a perfect-match distance floor of `1/100`, a
capability table that can convert nothing, and the taxicab distance (an
instance of the abstract external distance). -/
def cexParams : FixParams :=
  ⟨1 / 100, -1000, -1, fun _ _ => false, fun p q => |p.x - q.x| + |p.y - q.y|⟩

/-- Counterexample `from` path for claim C2: one open subpath `M, A`. -/
def cexFrom : PPath := [[⟨SvgChar.M, ⟨0, 0⟩⟩, ⟨SvgChar.A, ⟨10, 0⟩⟩]]

/-- Counterexample `to` path for claim C2: one open subpath `M, Q`. -/
def cexTo : PPath := [[⟨SvgChar.M, ⟨0, 0⟩⟩, ⟨SvgChar.Q, ⟨0, 10⟩⟩]]

/-- First scored candidate for the claim C3 counterexample. -/
def cexAlignA : PPath × AlignResult := ([[⟨SvgChar.M, ⟨0, 0⟩⟩]], ⟨[], [], 5⟩)

/-- Second scored candidate for the claim C3 counterexample, with the same
score but a different payload. -/
def cexAlignB : PPath × AlignResult := ([[⟨SvgChar.M, ⟨1, 1⟩⟩]], ⟨[], [], 5⟩)

/-- A closed asymmetric triangle subpath for the claim C4 counterexample. -/
def cexTri : PPath :=
  [[⟨SvgChar.M, ⟨0, 0⟩⟩, ⟨SvgChar.L, ⟨4, 0⟩⟩, ⟨SvgChar.L, ⟨1, 3⟩⟩, ⟨SvgChar.Z, ⟨0, 0⟩⟩]]

/-- The point-order reversal of `cexTri`'s subpath. -/
def cexRevSub : List Command :=
  [⟨SvgChar.M, ⟨0, 0⟩⟩, ⟨SvgChar.L, ⟨1, 3⟩⟩, ⟨SvgChar.L, ⟨4, 0⟩⟩, ⟨SvgChar.Z, ⟨0, 0⟩⟩]

/-- A two-subpath path for the claim C10 witness. -/
def cexBig : PPath :=
  [[⟨SvgChar.M, ⟨0, 0⟩⟩, ⟨SvgChar.L, ⟨4, 0⟩⟩],
   [⟨SvgChar.M, ⟨9, 9⟩⟩, ⟨SvgChar.L, ⟨8, 8⟩⟩]]

/-- A one-subpath path for the claim C10 witness. -/
def cexSmall : PPath :=
  [[⟨SvgChar.M, ⟨0, 1⟩⟩, ⟨SvgChar.L, ⟨4, 1⟩⟩, ⟨SvgChar.L, ⟨5, 5⟩⟩]]

/-! ### Support definitions for the round-trip claim (C1)

The round-trip proof tracks two facts along a parsed command list: which
commands require an established current point, and how `lastMovePoint`
evolves; and it characterizes the re-parse of the serialized stream as a
pointwise transformation of the original commands. -/

/-- A rational with a finite decimal expansion — every value a JavaScript
path string denotes.  `parseFloat` outputs and their sums stay in this
set. -/
def DecimalQ (q : ℚ) : Prop := ∃ (z : ℤ) (k : ℕ), q = z / 10 ^ k

/-- Both coordinates have finite decimal expansions. -/
def DecimalPt (p : Point) : Prop := DecimalQ p.x ∧ DecimalQ p.y

/-- Pointwise 3-decimal rounding, the effect of serialization on a
coordinate pair. -/
def roundPt (p : Point) : Point := ⟨toFixed3 p.x, toFixed3 p.y⟩

/-- Whether the current point is established after a command: every emitted
command establishes it except a close, which leaves it as it was. -/
def trackCur (b : Bool) : DrawCommand → Bool
  | .ClosePathCommand _ _ => b
  | _ => true

/-- How `lastMovePoint` evolves along the emitted commands: only a Move
updates it. -/
def trackLm (lm : Option Point) : DrawCommand → Option Point
  | .MoveCommand _ e => some e
  | _ => lm

/-- What a parse guarantees about one emitted command: every non-move is
emitted with a current point established, a close's end is the tracked
`lastMovePoint`, and an arc's seven raw parameters are finite decimals. -/
def TrackOk (b : Bool) (lm : Option Point) : DrawCommand → Prop
  | .MoveCommand _ _ => True
  | .LineCommand _ _ => b = true
  | .QuadraticCurveCommand _ _ _ => b = true
  | .BezierCurveCommand _ _ _ _ => b = true
  | .EllipticalArcCommand _ _ rx ry rot laf sf ex ey =>
    b = true ∧ DecimalQ rx ∧ DecimalQ ry ∧ DecimalQ rot ∧ DecimalQ laf ∧
      DecimalQ sf ∧ DecimalQ ex ∧ DecimalQ ey
  | .ClosePathCommand _ e => b = true ∧ e = lm

/-- The parse-output invariant, threaded along the command list. -/
def Tracked : Bool → Option Point → List DrawCommand → Prop
  | _, _, [] => True
  | b, lm, c :: cs => TrackOk b lm c ∧ Tracked (trackCur b c) (trackLm lm c) cs

/-- The parser-state invariant: an established current point is a finite
decimal (it feeds the raw arc parameters). -/
def SInv (st : PState) : Prop := ∀ p, st.currentPoint = some p → DecimalPt p

/-- The current point of the re-parse after one serialized command:
non-arcs land on the rounded end, the arc end is emitted raw and is hit
exactly, a close leaves the point unchanged. -/
def reCur (cur : Option Point) : DrawCommand → Option Point
  | .ClosePathCommand _ _ => cur
  | .MoveCommand _ e => some (roundPt e)
  | .LineCommand _ e => some (roundPt e)
  | .QuadraticCurveCommand _ _ e => some (roundPt e)
  | .BezierCurveCommand _ _ _ e => some (roundPt e)
  | .EllipticalArcCommand _ _ _ _ _ _ _ ex ey => some ⟨ex, ey⟩

/-- The `lastMovePoint` of the re-parse after one serialized command. -/
def reLm (lm : Option Point) : DrawCommand → Option Point
  | .MoveCommand _ e => some (roundPt e)
  | _ => lm

/-- The command the re-parse of the serialized stream emits in place of the
original one, given the re-parse's current point and last move point. -/
def reCmd (cur lm : Option Point) : DrawCommand → DrawCommand
  | .MoveCommand _ e => .MoveCommand cur (roundPt e)
  | .LineCommand _ e => .LineCommand (cur.getD ⟨0, 0⟩) (roundPt e)
  | .QuadraticCurveCommand _ cp e =>
    .QuadraticCurveCommand (cur.getD ⟨0, 0⟩) (roundPt cp) (roundPt e)
  | .BezierCurveCommand _ c1 c2 e =>
    .BezierCurveCommand (cur.getD ⟨0, 0⟩) (roundPt c1) (roundPt c2) (roundPt e)
  | .EllipticalArcCommand _ _ rx ry rot laf sf ex ey =>
    .EllipticalArcCommand (cur.getD ⟨0, 0⟩).x (cur.getD ⟨0, 0⟩).y
      rx ry rot laf sf ex ey
  | .ClosePathCommand _ _ => .ClosePathCommand (cur.getD ⟨0, 0⟩) lm

/-- The full expected output of re-parsing the serialized stream. -/
def expectedList : Option Point → Option Point → List DrawCommand → List DrawCommand
  | _, _, [] => []
  | cur, lm, c :: cs => reCmd cur lm c :: expectedList (reCur cur c) (reLm lm c) cs

/-- The character stream of one serialized command: its tokens joined by
single blanks. -/
def chunkChars (c : DrawCommand) : List Char :=
  (String.intercalate " " (cmdTokens c)).data

/-- The character stream of a serialized command list. -/
def streamChars : List DrawCommand → List Char
  | [] => []
  | [c] => chunkChars c
  | c :: cs => chunkChars c ++ ' ' :: streamChars cs

/-- The end anchor of a command; a close carries the optional subpath
origin. -/
def cmdEnd : DrawCommand → Option Point
  | .MoveCommand _ e => some e
  | .LineCommand _ e => some e
  | .QuadraticCurveCommand _ _ e => some e
  | .BezierCurveCommand _ _ _ e => some e
  | .EllipticalArcCommand _ _ _ _ _ _ _ ex ey => some ⟨ex, ey⟩
  | .ClosePathCommand _ e => e

/-- End anchors agree to within `0.001` in each coordinate (both absent for
a close that precedes any move). -/
def endsClose (a b : DrawCommand) : Prop :=
  match cmdEnd a, cmdEnd b with
  | none, none => True
  | some p, some q => |q.x - p.x| ≤ 1 / 1000 ∧ |q.y - p.y| ≤ 1 / 1000
  | _, _ => False

/-- A value JavaScript renders in plain decimal notation: zero, or magnitude
in `[1e-6, 1e21)`. -/
def PlainVal (q : ℚ) : Prop :=
  q = 0 ∨ (1 / 10 ^ 6 ≤ |q| ∧ |q| < (10 : ℚ) ^ 21)

/-- Every number a command sends through the serializer stays in the plain
decimal rendering regime: each non-arc coordinate is below `10^21` in
magnitude before and after `toFixed(3)` rounding, and each raw arc parameter
is a `PlainVal`. -/
def PlainCmd : DrawCommand → Prop
  | .EllipticalArcCommand _ _ rx ry rot laf sf ex ey =>
    PlainVal rx ∧ PlainVal ry ∧ PlainVal rot ∧ PlainVal laf ∧ PlainVal sf ∧
      PlainVal ex ∧ PlainVal ey
  | c => ∀ p ∈ pointsAfterStart c,
      |p.x| < (10 : ℚ) ^ 21 ∧ |toFixed3 p.x| < (10 : ℚ) ^ 21 ∧
      |p.y| < (10 : ℚ) ^ 21 ∧ |toFixed3 p.y| < (10 : ℚ) ^ 21

/-- Every value token the scanner can produce from the string contains a
digit.  Each `consumeValue_` call scans `scanValue` on some suffix of the
string with flags `(true, false)`, so this condition — over all suffixes —
rules out the digitless tokens (a bare `-` or `.`) on which JavaScript
`parseFloat` returns `NaN`, the one value-level corner where the rational
model and the program part ways on acceptance. -/
def DigitTokens (s : String) : Prop :=
  ∀ t ∈ s.toList.tails, (scanValue t true false).1 = [] ∨
    ∃ c ∈ (scanValue t true false).1, '0' ≤ c ∧ c ≤ '9'

instance (q : ℚ) : Decidable (PlainVal q) := by
  unfold PlainVal; exact inferInstance

instance (c : DrawCommand) : Decidable (PlainCmd c) := by
  cases c <;> simp only [PlainCmd] <;> exact inferInstance

instance (s : String) : Decidable (DigitTokens s) := by
  unfold DigitTokens; exact inferInstance

/-- The body of `jsParseFloat` after the sign has been split off. -/
def jsParseSigned (s1 : ℚ) (rest : List Char) : ℚ :=
  let ip := takeDigits rest
  let fp : List Char × List Char := match ip.2 with
    | '.' :: r => takeDigits r
    | _ => ([], ip.2)
  if ip.1.length + fp.1.length = 0 then 0
  else
    let mant : ℚ := s1 * ((digitsToNat ip.1 : ℚ) + (digitsToNat fp.1 : ℚ) / (10 : ℚ) ^ fp.1.length)
    match fp.2 with
    | 'e' :: r =>
      let es : ℤ × List Char := match r with
        | '-' :: r2 => (-1, r2)
        | '+' :: r2 => (1, r2)
        | _ => (1, r)
      let eds := takeDigits es.2
      if eds.1.length = 0 then mant
      else mant * (10 : ℚ) ^ (es.1 * (digitsToNat eds.1 : ℤ))
    | _ => mant

/-- Lists on which `scanValue` stops immediately whatever its flags. -/
def ScanStop (rest : List Char) : Prop :=
  rest = [] ∨ ∃ c r, rest = c :: r ∧
    ¬ (('0' ≤ c ∧ c ≤ '9') ∨ c = '.' ∨ c = '-' ∨ c = 'e')

/-- Join character chunks with single blanks. -/
def joinSp : List (List Char) → List Char
  | [] => []
  | [x] => x
  | x :: xs => x ++ ' ' :: joinSp xs

/-- What every repetition run guarantees: its commands satisfy the tracking
invariant from the entry state, and the exit state's tracked fields are the
folds of the tracking updates over the emitted commands. -/
def RunOut (st : PState) (r : List DrawCommand × PState) : Prop :=
  Tracked st.currentPoint.isSome st.lastMovePoint r.1 ∧
  r.2.currentPoint.isSome = List.foldl trackCur st.currentPoint.isSome r.1 ∧
  r.2.lastMovePoint = List.foldl trackLm st.lastMovePoint r.1 ∧
  SInv r.2

/-- The separator structure between one serialized chunk and the remaining
stream: either nothing is left, or a blank and then the next chunk's
command letter. -/
def SepOk (rest' exitRest : List Char) : Prop :=
  (rest' = [] ∧ exitRest = []) ∨
    (∃ ch r2, rest' = ' ' :: ch :: r2 ∧ ('A' ≤ ch ∧ ch ≤ 'Z') ∧ exitRest = ch :: r2)

/-! ## Theorems -/

theorem exceptBindOk {α β : Type} {e : Except Err α} {f : α → Except Err β} {b : β}
    (h : (e >>= f) = .ok b) : ∃ a, e = .ok a ∧ f a = .ok b := by
  cases e with
  | error e =>
    exfalso
    have he : (Except.error e : Except Err α) >>= f = .error e := rfl
    rw [he] at h
    exact Except.noConfusion h
  | ok a => exact ⟨a, rfl, h⟩

@[simp] theorem exceptBindOkEval {α β : Type} (a : α) (f : α → Except Err β) :
    ((Except.ok a : Except Err α) >>= f) = f a := rfl

@[simp] theorem exceptBindErrEval {α β : Type} (e : Err) (f : α → Except Err β) :
    ((Except.error e : Except Err α) >>= f) = .error e := rfl

/-! ### Claim C5 -/

/-- Claim C5, counterexample: on `M0 0S1 2 3 4` the previous command is not a
cubic, yet the emitted cubic's first control point is the consumed second
control point `(1, 2)`, not the end point `(3, 4)` as the claim states. -/
theorem C5_counterexample :
    parseCommands exSmoothNoCtrl =
      .ok [DrawCommand.MoveCommand none ⟨0, 0⟩,
        DrawCommand.BezierCurveCommand ⟨0, 0⟩ ⟨1, 2⟩ ⟨1, 2⟩ ⟨3, 4⟩] ∧
    (⟨1, 2⟩ : Point) ≠ (⟨3, 4⟩ : Point) := by
  constructor
  · with_unfolding_all rfl
  · intro h
    exact absurd (congrArg Point.x h) (by norm_num)

/-- Claim C5, amended: when `parseCommands` processes an `S`/`s` command and
no `currentControlPoint` is established, the first control point of the
emitted cubic equals the consumed second control point (`cp1 = cp2`), not
the end point. -/
theorem C5_smooth_collapses_to_cp2 (relative : Bool) (fuel : ℕ) (st : PState)
    (cur : Point) (hc : st.currentControlPoint = none)
    (hp : st.currentPoint = some cur) (c : DrawCommand) (rest : List DrawCommand)
    (st' : PState) (h : runS relative (fuel + 1) st = .ok (c :: rest, st')) :
    ∃ cp2 ep, c = DrawCommand.BezierCurveCommand cur cp2 cp2 ep := by
  rw [runS] at h
  split at h
  · obtain ⟨p2, hp2, h⟩ := exceptBindOk h
    obtain ⟨pe, hpe, h⟩ := exceptBindOk h
    obtain ⟨r, hr, h⟩ := exceptBindOk h
    simp only [hc, hp, Option.getD_some, Except.ok.injEq, Prod.mk.injEq,
      List.cons.injEq] at h
    exact ⟨p2.1, pe.1, h.1.1.symm⟩
  · exact absurd h (by simp)

/-- Claim C5, witness: the amended statement applied to the state after the
`S` of `M0 0S1 2 3 4`. -/
theorem C5_witness :
    ∃ cp2 ep, DrawCommand.BezierCurveCommand ⟨0, 0⟩ ⟨1, 2⟩ ⟨1, 2⟩ ⟨3, 4⟩ =
      DrawCommand.BezierCurveCommand ⟨0, 0⟩ cp2 cp2 ep :=
  C5_smooth_collapses_to_cp2 false 12 exSmoothState ⟨0, 0⟩ rfl rfl _ []
    ⟨[], some ⟨3, 4⟩, some ⟨1, 2⟩, some ⟨0, 0⟩⟩ (by with_unfolding_all rfl)

/-! ### Claim C7 -/

theorem runM_tail_lines (relative : Bool) :
    ∀ (fuel : ℕ) (st : PState) (r : List DrawCommand × PState),
      runM relative fuel false st = .ok r →
      ∀ c ∈ r.1, ∃ s e, c = DrawCommand.LineCommand s e := by
  intro fuel
  induction fuel with
  | zero => intro st r h; exact absurd h (by simp [runM])
  | succ n ih =>
    intro st r h
    rw [runM] at h
    split at h
    · obtain ⟨p, hp, h⟩ := exceptBindOk h
      obtain ⟨r', hr', h⟩ := exceptBindOk h
      simp only [Except.ok.injEq] at h
      subst h
      intro c hc
      rcases List.mem_cons.mp hc with h1 | h1
      · simp only [if_neg (by simp : ¬(false = true))] at h1
        exact ⟨_, _, h1⟩
      · exact ih _ r' hr' c h1
    · simp only [Except.ok.injEq] at h
      subst h
      intro c hc
      exact absurd hc (List.not_mem_nil c)

/-- Claim C7, amended: when the first command of the path string is an
upper-case `M`, the repetition run emits its first coordinate pair as an
absolute Move (no current point being established, the Move has an undefined
start and the literal pair as target) and every subsequent pair as a Line;
but a lower-case `m` as the very first command makes `parseCommands` throw
`Current point must be set for a relative command` instead of succeeding. -/
theorem C7_first_move_absolute_and_m_throws :
    (∀ (fuel : ℕ) (st : PState) (r : List DrawCommand × PState),
      st.currentPoint = none → runM false fuel true st = .ok r →
      r.1 = [] ∨ ∃ p cs, r.1 = DrawCommand.MoveCommand none p :: cs ∧
        ∀ c ∈ cs, ∃ s e, c = DrawCommand.LineCommand s e) ∧
    (∀ (fuel : ℕ) (st : PState) (r : List Char),
      st.currentPoint = none →
      consumeCommand st.rest = .ok ('m', Token.RelativeCommand, r) →
      parseLoop (fuel + 1) st = .error .currentPointRequired) := by
  constructor
  · intro fuel st r hcp h
    cases fuel with
    | zero => exact absurd h (by simp [runM])
    | succ n =>
      rw [runM] at h
      split at h
      · obtain ⟨p, hp, h⟩ := exceptBindOk h
        obtain ⟨r', hr', h⟩ := exceptBindOk h
        simp only [if_pos rfl, Except.ok.injEq] at h
        subst h
        refine Or.inr ⟨p.1, r'.1, ?_, ?_⟩
        · simp [hcp]
        · exact runM_tail_lines false n _ r' hr'
      · simp only [Except.ok.injEq] at h
        subst h
        exact Or.inl rfl
  · intro fuel st r hcp hcc
    obtain ⟨rest, cp, cc, lm⟩ := st
    simp only at hcp hcc
    subst hcp
    cases rest with
    | nil => exact absurd hcc (by simp [consumeCommand, advanceToNextToken])
    | cons c0 cs0 =>
      simp only [parseLoop]
      rw [hcc]
      rfl

/-- Claim C7, witness: the amended statement's first part applied to the
state at the start of the `M` run of `M 10 20 30 40`. -/
theorem C7_witness :
    ([DrawCommand.MoveCommand none ⟨10, 20⟩,
        DrawCommand.LineCommand ⟨10, 20⟩ ⟨30, 40⟩] : List DrawCommand) = [] ∨
      ∃ p cs, ([DrawCommand.MoveCommand none ⟨10, 20⟩,
        DrawCommand.LineCommand ⟨10, 20⟩ ⟨30, 40⟩] : List DrawCommand) =
          DrawCommand.MoveCommand none p :: cs ∧
        ∀ c ∈ cs, ∃ s e, c = DrawCommand.LineCommand s e :=
  C7_first_move_absolute_and_m_throws.1 12 exMoveState
    ([DrawCommand.MoveCommand none ⟨10, 20⟩,
      DrawCommand.LineCommand ⟨10, 20⟩ ⟨30, 40⟩],
     ⟨[], some ⟨30, 40⟩, none, some ⟨10, 20⟩⟩)
    rfl (by with_unfolding_all rfl)

/-- Claim C7, counterexample: a path string whose first command is a
lower-case `m` does not parse successfully; the parser throws
`Current point must be set for a relative command`. -/
theorem C7_counterexample :
    parseCommands exRelFirst = .error .currentPointRequired := by
  with_unfolding_all rfl

/-! ### Claim C8 -/

theorem runM_ccp_none (relative : Bool) :
    ∀ (fuel : ℕ) (isFirst : Bool) (st : PState) (r : List DrawCommand × PState),
      runM relative fuel isFirst st = .ok r → st.currentControlPoint = none →
      r.2.currentControlPoint = none := by
  intro fuel
  induction fuel with
  | zero => intro _ st r h _; exact absurd h (by simp [runM])
  | succ n ih =>
    intro isFirst st r h hc
    rw [runM] at h
    split at h
    · obtain ⟨p, _, h⟩ := exceptBindOk h
      obtain ⟨r', hr', h⟩ := exceptBindOk h
      simp only [Except.ok.injEq] at h
      subst h
      exact ih false _ r' hr' rfl
    · simp only [Except.ok.injEq] at h
      subst h
      exact hc

theorem runL_ccp_none (relative : Bool) :
    ∀ (fuel : ℕ) (st : PState) (r : List DrawCommand × PState),
      runL relative fuel st = .ok r → st.currentControlPoint = none →
      r.2.currentControlPoint = none := by
  intro fuel
  induction fuel with
  | zero => intro st r h _; exact absurd h (by simp [runL])
  | succ n ih =>
    intro st r h hc
    rw [runL] at h
    split at h
    · obtain ⟨p, _, h⟩ := exceptBindOk h
      obtain ⟨r', hr', h⟩ := exceptBindOk h
      simp only [Except.ok.injEq] at h
      subst h
      exact ih _ r' hr' rfl
    · simp only [Except.ok.injEq] at h
      subst h
      exact hc

theorem runH_ccp_none (relative : Bool) :
    ∀ (fuel : ℕ) (st : PState) (r : List DrawCommand × PState),
      runH relative fuel st = .ok r → st.currentControlPoint = none →
      r.2.currentControlPoint = none := by
  intro fuel
  induction fuel with
  | zero => intro st r h _; exact absurd h (by simp [runH])
  | succ n ih =>
    intro st r h hc
    rw [runH] at h
    split at h
    · obtain ⟨p, _, h⟩ := exceptBindOk h
      obtain ⟨r', hr', h⟩ := exceptBindOk h
      simp only [Except.ok.injEq] at h
      subst h
      exact ih _ r' hr' rfl
    · simp only [Except.ok.injEq] at h
      subst h
      exact hc

theorem runV_ccp_none (relative : Bool) :
    ∀ (fuel : ℕ) (st : PState) (r : List DrawCommand × PState),
      runV relative fuel st = .ok r → st.currentControlPoint = none →
      r.2.currentControlPoint = none := by
  intro fuel
  induction fuel with
  | zero => intro st r h _; exact absurd h (by simp [runV])
  | succ n ih =>
    intro st r h hc
    rw [runV] at h
    split at h
    · obtain ⟨p, _, h⟩ := exceptBindOk h
      obtain ⟨r', hr', h⟩ := exceptBindOk h
      simp only [Except.ok.injEq] at h
      subst h
      exact ih _ r' hr' rfl
    · simp only [Except.ok.injEq] at h
      subst h
      exact hc

theorem runA_ccp_none (relative : Bool) :
    ∀ (fuel : ℕ) (st : PState) (r : List DrawCommand × PState),
      runA relative fuel st = .ok r → st.currentControlPoint = none →
      r.2.currentControlPoint = none := by
  intro fuel
  induction fuel with
  | zero => intro st r h _; exact absurd h (by simp [runA])
  | succ n ih =>
    intro st r h hc
    rw [runA] at h
    split at h
    · obtain ⟨v1, _, h⟩ := exceptBindOk h
      obtain ⟨v2, _, h⟩ := exceptBindOk h
      obtain ⟨v3, _, h⟩ := exceptBindOk h
      obtain ⟨v4, _, h⟩ := exceptBindOk h
      obtain ⟨v5, _, h⟩ := exceptBindOk h
      obtain ⟨p, _, h⟩ := exceptBindOk h
      obtain ⟨r', hr', h⟩ := exceptBindOk h
      simp only [Except.ok.injEq] at h
      subst h
      exact ih _ r' hr' rfl
    · simp only [Except.ok.injEq] at h
      subst h
      exact hc

/-- Claim C8, amended: the `currentControlPoint` slot is cleared by the
`M`/`m`, `L`/`l`, `H`/`h`, `V`/`v` and `A`/`a` repetition runs whenever they
emit at least one command — but the `Z`/`z` case leaves the slot (and the
current point) untouched, so a control point set by a curve survives an
intervening close and is still reflected by a following `S`/`s` or `T`/`t`. -/
theorem C8_noncurve_clears_except_close :
    (∀ (relative isFirst : Bool) (fuel : ℕ) (st : PState)
        (r : List DrawCommand × PState),
      runM relative fuel isFirst st = .ok r → r.1 ≠ [] →
      r.2.currentControlPoint = none) ∧
    (∀ (relative : Bool) (fuel : ℕ) (st : PState) (r : List DrawCommand × PState),
      runL relative fuel st = .ok r → r.1 ≠ [] →
      r.2.currentControlPoint = none) ∧
    (∀ (relative : Bool) (fuel : ℕ) (st : PState) (r : List DrawCommand × PState),
      runH relative fuel st = .ok r → r.1 ≠ [] →
      r.2.currentControlPoint = none) ∧
    (∀ (relative : Bool) (fuel : ℕ) (st : PState) (r : List DrawCommand × PState),
      runV relative fuel st = .ok r → r.1 ≠ [] →
      r.2.currentControlPoint = none) ∧
    (∀ (relative : Bool) (fuel : ℕ) (st : PState) (r : List DrawCommand × PState),
      runA relative fuel st = .ok r → r.1 ≠ [] →
      r.2.currentControlPoint = none) ∧
    (∀ (ch : Char), ch = 'Z' ∨ ch = 'z' →
      ∀ (fuel : ℕ) (st : PState) (tok : Token) (r : List Char) (cur : Point),
      st.currentPoint = some cur → consumeCommand st.rest = .ok (ch, tok, r) →
      parseLoop (fuel + 1) st =
        (parseLoop fuel { st with rest := r }).map
          (fun cmds => DrawCommand.ClosePathCommand cur st.lastMovePoint :: cmds)) := by
  refine ⟨?_, ?_, ?_, ?_, ?_, ?_⟩
  · intro relative isFirst fuel st r h hne
    cases fuel with
    | zero => exact absurd h (by simp [runM])
    | succ n =>
      rw [runM] at h
      split at h
      · obtain ⟨p, _, h⟩ := exceptBindOk h
        obtain ⟨r', hr', h⟩ := exceptBindOk h
        simp only [Except.ok.injEq] at h
        subst h
        exact runM_ccp_none relative n false _ r' hr' rfl
      · simp only [Except.ok.injEq] at h
        subst h
        exact absurd rfl hne
  · intro relative fuel st r h hne
    cases fuel with
    | zero => exact absurd h (by simp [runL])
    | succ n =>
      rw [runL] at h
      split at h
      · obtain ⟨p, _, h⟩ := exceptBindOk h
        obtain ⟨r', hr', h⟩ := exceptBindOk h
        simp only [Except.ok.injEq] at h
        subst h
        exact runL_ccp_none relative n _ r' hr' rfl
      · simp only [Except.ok.injEq] at h
        subst h
        exact absurd rfl hne
  · intro relative fuel st r h hne
    cases fuel with
    | zero => exact absurd h (by simp [runH])
    | succ n =>
      rw [runH] at h
      split at h
      · obtain ⟨p, _, h⟩ := exceptBindOk h
        obtain ⟨r', hr', h⟩ := exceptBindOk h
        simp only [Except.ok.injEq] at h
        subst h
        exact runH_ccp_none relative n _ r' hr' rfl
      · simp only [Except.ok.injEq] at h
        subst h
        exact absurd rfl hne
  · intro relative fuel st r h hne
    cases fuel with
    | zero => exact absurd h (by simp [runV])
    | succ n =>
      rw [runV] at h
      split at h
      · obtain ⟨p, _, h⟩ := exceptBindOk h
        obtain ⟨r', hr', h⟩ := exceptBindOk h
        simp only [Except.ok.injEq] at h
        subst h
        exact runV_ccp_none relative n _ r' hr' rfl
      · simp only [Except.ok.injEq] at h
        subst h
        exact absurd rfl hne
  · intro relative fuel st r h hne
    cases fuel with
    | zero => exact absurd h (by simp [runA])
    | succ n =>
      rw [runA] at h
      split at h
      · obtain ⟨v1, _, h⟩ := exceptBindOk h
        obtain ⟨v2, _, h⟩ := exceptBindOk h
        obtain ⟨v3, _, h⟩ := exceptBindOk h
        obtain ⟨v4, _, h⟩ := exceptBindOk h
        obtain ⟨v5, _, h⟩ := exceptBindOk h
        obtain ⟨p, _, h⟩ := exceptBindOk h
        obtain ⟨r', hr', h⟩ := exceptBindOk h
        simp only [Except.ok.injEq] at h
        subst h
        exact runA_ccp_none relative n _ r' hr' rfl
      · simp only [Except.ok.injEq] at h
        subst h
        exact absurd rfl hne
  · intro ch hch fuel st tok r cur hcur hcc
    obtain ⟨rest, cp, cc, lm⟩ := st
    simp only at hcur hcc ⊢
    subst hcur
    cases rest with
    | nil => exact absurd hcc (by simp [consumeCommand, advanceToNextToken])
    | cons c0 cs0 =>
      rcases hch with h | h <;> subst h
      · have hstep : parseLoop (fuel + 1) ⟨c0 :: cs0, some cur, cc, lm⟩ =
            (parseLoop fuel ⟨r, some cur, cc, lm⟩) >>= fun more =>
              .ok (DrawCommand.ClosePathCommand cur lm :: more) := by
          simp only [parseLoop]
          rw [hcc]
          rfl
        rw [hstep]
        cases parseLoop fuel ⟨r, some cur, cc, lm⟩ <;> rfl
      · have hstep : parseLoop (fuel + 1) ⟨c0 :: cs0, some cur, cc, lm⟩ =
            (parseLoop fuel ⟨r, some cur, cc, lm⟩) >>= fun more =>
              .ok (DrawCommand.ClosePathCommand cur lm :: more) := by
          simp only [parseLoop]
          rw [hcc]
          rfl
        rw [hstep]
        cases parseLoop fuel ⟨r, some cur, cc, lm⟩ <;> rfl

/-- Claim C8, witness: the amended statement's `L` part applied to a state
with a stale control point, and its `Z` part applied to the state after the
close of `exZKeepCtrl`. -/
theorem C8_witness :
    (⟨[], some ⟨5, 6⟩, none, none⟩ : PState).currentControlPoint = none :=
  C8_noncurve_clears_except_close.2.1 false 4
    ⟨('5' :: ' ' :: '6' :: []), some ⟨0, 0⟩, some ⟨9, 9⟩, none⟩
    ([DrawCommand.LineCommand ⟨0, 0⟩ ⟨5, 6⟩], ⟨[], some ⟨5, 6⟩, none, none⟩)
    (by with_unfolding_all rfl) (by simp)

/-- Claim C8, counterexample: in `M0 0Q1 1 2 0ZT4 0` the close `Z` does not
clear `currentControlPoint`, so the following `T` still reflects the
quadratic's control point `(1, 1)` through `(2, 0)` and emits the control
point `(3, -1)` instead of collapsing to the end point `(4, 0)`. -/
theorem C8_counterexample :
    parseCommands exZKeepCtrl =
      .ok [DrawCommand.MoveCommand none ⟨0, 0⟩,
        DrawCommand.QuadraticCurveCommand ⟨0, 0⟩ ⟨1, 1⟩ ⟨2, 0⟩,
        DrawCommand.ClosePathCommand ⟨2, 0⟩ (some ⟨0, 0⟩),
        DrawCommand.QuadraticCurveCommand ⟨2, 0⟩ ⟨3, -1⟩ ⟨4, 0⟩] ∧
    (⟨3, -1⟩ : Point) ≠ (⟨4, 0⟩ : Point) := by
  constructor
  · with_unfolding_all rfl
  · intro h
    exact absurd (congrArg Point.x h) (by norm_num)

/-! ### Claim C9 -/

/-- Claim C9, amended: characters that are neither command letters nor
numeric-value starts are skipped silently by the tokenizer wherever they
occur between tokens; but when only such separator characters remain while
the main loop still expects a command — for example a trailing blank after a
final `z` — `parseCommands` throws `Expected command` instead of ignoring
them. -/
theorem C9_separators_skipped_but_trailing_throws :
    (∀ (c : Char) (cs : List Char),
      ¬('a' ≤ c ∧ c ≤ 'z') → ¬('A' ≤ c ∧ c ≤ 'Z') →
      ¬(('0' ≤ c ∧ c ≤ '9') ∨ c = '.' ∨ c = '-') →
      advanceToNextToken (c :: cs) = advanceToNextToken cs) ∧
    (∀ (fuel : ℕ) (st : PState), st.rest ≠ [] →
      advanceToNextToken st.rest = (Token.EOF, []) →
      parseLoop (fuel + 1) st = .error .expectedCommand) := by
  constructor
  · intro c cs h1 h2 h3
    rw [advanceToNextToken, if_neg h1, if_neg h2, if_neg h3]
  · intro fuel st hne hadv
    obtain ⟨rest, cp, cc, lm⟩ := st
    simp only at hne hadv ⊢
    cases rest with
    | nil => exact absurd rfl hne
    | cons c0 cs0 =>
      have hcc : consumeCommand (c0 :: cs0) = .error .expectedCommand := by
        rw [consumeCommand]
        rw [hadv]
        rfl
      simp only [parseLoop]
      rw [hcc]
      rfl

/-- Claim C9, witness: the amended statement applied to a blank between
tokens and to the state holding only the trailing blank of `M0 0z `. -/
theorem C9_witness :
    advanceToNextToken (' ' :: ('M' :: [])) = advanceToNextToken ('M' :: []) :=
  C9_separators_skipped_but_trailing_throws.1 ' ' ('M' :: [])
    (by decide) (by decide) (by decide)

/-- Claim C9, counterexample: appending a blank after the final `z` of a
valid path string turns a successful parse into an `Expected command`
error. -/
theorem C9_counterexample :
    parseCommands exTrailingSep = .error .expectedCommand ∧
    parseCommands exNoTrailing =
      .ok [DrawCommand.MoveCommand none ⟨0, 0⟩,
        DrawCommand.ClosePathCommand ⟨0, 0⟩ (some ⟨0, 0⟩)] := by
  exact ⟨by with_unfolding_all rfl, by with_unfolding_all rfl⟩

/-! ### Claim C6 -/

/-- Claim C6, amended: for every command sequence, `commandsToString` emits
per command its kind letter followed by, for an elliptical arc, the seven
arc parameters (not the leading start-point pair) rendered raw and
comma-joined; for a close, no arguments; and for every other kind the
`(x, y)` pairs of every point after the start, rounded to 3 decimal places
and rendered without forced trailing zeros — the seven arc parameters are
the one family of arguments that is not rounded. -/
theorem C6_serializer_shape (commands : List DrawCommand) :
    commandsToString commands =
      String.intercalate " " (commands.flatMap claimTokensAmended) := by
  have h : ∀ c, cmdTokens c = claimTokensAmended c := by
    intro c
    cases c <;> rfl
  rw [commandsToString]
  congr 1
  induction commands with
  | nil => rfl
  | cons c cs ih => simp only [List.flatMap_cons, ih, h c]

/-- Claim C6, counterexample: the arc parameters are emitted raw, not
rounded to 3 decimal places — on an arc whose `rx` is `0.00075` the
serializer emits `0.00075` where the claim demands `0.001`. -/
theorem C6_counterexample :
    commandsToString [exArcFine] = "A 0.00075,2,0,1,0,10,10" ∧
    String.intercalate " " ([exArcFine].flatMap claimTokensOriginal) =
      "A 0.001,2,0,1,0,10,10" ∧
    commandsToString [exArcFine] ≠
      String.intercalate " " ([exArcFine].flatMap claimTokensOriginal) := by
  refine ⟨by with_unfolding_all rfl, by with_unfolding_all rfl, ?_⟩
  intro h
  rw [show commandsToString [exArcFine] = "A 0.00075,2,0,1,0,10,10" from
    by with_unfolding_all rfl] at h
  rw [show String.intercalate " " ([exArcFine].flatMap claimTokensOriginal) =
    "A 0.001,2,0,1,0,10,10" from by with_unfolding_all rfl] at h
  exact absurd h (by decide)

/-! ### Claim C3 -/

theorem chooseBest_le : ∀ (t : List (PPath × AlignResult)) (h : PPath × AlignResult),
    ∀ x ∈ h :: t, x.2.score ≤ (chooseBest h t).2.score := by
  intro t
  induction t with
  | nil =>
    intro h x hx
    rcases List.mem_cons.mp hx with h1 | h1
    · subst h1; exact le_refl _
    · exact absurd h1 (List.not_mem_nil x)
  | cons a t' ih =>
    intro h x hx
    have hstep : chooseBest h (a :: t') =
        chooseBest (if h.2.score > a.2.score then h else a) t' := by
      simp [chooseBest]
    rw [hstep]
    have hg : ∀ y, y = h ∨ y = a →
        y.2.score ≤ (if h.2.score > a.2.score then h else a).2.score := by
      intro y hy
      by_cases hc : h.2.score > a.2.score
      · rcases hy with h1 | h1 <;> subst h1 <;> simp [hc]
        exact le_of_lt hc
      · rcases hy with h1 | h1 <;> subst h1 <;> simp [hc]
        exact le_of_not_lt hc
    have hmem : (if h.2.score > a.2.score then h else a) ∈
        (if h.2.score > a.2.score then h else a) :: t' := List.mem_cons_self _ _
    rcases List.mem_cons.mp hx with h1 | h1
    · exact le_trans (hg x (Or.inl h1)) (ih _ _ hmem)
    · rcases List.mem_cons.mp h1 with h2 | h2
      · exact le_trans (hg x (Or.inr h2)) (ih _ _ hmem)
      · exact ih _ x (List.mem_cons_of_mem _ h2)

theorem chooseBest_decomp : ∀ (t : List (PPath × AlignResult)) (h : PPath × AlignResult),
    ∃ pre post, h :: t = pre ++ (chooseBest h t) :: post ∧
      ∀ x ∈ post, x.2.score < (chooseBest h t).2.score := by
  intro t
  induction t with
  | nil => exact fun h => ⟨[], [], rfl, by simp⟩
  | cons a t' ih =>
    intro h
    by_cases hc : h.2.score > a.2.score
    · have hstep : chooseBest h (a :: t') = chooseBest h t' := by
        simp [chooseBest, hc]
      obtain ⟨pre', post', hdec, hlt⟩ := ih h
      rw [hstep]
      cases pre' with
      | nil =>
        simp only [List.nil_append, List.cons.injEq] at hdec
        obtain ⟨hg, ht'⟩ := hdec
        refine ⟨[], a :: t', ?_, ?_⟩
        · simp only [List.nil_append, ← hg]
        · intro x hx
          rcases List.mem_cons.mp hx with h1 | h1
          · subst h1; rw [← hg]; exact hc
          · rw [ht'] at h1; exact hlt x h1
      | cons y pre'' =>
        simp only [List.cons_append, List.cons.injEq] at hdec
        obtain ⟨hy, ht'⟩ := hdec
        refine ⟨h :: a :: pre'', post', ?_, hlt⟩
        simp only [List.cons_append, List.cons.injEq]
        exact ⟨trivial, trivial, ht'⟩
    · have hstep : chooseBest h (a :: t') = chooseBest a t' := by
        simp [chooseBest, hc]
      obtain ⟨pre', post', hdec, hlt⟩ := ih a
      rw [hstep]
      cases pre' with
      | nil =>
        simp only [List.nil_append, List.cons.injEq] at hdec
        obtain ⟨hg, ht'⟩ := hdec
        refine ⟨[h], post', ?_, hlt⟩
        rw [← hg, ← ht', List.singleton_append]
      | cons y pre'' =>
        simp only [List.cons_append, List.cons.injEq] at hdec
        obtain ⟨hy, ht'⟩ := hdec
        refine ⟨h :: y :: pre'', post', ?_, hlt⟩
        simp only [List.cons_append, List.cons.injEq]
        exact ⟨trivial, hy, ht'⟩

theorem chooseBest_mem (h : PPath × AlignResult) (t : List (PPath × AlignResult)) :
    chooseBest h t ∈ h :: t := by
  obtain ⟨pre, post, hdec, _⟩ := chooseBest_decomp t h
  rw [hdec]
  exact List.mem_append.mpr (Or.inr (List.mem_cons_self _ _))

/-- Claim C3, amended: the alignment-selection `reduce` keeps a candidate of
maximal score, but on ties the last-seen candidate wins, not the first-seen
one: the chosen element's score bounds every candidate's score, and every
candidate generated after the chosen one scores strictly lower. -/
theorem C3_highest_score_last_wins (h : PPath × AlignResult)
    (t : List (PPath × AlignResult)) :
    (∀ x ∈ h :: t, x.2.score ≤ (chooseBest h t).2.score) ∧
    ∃ pre post, h :: t = pre ++ (chooseBest h t) :: post ∧
      ∀ x ∈ post, x.2.score < (chooseBest h t).2.score :=
  ⟨chooseBest_le t h, chooseBest_decomp t h⟩

/-- Claim C3, witness: the amended statement applied to a concrete two
candidate list. -/
theorem C3_witness :
    cexAlignB.2.score ≤ (chooseBest cexAlignA [cexAlignB]).2.score :=
  (C3_highest_score_last_wins cexAlignA [cexAlignB]).1 cexAlignB (by simp)

/-- Claim C3, counterexample: on two candidates with equal scores the
source's `prevScore > currScore ? prev : curr` keeps the second-seen
candidate, so the first-seen candidate does not win the tie. -/
theorem C3_counterexample :
    chooseBest cexAlignA [cexAlignB] = cexAlignB ∧ cexAlignA ≠ cexAlignB ∧
    cexAlignA.2.score = cexAlignB.2.score := by
  refine ⟨by with_unfolding_all rfl, ?_, by with_unfolding_all rfl⟩
  intro h
  have h1 := congrArg (fun p => p.1) h
  simp [cexAlignA, cexAlignB] at h1

/-! ### Claim C4 -/

/-- Claim C4, amended: the candidate set generated by `autoFixSubPath` is
exactly {the original from-path, its point-order reversal} together with,
for each of the two (when its subpath is closed), its cyclic shifts by
`1 … count − 2`; in particular the cyclic rotations of the non-reversed
original are generated too. -/
theorem C4_candidates_include_original_rotations (subIdx : ℕ)
    (fromPath p : PPath) :
    p ∈ candidatePaths subIdx fromPath ↔
      (p = fromPath ∨
        (isClosed (getSubPath fromPath subIdx) = true ∧
          ∃ i, 1 ≤ i ∧ i < (getSubPath fromPath subIdx).length - 1 ∧
            p = shiftSubPathBack fromPath subIdx i)) ∨
      (p = reverseSubPath fromPath subIdx ∨
        (isClosed (getSubPath (reverseSubPath fromPath subIdx) subIdx) = true ∧
          ∃ i, 1 ≤ i ∧
            i < (getSubPath (reverseSubPath fromPath subIdx) subIdx).length - 1 ∧
            p = shiftSubPathBack (reverseSubPath fromPath subIdx) subIdx i)) := by
  have key : ∀ q : PPath,
      (p ∈ q :: (if isClosed (getSubPath q subIdx) then
          (List.range' 1 ((getSubPath q subIdx).length - 2)).map
            (fun i => shiftSubPathBack q subIdx i)
        else [])) ↔
      (p = q ∨ (isClosed (getSubPath q subIdx) = true ∧
        ∃ i, 1 ≤ i ∧ i < (getSubPath q subIdx).length - 1 ∧
          p = shiftSubPathBack q subIdx i)) := by
    intro q
    by_cases hcl : isClosed (getSubPath q subIdx) = true
    · simp only [hcl, if_true, List.mem_cons, List.mem_map, List.mem_range'_1,
        true_and]
      apply or_congr Iff.rfl
      constructor
      · rintro ⟨i, ⟨h1, h2⟩, h3⟩
        exact ⟨i, h1, by omega, h3.symm⟩
      · rintro ⟨i, h1, h2, h3⟩
        exact ⟨i, ⟨h1, by omega⟩, h3.symm⟩
    · simp [hcl]
  simp only [candidatePaths, List.flatMap_cons, List.flatMap_nil, List.append_nil,
    List.mem_append]
  rw [key fromPath, key (reverseSubPath fromPath subIdx)]

theorem shiftRev_mod (i : ℕ) :
    shiftSubPathBackCmds i cexRevSub = shiftSubPathBackCmds (i % 3) cexRevSub := by
  have e1 : (([⟨0, 0⟩, ⟨1, 3⟩, ⟨4, 0⟩] : List Point)).rotate i =
      ([⟨0, 0⟩, ⟨1, 3⟩, ⟨4, 0⟩] : List Point).rotate (i % 3) := by
    conv_rhs => rw [show (3 : ℕ) =
      ([⟨0, 0⟩, ⟨1, 3⟩, ⟨4, 0⟩] : List Point).length from rfl]
    rw [List.rotate_mod]
  have e2 : ([SvgChar.L, SvgChar.L, SvgChar.L] : List SvgChar).rotate i =
      ([SvgChar.L, SvgChar.L, SvgChar.L] : List SvgChar).rotate (i % 3) := by
    conv_rhs => rw [show (3 : ℕ) =
      ([SvgChar.L, SvgChar.L, SvgChar.L] : List SvgChar).length from rfl]
    rw [List.rotate_mod]
  simp only [shiftSubPathBackCmds, cexRevSub]
  norm_num [isClosed]
  rw [e1, e2]

/-- Claim C4, counterexample: on a closed asymmetric triangle the generated
candidate list contains the cyclic shift by 1 of the *non-reversed* original,
which is neither the original, nor its reversal, nor any cyclic rotation of
the reversal — so the candidate set is not the one the claim describes. -/
theorem C4_counterexample :
    shiftSubPathBack cexTri 0 1 ∈ candidatePaths 0 cexTri ∧
    shiftSubPathBack cexTri 0 1 ≠ cexTri ∧
    shiftSubPathBack cexTri 0 1 ≠ reverseSubPath cexTri 0 ∧
    ∀ i, shiftSubPathBack cexTri 0 1 ≠
      shiftSubPathBack (reverseSubPath cexTri 0) 0 i := by
  refine ⟨by with_unfolding_all decide, by with_unfolding_all decide,
    by with_unfolding_all decide, ?_⟩
  intro i
  have hrev : reverseSubPath cexTri 0 = [cexRevSub] := by with_unfolding_all rfl
  have hsh : shiftSubPathBack [cexRevSub] 0 i =
      [shiftSubPathBackCmds i cexRevSub] := rfl
  rw [hrev, hsh, shiftRev_mod i]
  have h3 : i % 3 < 3 := Nat.mod_lt _ (by norm_num)
  rcases heq : i % 3 with _ | n
  · with_unfolding_all decide
  · rcases n with _ | m
    · with_unfolding_all decide
    · rcases m with _ | k
      · with_unfolding_all decide
      · rw [heq] at h3; omega

/-! ### Claims C2 and C10: the fixer lemmas -/

theorem modifyNth_get?_ne {α : Type} :
    ∀ (l : List α) (n : ℕ) (f : α → α) (i : ℕ), i ≠ n →
      (modifyNth l n f).get? i = l.get? i := by
  intro l
  induction l with
  | nil => intro n f i _; rfl
  | cons a rest ih =>
    intro n f i hne
    cases n with
    | zero =>
      cases i with
      | zero => exact absurd rfl hne
      | succ j => rfl
    | succ m =>
      cases i with
      | zero => rfl
      | succ j =>
        show (modifyNth rest m f).get? j = rest.get? j
        exact ih m f j (fun h => hne (by rw [h]))

theorem modifyNth_get?_eq {α : Type} :
    ∀ (l : List α) (n : ℕ) (f : α → α),
      (modifyNth l n f).get? n = (l.get? n).map f := by
  intro l
  induction l with
  | nil => intro n f; rfl
  | cons a rest ih =>
    intro n f
    cases n with
    | zero => rfl
    | succ m => exact ih m f

theorem modifyNth_length {α : Type} :
    ∀ (l : List α) (n : ℕ) (f : α → α), (modifyNth l n f).length = l.length := by
  intro l
  induction l with
  | nil => intro n f; rfl
  | cons a rest ih =>
    intro n f
    cases n with
    | zero => rfl
    | succ m => exact congrArg Nat.succ (ih m f)

theorem getSubPath_modifyNth_ne (p : PPath) (s : ℕ) (f : List Command → List Command)
    (j : ℕ) (hne : j ≠ s) : getSubPath (modifyNth p s f) j = getSubPath p j := by
  show (modifyNth p s f).getD j [] = p.getD j []
  rw [List.getD_eq_get?, List.getD_eq_get?, modifyNth_get?_ne p s f j hne]

theorem modifyNth_out {α : Type} :
    ∀ (l : List α) (n : ℕ) (f : α → α), l.length ≤ n → modifyNth l n f = l := by
  intro l
  induction l with
  | nil => intro n f _; rfl
  | cons a rest ih =>
    intro n f hn
    cases n with
    | zero => exact absurd hn (by simp)
    | succ m =>
      show a :: modifyNth rest m f = a :: rest
      rw [ih m f (Nat.le_of_succ_le_succ hn)]

theorem getSubPath_out (p : PPath) (s : ℕ) (hs : p.length ≤ s) :
    getSubPath p s = [] := by
  show p.getD s [] = []
  rw [List.getD_eq_get?, List.get?_eq_none.mpr hs]
  rfl

theorem getSubPath_modifyNth_eq (p : PPath) (s : ℕ)
    (f : List Command → List Command) (hs : s < p.length) :
    getSubPath (modifyNth p s f) s = f (getSubPath p s) := by
  show (modifyNth p s f).getD s [] = f (p.getD s [])
  rw [List.getD_eq_get?, List.getD_eq_get?, modifyNth_get?_eq]
  cases hv : p.get? s with
  | none => exact absurd (List.get?_eq_none.mp hv) (by omega)
  | some v => rfl

theorem getCommand_convert_ne (p : PPath) (s j : ℕ) (k : SvgChar) (i : ℕ)
    (hne : i ≠ j) : getCommand (convertCommand p s j k) s i = getCommand p s i := by
  show (getSubPath (modifyNth p s fun cs => modifyNth cs j fun c => ⟨k, c.endPt⟩) s).get? i
      = (getSubPath p s).get? i
  by_cases hs : s < p.length
  · rw [getSubPath_modifyNth_eq p s _ hs, modifyNth_get?_ne _ j _ i hne]
  · rw [modifyNth_out p s _ (le_of_not_lt hs)]

theorem getCommand_convert_eq (p : PPath) (s j : ℕ) (k : SvgChar) :
    getCommand (convertCommand p s j k) s j =
      (getCommand p s j).map (fun c => (⟨k, c.endPt⟩ : Command)) := by
  show (getSubPath (modifyNth p s fun cs => modifyNth cs j fun c => ⟨k, c.endPt⟩) s).get? j
      = ((getSubPath p s).get? j).map _
  by_cases hs : s < p.length
  · rw [getSubPath_modifyNth_eq p s _ hs, modifyNth_get?_eq]
  · rw [modifyNth_out p s _ (le_of_not_lt hs), getSubPath_out p s (le_of_not_lt hs)]
    rfl

theorem getSubPath_convert_length (p : PPath) (s j : ℕ) (k : SvgChar) :
    (getSubPath (convertCommand p s j k) s).length = (getSubPath p s).length := by
  by_cases hs : s < p.length
  · rw [show getSubPath (convertCommand p s j k) s =
      modifyNth (getSubPath p s) j (fun c => ⟨k, c.endPt⟩) from
        getSubPath_modifyNth_eq p s _ hs]
    exact modifyNth_length _ j _
  · show (getSubPath (modifyNth p s _) s).length = _
    rw [modifyNth_out p s _ (le_of_not_lt hs)]

theorem convertStep_frame (P : FixParams) (s : ℕ) (tp : PPath)
    (acc : PPath × PPath) (x : ℕ × Command) (i : ℕ) (hne : x.1 ≠ i) :
    getCommand (convertStep P s tp acc x).1 s i = getCommand acc.1 s i ∧
    getCommand (convertStep P s tp acc x).2 s i = getCommand acc.2 s i := by
  cases htc : getCommand tp s x.1 with
  | none => simp only [convertStep, htc]; exact ⟨trivial, trivial⟩
  | some tc =>
    simp only [convertStep, htc]
    by_cases h1 : x.2.svgChar = tc.svgChar
    · rw [if_pos h1]
      exact ⟨rfl, rfl⟩
    · rw [if_neg h1]
      by_cases h2 : P.canConvert x.2.svgChar tc.svgChar = true
      · rw [if_pos h2]
        exact ⟨getCommand_convert_ne _ s x.1 _ i (fun h => hne h.symm), rfl⟩
      · rw [if_neg h2]
        by_cases h3 : P.canConvert tc.svgChar x.2.svgChar = true
        · rw [if_pos h3]
          exact ⟨rfl, getCommand_convert_ne _ s x.1 _ i (fun h => hne h.symm)⟩
        · rw [if_neg h3]
          exact ⟨rfl, rfl⟩

theorem convertStep_lengths (P : FixParams) (s : ℕ) (tp : PPath)
    (acc : PPath × PPath) (x : ℕ × Command) :
    (getSubPath (convertStep P s tp acc x).1 s).length =
      (getSubPath acc.1 s).length ∧
    (getSubPath (convertStep P s tp acc x).2 s).length =
      (getSubPath acc.2 s).length := by
  cases htc : getCommand tp s x.1 with
  | none => simp only [convertStep, htc]; exact ⟨trivial, trivial⟩
  | some tc =>
    simp only [convertStep, htc]
    by_cases h1 : x.2.svgChar = tc.svgChar
    · rw [if_pos h1]
      exact ⟨rfl, rfl⟩
    · rw [if_neg h1]
      by_cases h2 : P.canConvert x.2.svgChar tc.svgChar = true
      · rw [if_pos h2]
        exact ⟨getSubPath_convert_length _ s x.1 _, rfl⟩
      · rw [if_neg h2]
        by_cases h3 : P.canConvert tc.svgChar x.2.svgChar = true
        · rw [if_pos h3]
          exact ⟨rfl, getSubPath_convert_length _ s x.1 _⟩
        · rw [if_neg h3]
          exact ⟨rfl, rfl⟩

theorem convertFold_frame (P : FixParams) (s : ℕ) (tp : PPath) :
    ∀ (l : List (ℕ × Command)) (acc : PPath × PPath) (i : ℕ),
      (∀ x ∈ l, x.1 ≠ i) →
      getCommand (l.foldl (convertStep P s tp) acc).1 s i = getCommand acc.1 s i ∧
      getCommand (l.foldl (convertStep P s tp) acc).2 s i = getCommand acc.2 s i := by
  intro l
  induction l with
  | nil => exact fun acc i _ => ⟨rfl, rfl⟩
  | cons x l' ih =>
    intro acc i hne
    rw [List.foldl_cons]
    obtain ⟨h1, h2⟩ := ih (convertStep P s tp acc x) i
      (fun y hy => hne y (List.mem_cons_of_mem _ hy))
    obtain ⟨h3, h4⟩ := convertStep_frame P s tp acc x i (hne x (List.mem_cons_self _ _))
    exact ⟨h1.trans h3, h2.trans h4⟩

theorem convertFold_lengths (P : FixParams) (s : ℕ) (tp : PPath) :
    ∀ (l : List (ℕ × Command)) (acc : PPath × PPath),
      (getSubPath (l.foldl (convertStep P s tp) acc).1 s).length =
        (getSubPath acc.1 s).length ∧
      (getSubPath (l.foldl (convertStep P s tp) acc).2 s).length =
        (getSubPath acc.2 s).length := by
  intro l
  induction l with
  | nil => exact fun acc => ⟨rfl, rfl⟩
  | cons x l' ih =>
    intro acc
    rw [List.foldl_cons]
    obtain ⟨h1, h2⟩ := ih (convertStep P s tp acc x)
    obtain ⟨h3, h4⟩ := convertStep_lengths P s tp acc x
    exact ⟨h1.trans h3, h2.trans h4⟩

theorem convertStep_at (P : FixParams) (s : ℕ) (tp : PPath)
    (acc : PPath × PPath) (i : ℕ) (c : Command)
    (hf : getCommand acc.1 s i = some c)
    (ht : getCommand acc.2 s i = getCommand tp s i) :
    getCommand (convertStep P s tp acc (i, c)).1 s i =
      some (match getCommand tp s i with
            | none => c
            | some tc => (convertPairResult P c tc).1) ∧
    getCommand (convertStep P s tp acc (i, c)).2 s i =
      match getCommand tp s i with
      | none => (none : Option Command)
      | some tc => some (convertPairResult P c tc).2 := by
  cases htc : getCommand tp s i with
  | none =>
    simp only [convertStep, htc]
    exact ⟨hf, ht.trans htc⟩
  | some tc =>
    simp only [convertStep, htc, convertPairResult]
    by_cases h1 : c.svgChar = tc.svgChar
    · rw [if_pos h1, if_pos h1]
      exact ⟨hf, ht.trans htc⟩
    · rw [if_neg h1, if_neg h1]
      by_cases h2 : P.canConvert c.svgChar tc.svgChar = true
      · rw [if_pos h2, if_pos h2]
        constructor
        · rw [getCommand_convert_eq, hf]
          rfl
        · exact ht.trans htc
      · rw [if_neg h2, if_neg h2]
        by_cases h3 : P.canConvert tc.svgChar c.svgChar = true
        · rw [if_pos h3, if_pos h3]
          constructor
          · exact hf
          · rw [getCommand_convert_eq, ht.trans htc]
            rfl
        · rw [if_neg h3, if_neg h3]
          exact ⟨hf, ht.trans htc⟩

theorem convertFold_at (P : FixParams) (s : ℕ) (tp : PPath) :
    ∀ (l : List (ℕ × Command)) (acc : PPath × PPath) (i : ℕ) (c : Command),
      (i, c) ∈ l → (l.map Prod.fst).Nodup →
      getCommand acc.1 s i = some c →
      getCommand acc.2 s i = getCommand tp s i →
      getCommand (l.foldl (convertStep P s tp) acc).1 s i =
        some (match getCommand tp s i with
              | none => c
              | some tc => (convertPairResult P c tc).1) ∧
      getCommand (l.foldl (convertStep P s tp) acc).2 s i =
        match getCommand tp s i with
        | none => (none : Option Command)
        | some tc => some (convertPairResult P c tc).2 := by
  intro l
  induction l with
  | nil => intro acc i c hm; exact absurd hm (List.not_mem_nil _)
  | cons x l' ih =>
    intro acc i c hm hnd hf ht
    rw [List.map_cons, List.nodup_cons] at hnd
    obtain ⟨hx, hnd'⟩ := hnd
    rw [List.foldl_cons]
    rcases List.mem_cons.mp hm with h1 | h1
    · subst h1
      have hni : ∀ y ∈ l', y.1 ≠ i := by
        intro y hy h
        have hmem : y.1 ∈ l'.map Prod.fst := List.mem_map_of_mem Prod.fst hy
        rw [h] at hmem
        exact hx hmem
      obtain ⟨g1, g2⟩ := convertFold_frame P s tp l' (convertStep P s tp acc (i, c)) i hni
      obtain ⟨g3, g4⟩ := convertStep_at P s tp acc i c hf ht
      exact ⟨g1.trans g3, g2.trans g4⟩
    · have hxi : x.1 ≠ i := by
        intro h
        exact hx (h ▸ List.mem_map_of_mem Prod.fst h1)
      obtain ⟨g1, g2⟩ := convertStep_frame P s tp acc x i hxi
      exact ih (convertStep P s tp acc x) i c h1 hnd' (g1.trans hf) (g2.trans ht)

theorem autoConvert_at (P : FixParams) (s : ℕ) (fp tp : PPath) (i : ℕ)
    (fc tc : Command) (hf : getCommand fp s i = some fc)
    (ht : getCommand tp s i = some tc) :
    getCommand (autoConvert P s fp tp).1 s i = some (convertPairResult P fc tc).1 ∧
    getCommand (autoConvert P s fp tp).2 s i = some (convertPairResult P fc tc).2 := by
  have hmem : (i, fc) ∈ (getSubPath fp s).enum := by
    apply List.get?_mem
    rw [List.get?_enum]
    rw [show (getSubPath fp s).get? i = some fc from hf]
    rfl
  have hnd : ((getSubPath fp s).enum.map Prod.fst).Nodup := by
    rw [List.enum_map_fst]
    exact List.nodup_range _
  obtain ⟨g1, g2⟩ := convertFold_at P s tp (getSubPath fp s).enum (fp, tp) i fc
    hmem hnd hf rfl
  rw [ht] at g1 g2
  exact ⟨by rw [autoConvert]; exact g1, by rw [autoConvert]; exact g2⟩

theorem get?_of_lt {α : Type} (l : List α) (i : ℕ) (h : i < l.length) :
    ∃ a, l.get? i = some a := by
  cases hv : l.get? i with
  | none => exact absurd (List.get?_eq_none.mp hv) (by omega)
  | some a => exact ⟨a, rfl⟩

theorem autoConvert_kinds (P : FixParams) (s : ℕ) (fp tp : PPath) (i : ℕ)
    (hi : i < min (getSubPath (autoConvert P s fp tp).1 s).length
      (getSubPath (autoConvert P s fp tp).2 s).length) :
    ∃ a b, getCommand (autoConvert P s fp tp).1 s i = some a ∧
      getCommand (autoConvert P s fp tp).2 s i = some b ∧
      (a.svgChar = b.svgChar ∨
        (P.canConvert a.svgChar b.svgChar = false ∧
          P.canConvert b.svgChar a.svgChar = false)) := by
  obtain ⟨hl1, hl2⟩ := convertFold_lengths P s tp (getSubPath fp s).enum (fp, tp)
  rw [show ((getSubPath fp s).enum.foldl (convertStep P s tp) (fp, tp)) =
    autoConvert P s fp tp from (autoConvert P s fp tp).eta ▸ rfl] at hl1 hl2
  have hl1' : (getSubPath (autoConvert P s fp tp).1 s).length =
      (getSubPath fp s).length := hl1
  have hl2' : (getSubPath (autoConvert P s fp tp).2 s).length =
      (getSubPath tp s).length := hl2
  have hmin := lt_min_iff.mp hi
  have hif : i < (getSubPath fp s).length := by omega
  have hit : i < (getSubPath tp s).length := by omega
  obtain ⟨fc, hfc⟩ := get?_of_lt _ i hif
  obtain ⟨tc, htc⟩ := get?_of_lt _ i hit
  obtain ⟨g1, g2⟩ := autoConvert_at P s fp tp i fc tc hfc htc
  refine ⟨_, _, g1, g2, ?_⟩
  rw [convertPairResult]
  by_cases h1 : fc.svgChar = tc.svgChar
  · rw [if_pos h1]
    exact Or.inl h1
  · rw [if_neg h1]
    by_cases h2 : P.canConvert fc.svgChar tc.svgChar = true
    · rw [if_pos h2]
      exact Or.inl rfl
    · rw [if_neg h2]
      by_cases h3 : P.canConvert tc.svgChar fc.svgChar = true
      · rw [if_pos h3]
        exact Or.inl rfl
      · rw [if_neg h3]
        exact Or.inr ⟨by simpa using h2, by simpa using h3⟩

/-- Claim C2, amended: after `autoFixSubPath` on any pair of subpaths, at
every index carried by both returned subpaths the two commands either have
the same kind, or neither command's kind is convertible to the other's — in
which case the pair is left mismatched, so the two command-kind sequences
need not be identical. -/
theorem C2_kinds_match_or_unconvertible (P : FixParams) (subIdx : ℕ) (fromPath toPath : PPath)
    (i : ℕ)
    (hi : i < min
      (getSubPath (autoFixSubPath P subIdx fromPath toPath).1 subIdx).length
      (getSubPath (autoFixSubPath P subIdx fromPath toPath).2 subIdx).length) :
    ∃ a b,
      getCommand (autoFixSubPath P subIdx fromPath toPath).1 subIdx i = some a ∧
      getCommand (autoFixSubPath P subIdx fromPath toPath).2 subIdx i = some b ∧
      (a.svgChar = b.svgChar ∨
        (P.canConvert a.svgChar b.svgChar = false ∧
          P.canConvert b.svgChar a.svgChar = false)) := by
  simp only [autoFixSubPath] at hi ⊢
  exact autoConvert_kinds P subIdx _ _ i hi

/-- Claim C2, witness: the amended statement applied to the concrete pair of
the counterexample at index 1. -/
theorem C2_witness :
    ∃ a b, getCommand (autoFixSubPath cexParams 0 cexFrom cexTo).1 0 1 = some a ∧
      getCommand (autoFixSubPath cexParams 0 cexFrom cexTo).2 0 1 = some b ∧
      (a.svgChar = b.svgChar ∨
        (cexParams.canConvert a.svgChar b.svgChar = false ∧
          cexParams.canConvert b.svgChar a.svgChar = false)) :=
  C2_kinds_match_or_unconvertible cexParams 0 cexFrom cexTo 1 (by with_unfolding_all decide)

/-- Claim C2, counterexample: on an `M, A` subpath against an `M, Q` subpath
with a capability table that converts nothing, `autoFixSubPath` returns
subpaths with kind sequences `M, A, A` and `M, Q, Q`, which differ. -/
theorem C2_counterexample :
    ((getSubPath (autoFixSubPath cexParams 0 cexFrom cexTo).1 0).map
      (fun c => c.svgChar)) ≠
    ((getSubPath (autoFixSubPath cexParams 0 cexFrom cexTo).2 0).map
      (fun c => c.svgChar)) := by
  with_unfolding_all decide

theorem candidatePaths_ne_nil (s : ℕ) (fp : PPath) : candidatePaths s fp ≠ [] := by
  simp [candidatePaths]

theorem shiftSubPathBack_frame (q : PPath) (s i j : ℕ) (hj : j ≠ s) :
    getSubPath (shiftSubPathBack q s i) j = getSubPath q j :=
  getSubPath_modifyNth_ne q s _ j hj

theorem reverseSubPath_frame (q : PPath) (s j : ℕ) (hj : j ≠ s) :
    getSubPath (reverseSubPath q s) j = getSubPath q j :=
  getSubPath_modifyNth_ne q s _ j hj

theorem candidate_frame (s : ℕ) (fp : PPath) (p : PPath)
    (hp : p ∈ candidatePaths s fp) (j : ℕ) (hj : j ≠ s) :
    getSubPath p j = getSubPath fp j := by
  simp only [candidatePaths, List.flatMap_cons, List.flatMap_nil, List.append_nil,
    List.mem_append, List.mem_cons] at hp
  rcases hp with (h | h) | (h | h)
  · rw [h]
  · rcases List.mem_ite_nil_right.mp h with ⟨_, hm⟩
    obtain ⟨i, _, hi⟩ := List.mem_map.mp hm
    rw [← hi, shiftSubPathBack_frame fp s i j hj]
  · rw [h, reverseSubPath_frame fp s j hj]
  · rcases List.mem_ite_nil_right.mp h with ⟨_, hm⟩
    obtain ⟨i, _, hi⟩ := List.mem_map.mp hm
    rw [← hi, shiftSubPathBack_frame _ s i j hj, reverseSubPath_frame fp s j hj]

theorem mem_insertOp (op : SplitOp) :
    ∀ (l : List SplitOp) (x : SplitOp), x ∈ insertOp op l → x = op ∨ x ∈ l := by
  intro l
  induction l with
  | nil =>
    intro x hx
    rcases List.mem_cons.mp hx with h | h
    · exact Or.inl h
    · exact absurd h (List.not_mem_nil x)
  | cons o rest ih =>
    intro x hx
    rw [insertOp] at hx
    split at hx
    · rcases List.mem_cons.mp hx with h | h
      · exact Or.inl h
      · exact Or.inr h
    · rcases List.mem_cons.mp hx with h | h
      · exact Or.inr (h ▸ List.mem_cons_self o rest)
      · rcases ih x h with h1 | h1
        · exact Or.inl h1
        · exact Or.inr (List.mem_cons_of_mem o h1)

theorem mem_sortPathOps :
    ∀ (l : List SplitOp) (x : SplitOp), x ∈ sortPathOps l → x ∈ l := by
  intro l
  induction l with
  | nil => intro x hx; exact absurd hx (List.not_mem_nil x)
  | cons o rest ih =>
    intro x hx
    rw [sortPathOps, List.foldr_cons] at hx
    rcases mem_insertOp o _ x hx with h | h
    · exact h ▸ List.mem_cons_self o rest
    · exact List.mem_cons_of_mem o (ih x h)

theorem foldOps_frame (j : ℕ) :
    ∀ (ops : List SplitOp) (p : PPath), (∀ op ∈ ops, op.subIdx ≠ j) →
      getSubPath (ops.foldl applyOp p) j = getSubPath p j := by
  intro ops
  induction ops with
  | nil => intro p _; rfl
  | cons op rest ih =>
    intro p hops
    rw [List.foldl_cons]
    rw [ih (applyOp p op) (fun o ho => hops o (List.mem_cons_of_mem op ho))]
    exact getSubPath_modifyNth_ne p op.subIdx _ j
      (fun h => hops op (List.mem_cons_self op rest) h.symm) ▸ rfl

theorem applySplits_frame (s : ℕ) (p : PPath) (G : List (List CmdInfo)) (j : ℕ)
    (hj : j ≠ s) : getSubPath (applySplitsFn s p G) j = getSubPath p j := by
  rw [applySplitsFn]
  apply foldOps_frame j
  intro op hop
  have hmem := mem_sortPathOps _ op hop
  obtain ⟨g, _, hg⟩ := List.mem_map.mp hmem
  rw [← hg]
  exact fun h => hj h.symm

theorem convertStep_path_frame (P : FixParams) (s : ℕ) (tp : PPath)
    (acc : PPath × PPath) (x : ℕ × Command) (j : ℕ) (hj : j ≠ s) :
    getSubPath (convertStep P s tp acc x).1 j = getSubPath acc.1 j ∧
    getSubPath (convertStep P s tp acc x).2 j = getSubPath acc.2 j := by
  cases htc : getCommand tp s x.1 with
  | none => simp only [convertStep, htc]; exact ⟨trivial, trivial⟩
  | some tc =>
    simp only [convertStep, htc]
    by_cases h1 : x.2.svgChar = tc.svgChar
    · rw [if_pos h1]
      exact ⟨rfl, rfl⟩
    · rw [if_neg h1]
      by_cases h2 : P.canConvert x.2.svgChar tc.svgChar = true
      · rw [if_pos h2]
        exact ⟨getSubPath_modifyNth_ne _ s _ j hj, rfl⟩
      · rw [if_neg h2]
        by_cases h3 : P.canConvert tc.svgChar x.2.svgChar = true
        · rw [if_pos h3]
          exact ⟨rfl, getSubPath_modifyNth_ne _ s _ j hj⟩
        · rw [if_neg h3]
          exact ⟨rfl, rfl⟩

theorem convertFold_path_frame (P : FixParams) (s : ℕ) (tp : PPath) (j : ℕ)
    (hj : j ≠ s) :
    ∀ (l : List (ℕ × Command)) (acc : PPath × PPath),
      getSubPath (l.foldl (convertStep P s tp) acc).1 j = getSubPath acc.1 j ∧
      getSubPath (l.foldl (convertStep P s tp) acc).2 j = getSubPath acc.2 j := by
  intro l
  induction l with
  | nil => exact fun acc => ⟨rfl, rfl⟩
  | cons x l' ih =>
    intro acc
    rw [List.foldl_cons]
    obtain ⟨h1, h2⟩ := ih (convertStep P s tp acc x)
    obtain ⟨h3, h4⟩ := convertStep_path_frame P s tp acc x j hj
    exact ⟨h1.trans h3, h2.trans h4⟩

theorem autoConvert_frame (P : FixParams) (s : ℕ) (fp tp : PPath) (j : ℕ)
    (hj : j ≠ s) :
    getSubPath (autoConvert P s fp tp).1 j = getSubPath fp j ∧
    getSubPath (autoConvert P s fp tp).2 j = getSubPath tp j := by
  rw [autoConvert]
  exact convertFold_path_frame P s tp j hj _ (fp, tp)

theorem autoFixSubPath_chosen (P : FixParams) (s : ℕ) (fp tp : PPath) :
    ∃ gp, gp ∈ candidatePaths s fp ∧
      autoFixSubPath P s fp tp =
        autoConvert P s
          (applySplitsFn s gp (createGapStreaksFn (processAlignmentsFn
            (align (getSubPath gp s) (getSubPath tp s)
              (getScoreFn P) P.gapPenalty).fromList)))
          (applySplitsFn s tp (createGapStreaksFn (processAlignmentsFn
            (align (getSubPath gp s) (getSubPath tp s)
              (getScoreFn P) P.gapPenalty).toList))) := by
  obtain ⟨c0, cs, hc⟩ : ∃ c0 cs, candidatePaths s fp = c0 :: cs := by
    cases h : candidatePaths s fp with
    | nil => exact absurd h (candidatePaths_ne_nil s fp)
    | cons c0 cs => exact ⟨c0, cs, rfl⟩
  have hmap : (candidatePaths s fp).map
      (fun gp => (gp, align (getSubPath gp s) (getSubPath tp s)
        (getScoreFn P) P.gapPenalty)) =
      (c0, align (getSubPath c0 s) (getSubPath tp s) (getScoreFn P) P.gapPenalty) ::
        cs.map (fun gp => (gp, align (getSubPath gp s) (getSubPath tp s)
          (getScoreFn P) P.gapPenalty)) := by
    rw [hc, List.map_cons]
  have hmem := chooseBest_mem
    (c0, align (getSubPath c0 s) (getSubPath tp s) (getScoreFn P) P.gapPenalty)
    (cs.map (fun gp => (gp, align (getSubPath gp s) (getSubPath tp s)
      (getScoreFn P) P.gapPenalty)))
  rw [← hmap] at hmem
  obtain ⟨gp, hgp, hgpe⟩ := List.mem_map.mp hmem
  refine ⟨gp, hgp, ?_⟩
  rw [autoFixSubPath]
  simp only [hmap]
  rw [← hgpe]

theorem autoFixSubPath_frame (P : FixParams) (s : ℕ) (fp tp : PPath) (j : ℕ)
    (hj : j ≠ s) :
    getSubPath (autoFixSubPath P s fp tp).1 j = getSubPath fp j ∧
    getSubPath (autoFixSubPath P s fp tp).2 j = getSubPath tp j := by
  obtain ⟨gp, hgp, heq⟩ := autoFixSubPath_chosen P s fp tp
  rw [heq]
  obtain ⟨h1, h2⟩ := autoConvert_frame P s _ _ j hj
  constructor
  · rw [h1, applySplits_frame s gp _ j hj, candidate_frame s fp gp hgp j hj]
  · rw [h2, applySplits_frame s tp _ j hj]

theorem autoFixStep_frame (P : FixParams) (acc : PPath × PPath) (s j : ℕ)
    (hj : j ≠ s) :
    getSubPath (autoFixStep P acc s).1 j = getSubPath acc.1 j ∧
    getSubPath (autoFixStep P acc s).2 j = getSubPath acc.2 j := by
  rw [autoFixStep]
  split
  · exact autoFixSubPath_frame P s acc.1 acc.2 j hj
  · obtain ⟨h1, h2⟩ := autoFixSubPath_frame P s acc.2 acc.1 j hj
    exact ⟨h2, h1⟩

theorem foldFixSteps_frame (P : FixParams) (j : ℕ) :
    ∀ (l : List ℕ) (acc : PPath × PPath), (∀ x ∈ l, x ≠ j) →
      getSubPath (l.foldl (autoFixStep P) acc).1 j = getSubPath acc.1 j ∧
      getSubPath (l.foldl (autoFixStep P) acc).2 j = getSubPath acc.2 j := by
  intro l
  induction l with
  | nil => exact fun acc _ => ⟨rfl, rfl⟩
  | cons s l' ih =>
    intro acc hx
    rw [List.foldl_cons]
    obtain ⟨h1, h2⟩ := ih (autoFixStep P acc s)
      (fun y hy => hx y (List.mem_cons_of_mem s hy))
    obtain ⟨h3, h4⟩ := autoFixStep_frame P acc s j
      (fun h => hx s (List.mem_cons_self s l') h.symm)
    exact ⟨h1.trans h3, h2.trans h4⟩

/-- Claim C10: `autoFix` only reconciles subpath indices strictly below the
minimum of the two paths' subpath counts; every subpath of either returned
path at an index at or beyond that minimum is returned unchanged. -/
theorem C10_autoFix_frame (P : FixParams) (fromPath toPath : PPath) (j : ℕ)
    (hj : min fromPath.length toPath.length ≤ j) :
    getSubPath (autoFix P fromPath toPath).1 j = getSubPath fromPath j ∧
    getSubPath (autoFix P fromPath toPath).2 j = getSubPath toPath j := by
  rw [autoFix]
  exact foldFixSteps_frame P j _ (fromPath, toPath)
    (fun x hx h => by rw [h] at hx; exact absurd (List.mem_range.mp hx) (by omega))

/-- Claim C10, witness: the frame property applied to a two-subpath path and
a one-subpath path at index 1. -/
theorem C10_witness :
    getSubPath (autoFix cexParams cexBig cexSmall).1 1 = getSubPath cexBig 1 ∧
    getSubPath (autoFix cexParams cexBig cexSmall).2 1 = getSubPath cexSmall 1 :=
  C10_autoFix_frame cexParams cexBig cexSmall 1 (by norm_num [cexBig, cexSmall])

theorem decimalQ_int (z : ℤ) : DecimalQ (z : ℚ) := ⟨z, 0, by norm_num⟩

theorem decimalQ_nat (n : ℕ) : DecimalQ (n : ℚ) := ⟨n, 0, by norm_num⟩

theorem decimalQ_add {a b : ℚ} (ha : DecimalQ a) (hb : DecimalQ b) :
    DecimalQ (a + b) := by
  obtain ⟨x, j, hx⟩ := ha
  obtain ⟨y, k, hy⟩ := hb
  refine ⟨x * 10 ^ k + y * 10 ^ j, j + k, ?_⟩
  subst hx hy
  rw [div_add_div _ _ (by positivity) (by positivity)]
  rw [pow_add]
  push_cast
  ring_nf

theorem decimalQ_neg {a : ℚ} (ha : DecimalQ a) : DecimalQ (-a) := by
  obtain ⟨x, j, hx⟩ := ha
  exact ⟨-x, j, by rw [hx]; push_cast; ring⟩

theorem decimalQ_mul_int {a : ℚ} (ha : DecimalQ a) (z : ℤ) :
    DecimalQ (a * z) := by
  obtain ⟨x, j, hx⟩ := ha
  exact ⟨x * z, j, by rw [hx]; push_cast; ring⟩

theorem decimalQ_div_pow10 {a : ℚ} (ha : DecimalQ a) (k : ℕ) :
    DecimalQ (a / 10 ^ k) := by
  obtain ⟨x, j, hx⟩ := ha
  refine ⟨x, j + k, ?_⟩
  rw [hx, pow_add]
  push_cast
  rw [div_div]

theorem decimalQ_zpow10 {a : ℚ} (ha : DecimalQ a) (e : ℤ) :
    DecimalQ (a * (10 : ℚ) ^ e) := by
  rcases e with n | n
  · rw [show ((10 : ℚ) ^ (Int.ofNat n : ℤ)) = (((10 : ℤ) ^ n : ℤ) : ℚ) by push_cast; norm_num]
    exact decimalQ_mul_int ha ((10 : ℤ) ^ n)
  · rw [show ((10 : ℚ) ^ (Int.negSucc n : ℤ)) = 1 / 10 ^ (n + 1) by
      rw [zpow_negSucc]; norm_num]
    rw [mul_one_div]
    exact decimalQ_div_pow10 ha (n + 1)

theorem toFixed3_close (x : ℚ) : |toFixed3 x - x| ≤ 1 / 1000 := by
  rw [toFixed3]
  have h1 : (⌊x * 1000 + 1 / 2⌋ : ℚ) ≤ x * 1000 + 1 / 2 := Int.floor_le _
  have h2 : x * 1000 + 1 / 2 - 1 < (⌊x * 1000 + 1 / 2⌋ : ℚ) :=
    Int.sub_one_lt_floor _
  rw [abs_le]
  constructor <;> [linarith; linarith]

theorem roundPt_close (p : Point) :
    |(roundPt p).x - p.x| ≤ 1 / 1000 ∧ |(roundPt p).y - p.y| ≤ 1 / 1000 :=
  ⟨toFixed3_close p.x, toFixed3_close p.y⟩


theorem decimalQ_zero : DecimalQ 0 := ⟨0, 0, by norm_num⟩

theorem jsParseFloat_decimal (cs : List Char) : DecimalQ (jsParseFloat cs) := by
  have hmant : ∀ (s : ℚ), s = 1 ∨ s = -1 → ∀ (i f : ℕ) (l : ℕ),
      DecimalQ (s * ((i : ℚ) + (f : ℚ) / 10 ^ l)) := by
    intro s hs i f l
    have h1 : DecimalQ ((i : ℚ) + (f : ℚ) / 10 ^ l) :=
      decimalQ_add (decimalQ_nat i) (decimalQ_div_pow10 (decimalQ_nat f) l)
    rcases hs with h | h <;> subst h
    · simpa using h1
    · simpa using decimalQ_neg h1
  simp only [jsParseFloat]
  split
  case isTrue => exact decimalQ_zero
  case isFalse h =>
    split
    · split
      · exact hmant _ (by split <;> simp) _ _ _
      · exact decimalQ_zpow10 (hmant _ (by split <;> simp) _ _ _) _
    · exact hmant _ (by split <;> simp) _ _ _

theorem digitChar_spec (d : ℕ) (hd : d < 10) :
    digitVal (digitChar d) = d ∧ '0' ≤ digitChar d ∧ digitChar d ≤ '9' := by
  interval_cases d <;> exact ⟨by decide, by decide, by decide⟩

theorem natDigitsAux_spec :
    ∀ (fuel n : ℕ), n ≤ fuel →
      List.foldr (fun d acc => d + 10 * acc) 0 (natDigitsAux fuel n) = n ∧
      ∀ d ∈ natDigitsAux fuel n, d < 10 := by
  intro fuel
  induction fuel with
  | zero =>
    intro n hn
    have : n = 0 := by omega
    subst this
    exact ⟨rfl, by simp [natDigitsAux]⟩
  | succ f ih =>
    intro n hn
    rw [natDigitsAux]
    by_cases h0 : n = 0
    · rw [if_pos h0]
      exact ⟨h0.symm, by simp⟩
    · rw [if_neg h0]
      have hdiv : n / 10 ≤ f := by
        have := Nat.div_lt_self (Nat.pos_of_ne_zero h0) (by norm_num : (1:ℕ) < 10)
        omega
      obtain ⟨ihv, ihd⟩ := ih (n / 10) hdiv
      constructor
      · rw [List.foldr_cons, ihv]
        omega
      · intro d hd
        rcases List.mem_cons.mp hd with h | h
        · subst h; exact Nat.mod_lt _ (by norm_num)
        · exact ihd d h

theorem foldl_digits_rev :
    ∀ (l : List ℕ) (a : ℕ),
      List.foldl (fun x d => x * 10 + d) a l.reverse =
        a * 10 ^ l.length + List.foldr (fun d acc => d + 10 * acc) 0 l := by
  intro l
  induction l with
  | nil => intro a; simp
  | cons d t ih =>
    intro a
    rw [List.reverse_cons, List.foldl_append]
    simp only [List.foldl_cons, List.foldl_nil, List.foldr_cons]
    rw [ih a]
    simp only [List.length_cons, pow_succ]
    ring

theorem foldl_map_digitChar :
    ∀ (l : List ℕ) (a : ℕ), (∀ d ∈ l, d < 10) →
      List.foldl (fun x c => x * 10 + digitVal c) a (l.map digitChar) =
        List.foldl (fun x d => x * 10 + d) a l := by
  intro l
  induction l with
  | nil => intro a _; rfl
  | cons d t ih =>
    intro a hl
    simp only [List.map_cons, List.foldl_cons]
    rw [(digitChar_spec d (hl d (List.mem_cons_self d t))).1]
    exact ih _ (fun x hx => hl x (List.mem_cons_of_mem d hx))

theorem digitsToNat_natToChars (n : ℕ) : digitsToNat (natToChars n) = n := by
  rw [natToChars]
  by_cases h0 : n = 0
  · rw [if_pos h0, h0]
    rfl
  · rw [if_neg h0]
    rw [digitsToNat]
    simp only [natDigits]
    rw [foldl_map_digitChar ((natDigitsAux n n).reverse) 0
      (fun d hd => (natDigitsAux_spec n n (le_refl n)).2 d (List.mem_reverse.mp hd))]
    rw [foldl_digits_rev]
    rw [(natDigitsAux_spec n n (le_refl n)).1]
    simp



theorem natToChars_digits (n : ℕ) :
    ∀ c ∈ natToChars n, '0' ≤ c ∧ c ≤ '9' := by
  rw [natToChars]
  by_cases h0 : n = 0
  · rw [if_pos h0]
    intro c hc
    rcases List.mem_cons.mp hc with h | h
    · subst h; exact ⟨by decide, by decide⟩
    · exact absurd h (List.not_mem_nil c)
  · rw [if_neg h0]
    intro c hc
    obtain ⟨d, hd, hdc⟩ := List.mem_map.mp hc
    have hd10 : d < 10 := (natDigitsAux_spec n n (le_refl n)).2 d
      (List.mem_reverse.mp hd)
    rw [← hdc]
    exact (digitChar_spec d hd10).2

theorem natToChars_ne_nil (n : ℕ) : natToChars n ≠ [] := by
  rw [natToChars]
  by_cases h0 : n = 0
  · rw [if_pos h0]; simp
  · rw [if_neg h0]
    simp only [ne_eq, List.map_eq_nil_iff, List.reverse_eq_nil_iff]
    intro h
    have := (natDigitsAux_spec n n (le_refl n)).1
    rw [show natDigitsAux n n = [] from h] at this
    exact h0 this.symm

theorem padZeros_digits (k : ℕ) (ds : List Char) (h : ∀ c ∈ ds, '0' ≤ c ∧ c ≤ '9') :
    ∀ c ∈ padZeros k ds, '0' ≤ c ∧ c ≤ '9' := by
  intro c hc
  rcases List.mem_append.mp hc with h1 | h1
  · rw [List.eq_of_mem_replicate h1]
    exact ⟨by decide, by decide⟩
  · exact h c h1

theorem digitsToNat_padZeros (k : ℕ) (ds : List Char) :
    digitsToNat (padZeros k ds) = digitsToNat ds := by
  rw [padZeros, digitsToNat, digitsToNat]
  generalize k - ds.length = m
  induction m with
  | zero => rfl
  | succ j ih =>
    rw [List.replicate_succ, List.cons_append, List.foldl_cons]
    simpa using ih

theorem padZeros_length (k : ℕ) (ds : List Char) (h : ds.length ≤ k) :
    (padZeros k ds).length = k := by
  rw [padZeros]
  simp only [List.length_append, List.length_replicate]
  omega

theorem natDigitsAux_length :
    ∀ (k fuel n : ℕ), n ≤ fuel → n < 10 ^ k → (natDigitsAux fuel n).length ≤ k := by
  intro k
  induction k with
  | zero =>
    intro fuel n hn hk
    have : n = 0 := by omega
    subst this
    cases fuel <;> simp [natDigitsAux]
  | succ j ih =>
    intro fuel n hn hk
    cases fuel with
    | zero => simp [natDigitsAux]
    | succ f =>
      rw [natDigitsAux]
      by_cases h0 : n = 0
      · rw [if_pos h0]; simp
      · rw [if_neg h0]
        simp only [List.length_cons]
        have h1 : n / 10 ≤ f := by
          have := Nat.div_lt_self (Nat.pos_of_ne_zero h0) (by norm_num : (1:ℕ) < 10)
          omega
        have h2 : n / 10 < 10 ^ j := by
          rw [Nat.div_lt_iff_lt_mul (by norm_num : (0:ℕ) < 10)]
          calc n < 10 ^ (j + 1) := hk
            _ = 10 ^ j * 10 := by ring
        have := ih f (n / 10) h1 h2
        omega

theorem natToChars_length (k n : ℕ) (h : n < 10 ^ k) (h0 : n ≠ 0) :
    (natToChars n).length ≤ k := by
  rw [natToChars, if_neg h0]
  simp only [List.length_map, List.length_reverse]
  exact natDigitsAux_length k n n (le_refl n) h

theorem takeDigits_append (ds rest : List Char)
    (hds : ∀ c ∈ ds, '0' ≤ c ∧ c ≤ '9')
    (hrest : rest = [] ∨ ∃ c rest2, rest = c :: rest2 ∧ ¬('0' ≤ c ∧ c ≤ '9')) :
    takeDigits (ds ++ rest) = (ds, rest) := by
  induction ds with
  | nil =>
    rcases hrest with h | ⟨c, rest2, hr, hc⟩
    · subst h; rfl
    · subst hr
      simp only [List.nil_append, takeDigits]
      rw [if_neg hc]
  | cons c cs ih =>
    rw [List.cons_append, takeDigits]
    rw [if_pos (hds c (List.mem_cons_self c cs))]
    rw [ih (fun x hx => hds x (List.mem_cons_of_mem c hx))]


theorem countFactorAux_dvd (p : ℕ) :
    ∀ (fuel n : ℕ), n ≤ fuel → 0 < n → p ^ countFactorAux p fuel n ∣ n := by
  intro fuel
  induction fuel with
  | zero => intro n hn h0; omega
  | succ f ih =>
    intro n hn h0
    rw [countFactorAux]
    by_cases hc : 2 ≤ p ∧ 0 < n ∧ n % p = 0
    · rw [if_pos hc]
      have hpd : p ∣ n := Nat.dvd_of_mod_eq_zero hc.2.2
      have hq : n / p ≤ f := by
        have := Nat.div_lt_self h0 (by omega : 1 < p)
        omega
      have hq0 : 0 < n / p := Nat.div_pos (Nat.le_of_dvd h0 hpd) (by omega)
      obtain ⟨t, ht⟩ := ih (n / p) hq hq0
      refine ⟨t, ?_⟩
      conv_lhs => rw [← Nat.mul_div_cancel' hpd, ht]
      ring
    · rw [if_neg hc]
      simp

theorem countFactorAux_max (p : ℕ) (hp : 2 ≤ p) :
    ∀ (fuel n : ℕ), n ≤ fuel → 0 < n →
      ¬ p ^ (countFactorAux p fuel n + 1) ∣ n := by
  intro fuel
  induction fuel with
  | zero => intro n hn h0; omega
  | succ f ih =>
    intro n hn h0
    rw [countFactorAux]
    by_cases hc : 2 ≤ p ∧ 0 < n ∧ n % p = 0
    · rw [if_pos hc]
      have hpd : p ∣ n := Nat.dvd_of_mod_eq_zero hc.2.2
      have hq : n / p ≤ f := by
        have := Nat.div_lt_self h0 (by omega : 1 < p)
        omega
      have hq0 : 0 < n / p := Nat.div_pos (Nat.le_of_dvd h0 hpd) (by omega)
      intro hdvd
      apply ih (n / p) hq hq0
      obtain ⟨t, ht⟩ := hdvd
      refine ⟨t, ?_⟩
      have hn2 : n = p * (p ^ (countFactorAux p f (n / p) + 1) * t) := by
        conv_lhs => rw [ht]
        ring
      conv_lhs => rw [hn2, Nat.mul_div_cancel_left _ (by omega : 0 < p)]
    · rw [if_neg hc]
      intro hdvd
      rw [zero_add, pow_one] at hdvd
      exact hc ⟨hp, h0, Nat.mod_eq_zero_of_dvd hdvd⟩

theorem countFactor_eq_factorization (p : ℕ) (hp : p.Prime) (d : ℕ) (hd : 0 < d) :
    countFactor p d = d.factorization p := by
  have h1 : p ^ countFactor p d ∣ d := countFactorAux_dvd p d d le_rfl hd
  have h2 : ¬ p ^ (countFactor p d + 1) ∣ d := countFactorAux_max p hp.two_le d d le_rfl hd
  have hle : countFactor p d ≤ d.factorization p :=
    (Nat.Prime.pow_dvd_iff_le_factorization hp hd.ne').mp h1
  have hge : d.factorization p ≤ countFactor p d := by
    by_contra h
    push_neg at h
    exact h2 ((Nat.Prime.pow_dvd_iff_le_factorization hp hd.ne').mpr h)
  omega

theorem dvd_pow10_max (d k : ℕ) (hd : 0 < d) (hdvd : d ∣ 10 ^ k) :
    d ∣ 10 ^ (max (countFactor 2 d) (countFactor 5 d)) := by
  have hne : d ≠ 0 := hd.ne'
  have hc2 : countFactor 2 d = d.factorization 2 :=
    countFactor_eq_factorization 2 Nat.prime_two d hd
  have hc5 : countFactor 5 d = d.factorization 5 :=
    countFactor_eq_factorization 5 Nat.prime_five d hd
  have hfact10 : ∀ (m p : ℕ), ((10 : ℕ) ^ m).factorization p =
      m * ((if 2 = p then 1 else 0) + (if 5 = p then 1 else 0)) := by
    intro m p
    have h25 : (10 : ℕ) = 2 * 5 := by norm_num
    rw [h25, mul_pow, Nat.factorization_mul (by positivity) (by positivity),
      Nat.factorization_pow, Nat.factorization_pow,
      Nat.Prime.factorization Nat.prime_two, Nat.Prime.factorization Nat.prime_five]
    simp [Finsupp.single_apply, mul_add]
  have hKne : (10 : ℕ) ^ (max (countFactor 2 d) (countFactor 5 d)) ≠ 0 := by positivity
  rw [← Nat.factorization_le_iff_dvd hne hKne, Finsupp.le_def]
  intro p
  have hup : d.factorization p ≤ ((10 : ℕ) ^ k).factorization p :=
    Finsupp.le_def.mp
      ((Nat.factorization_le_iff_dvd hne (by positivity : (10:ℕ) ^ k ≠ 0)).mpr hdvd) p
  rw [hfact10] at hup ⊢
  by_cases hp2 : p = 2
  · subst hp2
    have hb : d.factorization 2 ≤ max (countFactor 2 d) (countFactor 5 d) :=
      hc2 ▸ le_max_left _ _
    simpa using hb
  by_cases hp5 : p = 5
  · subst hp5
    have hb : d.factorization 5 ≤ max (countFactor 2 d) (countFactor 5 d) :=
      hc5 ▸ le_max_right _ _
    simpa using hb
  · rw [if_neg (fun h => hp2 h.symm), if_neg (fun h => hp5 h.symm)] at hup ⊢
    omega

theorem decimalQ_den_dvd_pow10 (q : ℚ) (hq : DecimalQ q) :
    ∃ k, q.den ∣ 10 ^ k := by
  obtain ⟨z, k, rfl⟩ := hq
  refine ⟨k, ?_⟩
  have h : ((z : ℚ) / (10 : ℚ) ^ k) = Rat.divInt z ((10 : ℤ) ^ k) := by
    rw [Rat.divInt_eq_div]
    push_cast
    ring
  rw [h]
  have hdvd := Rat.den_dvd z ((10 : ℤ) ^ k)
  have h2 : ((10 : ℤ) ^ k) = ((10 ^ k : ℕ) : ℤ) := by push_cast; ring
  rw [h2] at hdvd
  exact_mod_cast hdvd

theorem den_dvd_mul_pow_den_one (q : ℚ) (K : ℕ) (h : q.den ∣ 10 ^ K) :
    (q * (10 : ℚ) ^ K).den = 1 := by
  obtain ⟨m, hm⟩ := h
  have h10 : ((10 : ℚ)) ^ K = (q.den : ℚ) * (m : ℚ) := by
    have hcast : ((10 ^ K : ℕ) : ℚ) = ((q.den * m : ℕ) : ℚ) := by rw [hm]
    push_cast at hcast
    simpa using hcast
  have hden : (q.den : ℚ) ≠ 0 := by
    exact_mod_cast q.den_nz
  have hqd : q * (q.den : ℚ) = (q.num : ℚ) := by
    nth_rewrite 1 [← Rat.num_div_den q]
    field_simp
  have heq : q * (10 : ℚ) ^ K = ((q.num * m : ℤ) : ℚ) := by
    rw [h10, ← mul_assoc, hqd]
    push_cast
    ring
  rw [heq, Rat.den_intCast]

theorem decimalQ_abs {q : ℚ} (hq : DecimalQ q) : DecimalQ |q| := by
  rcases abs_choice q with h | h
  · rw [h]; exact hq
  · rw [h]; exact decimalQ_neg hq

theorem decimalQ_t_den_one (q : ℚ) (hq : DecimalQ q) :
    (|q| * (10 : ℚ) ^ (max (countFactor 2 |q|.den) (countFactor 5 |q|.den))).den = 1 := by
  obtain ⟨k, hk⟩ := decimalQ_den_dvd_pow10 |q| (decimalQ_abs hq)
  exact den_dvd_mul_pow_den_one _ _ (dvd_pow10_max _ k |q|.pos hk)

theorem jsParseFloat_neg_head (r : List Char) :
    jsParseFloat ('-' :: r) = jsParseSigned (-1) r := rfl

theorem jsParseFloat_not_neg (c : Char) (tl : List Char) (hc : ¬ c = '-') :
    jsParseFloat (c :: tl) = jsParseSigned 1 (c :: tl) := by
  simp only [jsParseFloat]
  have hsplit : (match c :: tl with
      | '-' :: r => ((-1 : ℚ), r)
      | x => ((1 : ℚ), c :: tl)) = ((1 : ℚ), c :: tl) := by
    split
    · rename_i r heq
      rw [List.cons.injEq] at heq
      exact absurd heq.1 hc
    · rfl
  rw [hsplit]
  rfl

theorem takeDigits_all (ds : List Char) (hds : ∀ c ∈ ds, '0' ≤ c ∧ c ≤ '9') :
    takeDigits ds = (ds, []) := by
  have := takeDigits_append ds [] hds (Or.inl rfl)
  simpa using this

theorem jsParseSigned_int (s1 : ℚ) (n : ℕ) :
    jsParseSigned s1 (natToChars n) = s1 * n := by
  have htd : takeDigits (natToChars n) = (natToChars n, []) :=
    takeDigits_all _ (natToChars_digits n)
  have hne : (natToChars n).length ≠ 0 :=
    fun h => natToChars_ne_nil n (List.length_eq_zero.mp h)
  simp only [jsParseSigned, htd]
  rw [if_neg (by simpa using hne)]
  rw [digitsToNat_natToChars]
  norm_num [digitsToNat]

theorem jsParseSigned_frac (s1 : ℚ) (ip fp k : ℕ) (hfp : fp ≠ 0) (hlt : fp < 10 ^ k) :
    jsParseSigned s1 (natToChars ip ++ '.' :: padZeros k (natToChars fp)) =
      s1 * ((ip : ℚ) + (fp : ℚ) / (10 : ℚ) ^ k) := by
  have htd1 : takeDigits (natToChars ip ++ '.' :: padZeros k (natToChars fp)) =
      (natToChars ip, '.' :: padZeros k (natToChars fp)) :=
    takeDigits_append _ _ (natToChars_digits ip)
      (Or.inr ⟨'.', _, rfl, by decide⟩)
  have htd2 : takeDigits (padZeros k (natToChars fp)) = (padZeros k (natToChars fp), []) :=
    takeDigits_all _ (padZeros_digits _ _ (natToChars_digits fp))
  have hne : (natToChars ip).length ≠ 0 :=
    fun h => natToChars_ne_nil ip (List.length_eq_zero.mp h)
  have hplen : (padZeros k (natToChars fp)).length = k :=
    padZeros_length k _ (natToChars_length k fp hlt hfp)
  simp only [jsParseSigned, htd1, htd2]
  rw [if_neg (fun h => hne (by omega))]
  rw [digitsToNat_natToChars, digitsToNat_padZeros, digitsToNat_natToChars, hplen]

theorem natToChars_head_not_neg (n : ℕ) (rest : List Char) :
    ∃ c tl, natToChars n ++ rest = c :: tl ∧ ¬ c = '-' := by
  obtain ⟨c, tl0, hct⟩ := List.exists_cons_of_ne_nil (natToChars_ne_nil n)
  refine ⟨c, tl0 ++ rest, by rw [hct]; rfl, ?_⟩
  intro hc
  have hmem : c ∈ natToChars n := hct ▸ List.mem_cons_self c tl0
  have hd := (natToChars_digits n c hmem).1
  rw [hc] at hd
  exact absurd hd (by decide)

theorem jsParseFloat_natToChars_append (n : ℕ) (rest : List Char) :
    jsParseFloat (natToChars n ++ rest) = jsParseSigned 1 (natToChars n ++ rest) := by
  obtain ⟨c, tl, heq, hc⟩ := natToChars_head_not_neg n rest
  rw [heq]
  exact jsParseFloat_not_neg c tl hc

theorem data_mk (l : List Char) : (String.mk l).data = l := rfl

theorem data_app (s t : String) : (s ++ t).data = s.data ++ t.data := rfl

theorem jsParseFloat_natToChars (n : ℕ) :
    jsParseFloat (natToChars n) = jsParseSigned 1 (natToChars n) := by
  have h := jsParseFloat_natToChars_append n []
  rwa [List.append_nil] at h

theorem jsPlainString_roundtrip (q : ℚ) (hq : DecimalQ q) :
    jsParseFloat (jsPlainString q).data = q := by
  by_cases h0 : q = 0
  · subst h0
    rw [jsPlainString, if_pos rfl]
    show jsParseFloat ['0'] = 0
    have h00 : natToChars 0 = ['0'] := rfl
    rw [← h00, jsParseFloat_natToChars, jsParseSigned_int]
    norm_num
  · have hden1 := decimalQ_t_den_one q hq
    have ha_pos : 0 < |q| := abs_pos.mpr h0
    rw [jsPlainString, if_neg h0, if_pos hden1]
    set K := max (countFactor 2 |q|.den) (countFactor 5 |q|.den) with hK
    set t : ℚ := |q| * (10 : ℚ) ^ K with ht
    set m : ℕ := t.num.toNat with hm
    have ht_pos : 0 < t := by
      rw [ht]; positivity
    have htm : (m : ℚ) = t := by
      have h1 : (t.num : ℚ) = t := by
        conv_rhs => rw [← Rat.num_div_den t]
        rw [hden1]
        norm_num
      have h2 : ((m : ℕ) : ℤ) = t.num := Int.toNat_of_nonneg (Rat.num_nonneg.mpr ht_pos.le)
      rw [← h1, ← h2]
      push_cast
      ring
    have h10K : ((10 : ℚ) ^ K) ≠ 0 := by positivity
    have habs : |q| = (m : ℚ) / 10 ^ K := by
      rw [htm, ht]
      field_simp
    by_cases hfp : m % 10 ^ K = 0
    · rw [if_pos hfp]
      have hmip : (m : ℚ) = ((m / 10 ^ K : ℕ) : ℚ) * 10 ^ K := by
        have hnat : m / 10 ^ K * 10 ^ K = m :=
          Nat.div_mul_cancel (Nat.dvd_of_mod_eq_zero hfp)
        calc (m : ℚ) = ((m / 10 ^ K * 10 ^ K : ℕ) : ℚ) := by rw [hnat]
          _ = ((m / 10 ^ K : ℕ) : ℚ) * 10 ^ K := by push_cast; ring
      have hip : |q| = ((m / 10 ^ K : ℕ) : ℚ) := by
        rw [habs, hmip]
        field_simp
      by_cases hneg : q < 0
      · rw [if_pos hneg]
        show jsParseFloat ('-' :: natToChars (m / 10 ^ K)) = q
        rw [jsParseFloat_neg_head, jsParseSigned_int, ← hip]
        rw [abs_of_neg hneg]
        ring
      · rw [if_neg hneg]
        show jsParseFloat (natToChars (m / 10 ^ K)) = q
        rw [jsParseFloat_natToChars, jsParseSigned_int, ← hip]
        rw [abs_of_nonneg (le_of_not_lt hneg)]
        ring
    · rw [if_neg hfp]
      have hlt : m % 10 ^ K < 10 ^ K := Nat.mod_lt _ (by positivity)
      have hfrac : ((m / 10 ^ K : ℕ) : ℚ) + ((m % 10 ^ K : ℕ) : ℚ) / 10 ^ K = |q| := by
        rw [habs]
        have hnat : m / 10 ^ K * 10 ^ K + m % 10 ^ K = m := by
          rw [Nat.mul_comm (m / 10 ^ K) (10 ^ K)]
          exact Nat.div_add_mod m (10 ^ K)
        have hcast : ((m / 10 ^ K : ℕ) : ℚ) * 10 ^ K + ((m % 10 ^ K : ℕ) : ℚ) = (m : ℚ) := by
          calc ((m / 10 ^ K : ℕ) : ℚ) * 10 ^ K + ((m % 10 ^ K : ℕ) : ℚ)
              = ((m / 10 ^ K * 10 ^ K + m % 10 ^ K : ℕ) : ℚ) := by push_cast; ring
            _ = (m : ℚ) := by rw [hnat]
        field_simp
        linarith [hcast]
      by_cases hneg : q < 0
      · rw [if_pos hneg]
        show jsParseFloat
          ('-' :: ((natToChars (m / 10 ^ K) ++ ['.']) ++ padZeros K (natToChars (m % 10 ^ K)))) = q
        rw [jsParseFloat_neg_head, List.append_assoc, List.singleton_append]
        rw [jsParseSigned_frac _ _ _ _ hfp hlt, hfrac]
        rw [abs_of_neg hneg]
        ring
      · rw [if_neg hneg]
        show jsParseFloat
          ((natToChars (m / 10 ^ K) ++ ['.']) ++ padZeros K (natToChars (m % 10 ^ K))) = q
        rw [List.append_assoc, List.singleton_append]
        rw [jsParseFloat_natToChars_append, jsParseSigned_frac _ _ _ _ hfp hlt, hfrac]
        rw [abs_of_nonneg (le_of_not_lt hneg)]
        ring

theorem digit_not_lower (c : Char) (h : '0' ≤ c ∧ c ≤ '9') : ¬('a' ≤ c ∧ c ≤ 'z') :=
  fun hl => absurd (le_trans hl.1 h.2) (by decide)

theorem digit_not_upper (c : Char) (h : '0' ≤ c ∧ c ≤ '9') : ¬('A' ≤ c ∧ c ≤ 'Z') :=
  fun hl => absurd (le_trans hl.1 h.2) (by decide)

theorem advance_blank (s : List Char) : advanceToNextToken (' ' :: s) = advanceToNextToken s := by
  rw [advanceToNextToken]
  rw [if_neg (by decide), if_neg (by decide), if_neg (by decide)]

theorem advance_comma (s : List Char) : advanceToNextToken (',' :: s) = advanceToNextToken s := by
  rw [advanceToNextToken]
  rw [if_neg (by decide), if_neg (by decide), if_neg (by decide)]

theorem advance_digit (c : Char) (s : List Char) (h : '0' ≤ c ∧ c ≤ '9') :
    advanceToNextToken (c :: s) = (Token.Value, c :: s) := by
  rw [advanceToNextToken]
  rw [if_neg (digit_not_lower c h), if_neg (digit_not_upper c h), if_pos (Or.inl h)]

theorem advance_minus (s : List Char) :
    advanceToNextToken ('-' :: s) = (Token.Value, '-' :: s) := by
  rw [advanceToNextToken]
  rw [if_neg (by decide), if_neg (by decide), if_pos (by decide)]

theorem advance_upper (c : Char) (s : List Char) (h : 'A' ≤ c ∧ c ≤ 'Z') :
    advanceToNextToken (c :: s) = (Token.AbsoluteCommand, c :: s) := by
  rw [advanceToNextToken]
  rw [if_neg (fun hl => absurd (le_trans hl.1 h.2) (by decide)), if_pos h]

theorem scanValue_stop (rest : List Char) (start seenDot : Bool) (h : ScanStop rest) :
    scanValue rest start seenDot = ([], rest) := by
  rcases h with h | ⟨c, r, hr, hc⟩
  · subst h; rfl
  · subst hr
    rw [scanValue]
    rw [if_pos (fun ha => hc (by
      rcases ha with h1 | h2 | h3 | h4
      · exact Or.inl h1
      · exact Or.inr (Or.inl h2.1)
      · exact Or.inr (Or.inr (Or.inl h3.1))
      · exact Or.inr (Or.inr (Or.inr h4))))]

theorem scanStop_blank (r : List Char) : ScanStop (' ' :: r) :=
  Or.inr ⟨' ', r, rfl, by decide⟩

theorem scanStop_comma (r : List Char) : ScanStop (',' :: r) :=
  Or.inr ⟨',', r, rfl, by decide⟩

theorem scanValue_digits_stop :
    ∀ (ds rest : List Char) (start seenDot : Bool),
      (∀ c ∈ ds, '0' ≤ c ∧ c ≤ '9') → ScanStop rest →
      scanValue (ds ++ rest) start seenDot = (ds, rest) := by
  intro ds
  induction ds with
  | nil =>
    intro rest start seenDot _ hstop
    simpa using scanValue_stop rest start seenDot hstop
  | cons d t ih =>
    intro rest start seenDot hds hstop
    have hd := hds d (List.mem_cons_self d t)
    rw [List.cons_append, scanValue]
    rw [if_neg (not_not_intro (Or.inl hd))]
    have hde : decide (d = 'e') = false :=
      decide_eq_false (fun h => absurd (h ▸ hd.2 : 'e' ≤ '9') (by decide))
    have hdd : decide (d = '.') = false :=
      decide_eq_false (fun h => absurd (h ▸ hd.1 : '0' ≤ '.') (by decide))
    rw [hde, hdd]
    rw [ih rest false (seenDot || false) (fun c hc => hds c (List.mem_cons_of_mem d hc)) hstop]

theorem scanValue_frac :
    ∀ (ipds fpds rest : List Char) (start : Bool),
      (∀ c ∈ ipds, '0' ≤ c ∧ c ≤ '9') → (∀ c ∈ fpds, '0' ≤ c ∧ c ≤ '9') → ScanStop rest →
      scanValue (ipds ++ '.' :: (fpds ++ rest)) start false =
        (ipds ++ '.' :: fpds, rest) := by
  intro ipds
  induction ipds with
  | nil =>
    intro fpds rest start _ hfp hstop
    rw [List.nil_append, scanValue]
    rw [if_neg (not_not_intro (Or.inr (Or.inl ⟨rfl, rfl⟩)))]
    rw [show decide (('.' : Char) = 'e') = false from by decide]
    rw [show (false || decide (('.' : Char) = '.')) = true from by decide]
    rw [scanValue_digits_stop fpds rest false true hfp hstop]
    rfl
  | cons d t ih =>
    intro fpds rest start hip hfp hstop
    have hd := hip d (List.mem_cons_self d t)
    rw [List.cons_append, scanValue]
    rw [if_neg (not_not_intro (Or.inl hd))]
    have hde : decide (d = 'e') = false :=
      decide_eq_false (fun h => absurd (h ▸ hd.2 : 'e' ≤ '9') (by decide))
    have hdd : decide (d = '.') = false :=
      decide_eq_false (fun h => absurd (h ▸ hd.1 : '0' ≤ '.') (by decide))
    rw [hde, hdd]
    rw [show ((false || false) : Bool) = false from rfl]
    rw [ih fpds rest false (fun c hc => hip c (List.mem_cons_of_mem d hc)) hfp hstop]
    rfl

theorem scanValue_minus (l : List Char) (seenDot : Bool) :
    scanValue ('-' :: l) true seenDot =
      ('-' :: (scanValue l false seenDot).1, (scanValue l false seenDot).2) := by
  rw [scanValue]
  rw [if_neg (not_not_intro (Or.inr (Or.inr (Or.inl ⟨rfl, rfl⟩))))]
  rw [show decide (('-' : Char) = 'e') = false from by decide]
  rw [show ((seenDot || decide (('-' : Char) = '.'))) = seenDot from by simp]

theorem padZeros_ne_nil (k : ℕ) (ds : List Char) (h : ds ≠ []) : padZeros k ds ≠ [] := by
  rw [padZeros]
  intro hc
  rcases List.append_eq_nil.mp hc with ⟨_, h2⟩
  exact h h2

theorem jsPlainString_shape (q : ℚ) :
    ∃ (neg : Bool) (ipds fpart : List Char),
      (jsPlainString q).data = (if neg then ['-'] else []) ++ ipds ++ fpart ∧
      ipds ≠ [] ∧ (∀ c ∈ ipds, '0' ≤ c ∧ c ≤ '9') ∧
      (fpart = [] ∨ ∃ fpds, fpart = '.' :: fpds ∧ fpds ≠ [] ∧ ∀ c ∈ fpds, '0' ≤ c ∧ c ≤ '9') := by
  rw [jsPlainString]
  by_cases h0 : q = 0
  · rw [if_pos h0]
    exact ⟨false, ['0'], [], rfl, by decide, by decide, Or.inl rfl⟩
  · rw [if_neg h0]
    set K := max (countFactor 2 |q|.den) (countFactor 5 |q|.den) with hK
    by_cases hden : (|q| * (10 : ℚ) ^ K).den = 1
    · rw [if_pos hden]
      set m : ℕ := (|q| * (10 : ℚ) ^ K).num.toNat with hm
      by_cases hfp : m % 10 ^ K = 0
      · rw [if_pos hfp]
        by_cases hneg : q < 0
        · rw [if_pos hneg]
          exact ⟨true, natToChars (m / 10 ^ K), [], by simp [data_app, data_mk], natToChars_ne_nil _,
            natToChars_digits _, Or.inl rfl⟩
        · rw [if_neg hneg]
          exact ⟨false, natToChars (m / 10 ^ K), [], by simp [data_app, data_mk], natToChars_ne_nil _,
            natToChars_digits _, Or.inl rfl⟩
      · rw [if_neg hfp]
        by_cases hneg : q < 0
        · rw [if_pos hneg]
          refine ⟨true, natToChars (m / 10 ^ K), '.' :: padZeros K (natToChars (m % 10 ^ K)), ?_,
            natToChars_ne_nil _, natToChars_digits _,
            Or.inr ⟨_, rfl, padZeros_ne_nil _ _ (natToChars_ne_nil _),
              padZeros_digits _ _ (natToChars_digits _)⟩⟩
          simp [data_app, data_mk]
        · rw [if_neg hneg]
          refine ⟨false, natToChars (m / 10 ^ K), '.' :: padZeros K (natToChars (m % 10 ^ K)), ?_,
            natToChars_ne_nil _, natToChars_digits _,
            Or.inr ⟨_, rfl, padZeros_ne_nil _ _ (natToChars_ne_nil _),
              padZeros_digits _ _ (natToChars_digits _)⟩⟩
          simp [data_app, data_mk]
    · rw [if_neg hden]
      by_cases hneg : q < 0
      · rw [if_pos hneg]
        exact ⟨true, natToChars (|q|.num.toNat), [], by simp [data_app, data_mk], natToChars_ne_nil _,
          natToChars_digits _, Or.inl rfl⟩
      · rw [if_neg hneg]
        exact ⟨false, natToChars (|q|.num.toNat), [], by simp [data_app, data_mk], natToChars_ne_nil _,
          natToChars_digits _, Or.inl rfl⟩

theorem scanValue_numTok (q : ℚ) (rest : List Char) (hstop : ScanStop rest) :
    scanValue ((jsPlainString q).data ++ rest) true false = ((jsPlainString q).data, rest) := by
  obtain ⟨neg, ipds, fpart, hdata, hne, hdig, hfp⟩ := jsPlainString_shape q
  rw [hdata]
  cases neg with
  | true =>
    rw [if_pos rfl]
    rcases hfp with hnil | ⟨fpds, hfe, hfne, hfdig⟩
    · subst hnil
      rw [List.append_nil]
      show scanValue ('-' :: ipds ++ rest) true false = ('-' :: ipds, rest)
      rw [List.cons_append, scanValue_minus, scanValue_digits_stop ipds rest false false hdig hstop]
    · subst hfe
      show scanValue ('-' :: (ipds ++ '.' :: fpds) ++ rest) true false = ('-' :: (ipds ++ '.' :: fpds), rest)
      rw [List.cons_append, scanValue_minus]
      rw [List.append_assoc, List.cons_append]
      rw [scanValue_frac ipds fpds rest false hdig hfdig hstop]
  | false =>
    rw [if_neg (by simp)]
    rw [List.nil_append]
    rcases hfp with hnil | ⟨fpds, hfe, hfne, hfdig⟩
    · subst hnil
      rw [List.append_nil]
      exact scanValue_digits_stop ipds rest true false hdig hstop
    · subst hfe
      rw [List.append_assoc, List.cons_append]
      rw [scanValue_frac ipds fpds rest true hdig hfdig hstop]

theorem jsPlainString_head (q : ℚ) :
    ∃ c tl, (jsPlainString q).data = c :: tl ∧ (c = '-' ∨ ('0' ≤ c ∧ c ≤ '9')) := by
  obtain ⟨neg, ipds, fpart, hdata, hne, hdig, _⟩ := jsPlainString_shape q
  cases neg with
  | true => exact ⟨'-', ipds ++ fpart, by simpa using hdata, Or.inl rfl⟩
  | false =>
    obtain ⟨c, tl, hct⟩ := List.exists_cons_of_ne_nil hne
    refine ⟨c, tl ++ fpart, ?_, Or.inr (hdig c (hct ▸ List.mem_cons_self c tl))⟩
    rw [hdata, hct]
    simp

theorem consumeValue_at (q : ℚ) (rest : List Char) (hstop : ScanStop rest) :
    consumeValue ((jsPlainString q).data ++ rest) =
      .ok (jsParseFloat (jsPlainString q).data, rest) := by
  obtain ⟨c, tl, hct, hc⟩ := jsPlainString_head q
  have hadv : advanceToNextToken ((jsPlainString q).data ++ rest) =
      (Token.Value, (jsPlainString q).data ++ rest) := by
    rw [hct, List.cons_append]
    rcases hc with h | h
    · rw [h]; exact advance_minus _
    · exact advance_digit c _ h
  have hscan := scanValue_numTok q rest hstop
  have hne : (jsPlainString q).data ≠ [] := by rw [hct]; exact List.cons_ne_nil c tl
  simp only [consumeValue, hadv]
  rw [if_pos trivial]
  rw [hscan]
  rw [if_neg hne]

theorem consumeValue_blank (s : List Char) : consumeValue (' ' :: s) = consumeValue s := by
  simp only [consumeValue, advance_blank]

theorem consumeValue_comma (s : List Char) : consumeValue (',' :: s) = consumeValue s := by
  simp only [consumeValue, advance_comma]

theorem consumeValue_dq (q : ℚ) (hq : DecimalQ q) (rest : List Char) (hstop : ScanStop rest) :
    consumeValue ((jsPlainString q).data ++ rest) = .ok (q, rest) := by
  rw [consumeValue_at q rest hstop, jsPlainString_roundtrip q hq]

theorem consumePoint_at (cur : Option Point) (x y : ℚ) (hx : DecimalQ x) (hy : DecimalQ y)
    (rest : List Char) (hstop : ScanStop rest) :
    consumePoint false cur ((jsPlainString x).data ++ ' ' :: ((jsPlainString y).data ++ rest)) =
      .ok (⟨x, y⟩, rest) := by
  have h1 : consumeValue ((jsPlainString x).data ++ ' ' :: ((jsPlainString y).data ++ rest)) =
      .ok (x, ' ' :: ((jsPlainString y).data ++ rest)) :=
    consumeValue_dq x hx _ (scanStop_blank _)
  have h2 : consumeValue (' ' :: ((jsPlainString y).data ++ rest)) = .ok (y, rest) := by
    rw [consumeValue_blank]
    exact consumeValue_dq y hy rest hstop
  simp only [consumePoint, h1, exceptBindOkEval, h2]
  rfl

theorem consumePoint_comma (cur : Option Point) (x y : ℚ) (hx : DecimalQ x) (hy : DecimalQ y)
    (rest : List Char) (hstop : ScanStop rest) :
    consumePoint false cur ((jsPlainString x).data ++ ',' :: ((jsPlainString y).data ++ rest)) =
      .ok (⟨x, y⟩, rest) := by
  have h1 : consumeValue ((jsPlainString x).data ++ ',' :: ((jsPlainString y).data ++ rest)) =
      .ok (x, ',' :: ((jsPlainString y).data ++ rest)) :=
    consumeValue_dq x hx _ (scanStop_comma _)
  have h2 : consumeValue (',' :: ((jsPlainString y).data ++ rest)) = .ok (y, rest) := by
    rw [consumeValue_comma]
    exact consumeValue_dq y hy rest hstop
  simp only [consumePoint, h1, exceptBindOkEval, h2]
  rfl

theorem intercalate_go_data (s acc : String) :
    ∀ l : List String, (String.intercalate.go acc s l).data =
      acc.data ++ l.flatMap (fun x => s.data ++ x.data) := by
  intro l
  induction l generalizing acc with
  | nil => simp [String.intercalate.go]
  | cons a as ih =>
    rw [String.intercalate.go, ih]
    simp [data_app, List.append_assoc]

theorem intercalate_sp_data : ∀ (l : List String),
    (String.intercalate " " l).data = joinSp (l.map String.data) := by
  intro l
  cases l with
  | nil => rfl
  | cons a as =>
    rw [String.intercalate, intercalate_go_data]
    induction as generalizing a with
    | nil => simp [joinSp]
    | cons b bs ih =>
      rw [List.flatMap_cons]
      show a.data ++ ((' ' :: b.data) ++ bs.flatMap (fun x => ' ' :: x.data)) =
        joinSp (a.data :: b.data :: bs.map String.data)
      rw [show joinSp (a.data :: b.data :: bs.map String.data) =
        a.data ++ ' ' :: joinSp (b.data :: bs.map String.data) from rfl]
      have hb := ih b
      simp only [List.map_cons] at hb
      simp only [show (" " : String).data = [' '] from rfl, List.singleton_append] at hb
      rw [← hb]
      simp

theorem chunkChars_joinSp (c : DrawCommand) :
    chunkChars c = joinSp ((cmdTokens c).map String.data) := by
  rw [chunkChars, intercalate_sp_data]

theorem cmdTokens_ne_nil (c : DrawCommand) : cmdTokens c ≠ [] := by
  cases c <;> exact List.cons_ne_nil _ _

theorem chunkChars_head (c : DrawCommand) : ∃ tl, chunkChars c = svgChar c :: tl := by
  cases c <;> exact ⟨_, rfl⟩

theorem streamChars_cons (c : DrawCommand) (cs : List DrawCommand) (h : cs ≠ []) :
    streamChars (c :: cs) = chunkChars c ++ ' ' :: streamChars cs := by
  cases cs with
  | nil => exact absurd rfl h
  | cons d ds => rfl

theorem joinSp_append : ∀ (l1 l2 : List (List Char)), l1 ≠ [] → l2 ≠ [] →
    joinSp (l1 ++ l2) = joinSp l1 ++ ' ' :: joinSp l2 := by
  intro l1
  induction l1 with
  | nil => intro l2 h1 _; exact absurd rfl h1
  | cons x xs ih =>
    intro l2 h1 h2
    cases xs with
    | nil =>
      cases l2 with
      | nil => exact absurd rfl h2
      | cons y ys => rfl
    | cons y ys =>
      rw [show ((x :: y :: ys) ++ l2) = x :: ((y :: ys) ++ l2) from rfl]
      rw [show joinSp (x :: ((y :: ys) ++ l2)) = x ++ ' ' :: joinSp ((y :: ys) ++ l2) from rfl]
      rw [ih l2 (List.cons_ne_nil _ _) h2]
      rw [show joinSp (x :: y :: ys) = x ++ ' ' :: joinSp (y :: ys) from rfl]
      simp

theorem flatMap_tokens_ne_nil (c : DrawCommand) (cs : List DrawCommand) :
    (c :: cs).flatMap cmdTokens ≠ [] := by
  rw [List.flatMap_cons]
  intro h
  exact cmdTokens_ne_nil c (List.append_eq_nil.mp h).1

theorem commandsToString_data : ∀ (cmds : List DrawCommand),
    (commandsToString cmds).data = streamChars cmds := by
  intro cmds
  rw [commandsToString, intercalate_sp_data]
  induction cmds with
  | nil => rfl
  | cons c cs ih =>
    cases cs with
    | nil =>
      show joinSp (([c].flatMap cmdTokens).map String.data) = streamChars [c]
      rw [show ([c].flatMap cmdTokens) = cmdTokens c from by simp]
      rw [show streamChars [c] = chunkChars c from rfl, chunkChars_joinSp]
    | cons d ds =>
      rw [List.flatMap_cons, List.map_append]
      rw [joinSp_append _ _ (by simp [cmdTokens_ne_nil c]) (by
        simp only [ne_eq, List.map_eq_nil_iff]
        exact flatMap_tokens_ne_nil d ds)]
      rw [ih]
      rw [streamChars_cons c (d :: ds) (List.cons_ne_nil _ _), chunkChars_joinSp]

theorem chunkChars_move (s : Option Point) (e : Point) :
    chunkChars (.MoveCommand s e) =
      'M' :: ' ' :: ((jsNumToString (jsToFixed3 e.x)).data ++
        ' ' :: (jsNumToString (jsToFixed3 e.y)).data) := by
  rw [chunkChars_joinSp]; rfl

theorem chunkChars_line (s : Point) (e : Point) :
    chunkChars (.LineCommand s e) =
      'L' :: ' ' :: ((jsNumToString (jsToFixed3 e.x)).data ++
        ' ' :: (jsNumToString (jsToFixed3 e.y)).data) := by
  rw [chunkChars_joinSp]; rfl

theorem chunkChars_quad (s cp e : Point) :
    chunkChars (.QuadraticCurveCommand s cp e) =
      'Q' :: ' ' :: ((jsNumToString (jsToFixed3 cp.x)).data ++
        ' ' :: ((jsNumToString (jsToFixed3 cp.y)).data ++
        ' ' :: ((jsNumToString (jsToFixed3 e.x)).data ++
        ' ' :: (jsNumToString (jsToFixed3 e.y)).data))) := by
  rw [chunkChars_joinSp]; rfl

theorem chunkChars_cubic (s c1 c2 e : Point) :
    chunkChars (.BezierCurveCommand s c1 c2 e) =
      'C' :: ' ' :: ((jsNumToString (jsToFixed3 c1.x)).data ++
        ' ' :: ((jsNumToString (jsToFixed3 c1.y)).data ++
        ' ' :: ((jsNumToString (jsToFixed3 c2.x)).data ++
        ' ' :: ((jsNumToString (jsToFixed3 c2.y)).data ++
        ' ' :: ((jsNumToString (jsToFixed3 e.x)).data ++
        ' ' :: (jsNumToString (jsToFixed3 e.y)).data))))) := by
  rw [chunkChars_joinSp]; rfl

theorem chunkChars_close (s : Point) (e : Option Point) :
    chunkChars (.ClosePathCommand s e) = ['Z'] := by
  rw [chunkChars_joinSp]; rfl

theorem intercalate_comma_data (t1 t2 t3 t4 t5 t6 t7 : String) :
    (String.intercalate "," [t1, t2, t3, t4, t5, t6, t7]).data =
      t1.data ++ ',' :: (t2.data ++ ',' :: (t3.data ++ ',' :: (t4.data ++ ',' ::
        (t5.data ++ ',' :: (t6.data ++ ',' :: t7.data))))) := by
  rw [String.intercalate, intercalate_go_data]
  simp

theorem chunkChars_arc (x0 y0 rx ry rot laf sf ex ey : ℚ) :
    chunkChars (.EllipticalArcCommand x0 y0 rx ry rot laf sf ex ey) =
      'A' :: ' ' :: ((jsNumToString rx).data ++ ',' :: ((jsNumToString ry).data ++
        ',' :: ((jsNumToString rot).data ++ ',' :: ((jsNumToString laf).data ++
        ',' :: ((jsNumToString sf).data ++ ',' :: ((jsNumToString ex).data ++
        ',' :: (jsNumToString ey).data)))))) := by
  rw [chunkChars_joinSp]
  show joinSp [['A'], (String.intercalate ","
    ([rx, ry, rot, laf, sf, ex, ey].map jsNumToString)).data] = _
  rw [show ([rx, ry, rot, laf, sf, ex, ey].map jsNumToString) =
    [jsNumToString rx, jsNumToString ry, jsNumToString rot, jsNumToString laf,
      jsNumToString sf, jsNumToString ex, jsNumToString ey] from rfl]
  rw [show joinSp [['A'], (String.intercalate "," [jsNumToString rx, jsNumToString ry,
      jsNumToString rot, jsNumToString laf, jsNumToString sf, jsNumToString ex,
      jsNumToString ey]).data] =
    'A' :: ' ' :: (String.intercalate "," [jsNumToString rx, jsNumToString ry,
      jsNumToString rot, jsNumToString laf, jsNumToString sf, jsNumToString ex,
      jsNumToString ey]).data from rfl]
  rw [intercalate_comma_data]

theorem consumeValue_decimal (s : List Char) (v : ℚ × List Char)
    (h : consumeValue s = .ok v) : DecimalQ v.1 := by
  simp only [consumeValue] at h
  split at h
  · split at h
    · exact absurd h (by simp)
    · rw [Except.ok.injEq] at h
      rw [← h]
      exact jsParseFloat_decimal _
  · exact absurd h (by simp)

theorem consumePoint_decimal (relative : Bool) (cp : Option Point) (s : List Char)
    (p : Point × List Char) (h : consumePoint relative cp s = .ok p)
    (hcp : ∀ q, cp = some q → DecimalPt q) : DecimalPt p.1 := by
  rw [consumePoint] at h
  obtain ⟨xv, hxv, h⟩ := exceptBindOk h
  obtain ⟨yv, hyv, h⟩ := exceptBindOk h
  have hx := consumeValue_decimal _ _ hxv
  have hy := consumeValue_decimal _ _ hyv
  split at h
  · cases hcpeq : cp with
    | some q =>
      rw [hcpeq] at h
      have h2 : (Except.ok ((⟨xv.1 + q.x, yv.1 + q.y⟩, yv.2) : Point × List Char) :
          Except Err (Point × List Char)) = Except.ok p := h
      rw [Except.ok.injEq] at h2
      rw [← h2]
      have hc := hcp q hcpeq
      exact ⟨decimalQ_add hx hc.1, decimalQ_add hy hc.2⟩
    | none =>
      rw [hcpeq] at h
      have h2 : (Except.ok ((⟨xv.1, yv.1⟩, yv.2) : Point × List Char) :
          Except Err (Point × List Char)) = Except.ok p := h
      rw [Except.ok.injEq] at h2
      rw [← h2]
      exact ⟨hx, hy⟩
  · rw [Except.ok.injEq] at h
    rw [← h]
    exact ⟨hx, hy⟩

theorem runOut_exit (st : PState) (rest : List Char) (h : SInv st) :
    RunOut st ([], { st with rest := rest }) :=
  ⟨trivial, rfl, rfl, h⟩

theorem runL_track (relative : Bool) :
    ∀ (fuel : ℕ) (st : PState) (r : List DrawCommand × PState),
      runL relative fuel st = .ok r → SInv st → st.currentPoint.isSome = true →
      RunOut st r := by
  intro fuel
  induction fuel with
  | zero => intro st r h _ _; exact absurd h (by simp [runL])
  | succ f ih =>
    intro st r h hs hb
    simp only [runL] at h
    split at h
    · obtain ⟨ep, hep, h⟩ := exceptBindOk h
      obtain ⟨r', hr', h⟩ := exceptBindOk h
      rw [Except.ok.injEq] at h
      subst h
      have hdp : DecimalPt ep.1 := consumePoint_decimal _ _ _ _ hep hs
      have hs' : SInv ⟨ep.2, some ep.1, none, st.lastMovePoint⟩ := by
        intro p hp
        obtain rfl : ep.1 = p := Option.some.inj hp
        exact hdp
      have hout := ih _ _ hr' hs' rfl
      exact ⟨⟨hb, hout.1⟩, hout.2.1, hout.2.2.1, hout.2.2.2⟩
    · rw [Except.ok.injEq] at h
      rw [← h]
      exact runOut_exit st _ hs

theorem runC_track (relative : Bool) :
    ∀ (fuel : ℕ) (st : PState) (r : List DrawCommand × PState),
      runC relative fuel st = .ok r → SInv st → st.currentPoint.isSome = true →
      RunOut st r := by
  intro fuel
  induction fuel with
  | zero => intro st r h _ _; exact absurd h (by simp [runC])
  | succ f ih =>
    intro st r h hs hb
    simp only [runC] at h
    split at h
    · obtain ⟨cp1, hcp1, h⟩ := exceptBindOk h
      obtain ⟨cp2, hcp2, h⟩ := exceptBindOk h
      obtain ⟨ep, hep, h⟩ := exceptBindOk h
      obtain ⟨r', hr', h⟩ := exceptBindOk h
      rw [Except.ok.injEq] at h
      subst h
      have hdp : DecimalPt ep.1 := consumePoint_decimal _ _ _ _ hep hs
      have hs' : SInv ⟨ep.2, some ep.1, some cp2.1, st.lastMovePoint⟩ := by
        intro p hp
        obtain rfl : ep.1 = p := Option.some.inj hp
        exact hdp
      have hout := ih _ _ hr' hs' rfl
      exact ⟨⟨hb, hout.1⟩, hout.2.1, hout.2.2.1, hout.2.2.2⟩
    · rw [Except.ok.injEq] at h
      rw [← h]
      exact runOut_exit st _ hs

theorem runS_track (relative : Bool) :
    ∀ (fuel : ℕ) (st : PState) (r : List DrawCommand × PState),
      runS relative fuel st = .ok r → SInv st → st.currentPoint.isSome = true →
      RunOut st r := by
  intro fuel
  induction fuel with
  | zero => intro st r h _ _; exact absurd h (by simp [runS])
  | succ f ih =>
    intro st r h hs hb
    simp only [runS] at h
    split at h
    · obtain ⟨cp2, hcp2, h⟩ := exceptBindOk h
      obtain ⟨ep, hep, h⟩ := exceptBindOk h
      obtain ⟨r', hr', h⟩ := exceptBindOk h
      rw [Except.ok.injEq] at h
      subst h
      have hdp : DecimalPt ep.1 := consumePoint_decimal _ _ _ _ hep hs
      have hs' : SInv ⟨ep.2, some ep.1, some cp2.1, st.lastMovePoint⟩ := by
        intro p hp
        obtain rfl : ep.1 = p := Option.some.inj hp
        exact hdp
      have hout := ih _ _ hr' hs' rfl
      exact ⟨⟨hb, hout.1⟩, hout.2.1, hout.2.2.1, hout.2.2.2⟩
    · rw [Except.ok.injEq] at h
      rw [← h]
      exact runOut_exit st _ hs

theorem runQ_track (relative : Bool) :
    ∀ (fuel : ℕ) (st : PState) (r : List DrawCommand × PState),
      runQ relative fuel st = .ok r → SInv st → st.currentPoint.isSome = true →
      RunOut st r := by
  intro fuel
  induction fuel with
  | zero => intro st r h _ _; exact absurd h (by simp [runQ])
  | succ f ih =>
    intro st r h hs hb
    simp only [runQ] at h
    split at h
    · obtain ⟨cp, hcp, h⟩ := exceptBindOk h
      obtain ⟨ep, hep, h⟩ := exceptBindOk h
      obtain ⟨r', hr', h⟩ := exceptBindOk h
      rw [Except.ok.injEq] at h
      subst h
      have hdp : DecimalPt ep.1 := consumePoint_decimal _ _ _ _ hep hs
      have hs' : SInv ⟨ep.2, some ep.1, some cp.1, st.lastMovePoint⟩ := by
        intro p hp
        obtain rfl : ep.1 = p := Option.some.inj hp
        exact hdp
      have hout := ih _ _ hr' hs' rfl
      exact ⟨⟨hb, hout.1⟩, hout.2.1, hout.2.2.1, hout.2.2.2⟩
    · rw [Except.ok.injEq] at h
      rw [← h]
      exact runOut_exit st _ hs

theorem runT_track (relative : Bool) :
    ∀ (fuel : ℕ) (st : PState) (r : List DrawCommand × PState),
      runT relative fuel st = .ok r → SInv st → st.currentPoint.isSome = true →
      RunOut st r := by
  intro fuel
  induction fuel with
  | zero => intro st r h _ _; exact absurd h (by simp [runT])
  | succ f ih =>
    intro st r h hs hb
    simp only [runT] at h
    split at h
    · obtain ⟨ep, hep, h⟩ := exceptBindOk h
      obtain ⟨r', hr', h⟩ := exceptBindOk h
      rw [Except.ok.injEq] at h
      subst h
      have hdp : DecimalPt ep.1 := consumePoint_decimal _ _ _ _ hep hs
      have hs' : SInv ⟨ep.2, some ep.1,
          some (match st.currentControlPoint with
            | some q => ⟨(st.currentPoint.getD ⟨0, 0⟩).x + ((st.currentPoint.getD ⟨0, 0⟩).x - q.x),
                (st.currentPoint.getD ⟨0, 0⟩).y + ((st.currentPoint.getD ⟨0, 0⟩).y - q.y)⟩
            | none => ep.1), st.lastMovePoint⟩ := by
        intro p hp
        obtain rfl : ep.1 = p := Option.some.inj hp
        exact hdp
      have hout := ih _ _ hr' hs' rfl
      exact ⟨⟨hb, hout.1⟩, hout.2.1, hout.2.2.1, hout.2.2.2⟩
    · rw [Except.ok.injEq] at h
      rw [← h]
      exact runOut_exit st _ hs

theorem runH_track (relative : Bool) :
    ∀ (fuel : ℕ) (st : PState) (r : List DrawCommand × PState),
      runH relative fuel st = .ok r → SInv st → st.currentPoint.isSome = true →
      RunOut st r := by
  intro fuel
  induction fuel with
  | zero => intro st r h _ _; exact absurd h (by simp [runH])
  | succ f ih =>
    intro st r h hs hb
    simp only [runH] at h
    split at h
    · obtain ⟨xv, hxv, h⟩ := exceptBindOk h
      obtain ⟨r', hr', h⟩ := exceptBindOk h
      rw [Except.ok.injEq] at h
      subst h
      obtain ⟨q, hq⟩ := Option.isSome_iff_exists.mp hb
      have hdq := hs q hq
      have hxd := consumeValue_decimal _ _ hxv
      have hdp : DecimalPt ⟨if relative then xv.1 + (st.currentPoint.getD ⟨0, 0⟩).x else xv.1,
          (st.currentPoint.getD ⟨0, 0⟩).y⟩ := by
        rw [hq]
        refine ⟨?_, hdq.2⟩
        cases relative
        · exact hxd
        · exact decimalQ_add hxd hdq.1
      have hs' : SInv ⟨xv.2,
          some ⟨if relative then xv.1 + (st.currentPoint.getD ⟨0, 0⟩).x else xv.1,
            (st.currentPoint.getD ⟨0, 0⟩).y⟩, none, st.lastMovePoint⟩ := by
        intro p hp
        rw [← Option.some.inj hp]
        exact hdp
      have hout := ih _ _ hr' hs' rfl
      exact ⟨⟨hb, hout.1⟩, hout.2.1, hout.2.2.1, hout.2.2.2⟩
    · rw [Except.ok.injEq] at h
      rw [← h]
      exact runOut_exit st _ hs

theorem runV_track (relative : Bool) :
    ∀ (fuel : ℕ) (st : PState) (r : List DrawCommand × PState),
      runV relative fuel st = .ok r → SInv st → st.currentPoint.isSome = true →
      RunOut st r := by
  intro fuel
  induction fuel with
  | zero => intro st r h _ _; exact absurd h (by simp [runV])
  | succ f ih =>
    intro st r h hs hb
    simp only [runV] at h
    split at h
    · obtain ⟨yv, hyv, h⟩ := exceptBindOk h
      obtain ⟨r', hr', h⟩ := exceptBindOk h
      rw [Except.ok.injEq] at h
      subst h
      obtain ⟨q, hq⟩ := Option.isSome_iff_exists.mp hb
      have hdq := hs q hq
      have hyd := consumeValue_decimal _ _ hyv
      have hdp : DecimalPt ⟨(st.currentPoint.getD ⟨0, 0⟩).x,
          if relative then yv.1 + (st.currentPoint.getD ⟨0, 0⟩).y else yv.1⟩ := by
        rw [hq]
        refine ⟨hdq.1, ?_⟩
        cases relative
        · exact hyd
        · exact decimalQ_add hyd hdq.2
      have hs' : SInv ⟨yv.2,
          some ⟨(st.currentPoint.getD ⟨0, 0⟩).x,
            if relative then yv.1 + (st.currentPoint.getD ⟨0, 0⟩).y else yv.1⟩,
          none, st.lastMovePoint⟩ := by
        intro p hp
        rw [← Option.some.inj hp]
        exact hdp
      have hout := ih _ _ hr' hs' rfl
      exact ⟨⟨hb, hout.1⟩, hout.2.1, hout.2.2.1, hout.2.2.2⟩
    · rw [Except.ok.injEq] at h
      rw [← h]
      exact runOut_exit st _ hs

theorem runA_track (relative : Bool) :
    ∀ (fuel : ℕ) (st : PState) (r : List DrawCommand × PState),
      runA relative fuel st = .ok r → SInv st → st.currentPoint.isSome = true →
      RunOut st r := by
  intro fuel
  induction fuel with
  | zero => intro st r h _ _; exact absurd h (by simp [runA])
  | succ f ih =>
    intro st r h hs hb
    simp only [runA] at h
    split at h
    · obtain ⟨rx, hrx, h⟩ := exceptBindOk h
      obtain ⟨ry, hry, h⟩ := exceptBindOk h
      obtain ⟨rot, hrot, h⟩ := exceptBindOk h
      obtain ⟨laf, hlaf, h⟩ := exceptBindOk h
      obtain ⟨sf, hsf, h⟩ := exceptBindOk h
      obtain ⟨ep, hep, h⟩ := exceptBindOk h
      obtain ⟨r', hr', h⟩ := exceptBindOk h
      rw [Except.ok.injEq] at h
      subst h
      have hdp : DecimalPt ep.1 := consumePoint_decimal _ _ _ _ hep hs
      have hs' : SInv ⟨ep.2, some ep.1, none, st.lastMovePoint⟩ := by
        intro p hp
        obtain rfl : ep.1 = p := Option.some.inj hp
        exact hdp
      have hout := ih _ _ hr' hs' rfl
      refine ⟨⟨⟨hb, consumeValue_decimal _ _ hrx, consumeValue_decimal _ _ hry,
        consumeValue_decimal _ _ hrot, consumeValue_decimal _ _ hlaf,
        consumeValue_decimal _ _ hsf, hdp.1, hdp.2⟩, hout.1⟩,
        hout.2.1, hout.2.2.1, hout.2.2.2⟩
    · rw [Except.ok.injEq] at h
      rw [← h]
      exact runOut_exit st _ hs

theorem runM_track (relative : Bool) :
    ∀ (fuel : ℕ) (isFirst : Bool) (st : PState) (r : List DrawCommand × PState),
      runM relative fuel isFirst st = .ok r → SInv st →
      (isFirst = false → st.currentPoint.isSome = true) →
      RunOut st r := by
  intro fuel
  induction fuel with
  | zero => intro isFirst st r h _ _; exact absurd h (by simp [runM])
  | succ f ih =>
    intro isFirst st r h hs hguard
    cases isFirst with
    | true =>
      simp only [runM, eq_self_iff_true, if_true] at h
      split at h
      · obtain ⟨p, hp, h⟩ := exceptBindOk h
        obtain ⟨r', hr', h⟩ := exceptBindOk h
        rw [Except.ok.injEq] at h
        subst h
        have hdp : DecimalPt p.1 := consumePoint_decimal _ _ _ _ hp hs
        have hs' : SInv ⟨p.2, some p.1, none, some p.1⟩ := by
          intro x hx
          rw [← Option.some.inj hx]
          exact hdp
        have hout := ih false _ _ hr' hs' (fun _ => rfl)
        exact ⟨⟨trivial, hout.1⟩, hout.2.1, hout.2.2.1, hout.2.2.2⟩
      · rw [Except.ok.injEq] at h
        rw [← h]
        exact runOut_exit st _ hs
    | false =>
      simp only [runM, Bool.false_eq_true, if_false] at h
      split at h
      · obtain ⟨p, hp, h⟩ := exceptBindOk h
        obtain ⟨r', hr', h⟩ := exceptBindOk h
        rw [Except.ok.injEq] at h
        subst h
        have hdp : DecimalPt p.1 := consumePoint_decimal _ _ _ _ hp hs
        have hs' : SInv ⟨p.2, some p.1, none, st.lastMovePoint⟩ := by
          intro x hx
          rw [← Option.some.inj hx]
          exact hdp
        have hout := ih false _ _ hr' hs' (fun _ => rfl)
        exact ⟨⟨hguard rfl, hout.1⟩, hout.2.1, hout.2.2.1, hout.2.2.2⟩
      · rw [Except.ok.injEq] at h
        rw [← h]
        exact runOut_exit st _ hs

theorem Tracked_append : ∀ (l1 l2 : List DrawCommand) (b : Bool) (lm : Option Point),
    Tracked b lm l1 → Tracked (l1.foldl trackCur b) (l1.foldl trackLm lm) l2 →
    Tracked b lm (l1 ++ l2) := by
  intro l1
  induction l1 with
  | nil => intro l2 b lm _ h2; exact h2
  | cons c cs ih =>
    intro l2 b lm h1 h2
    exact ⟨h1.1, ih l2 _ _ h1.2 h2⟩

theorem parseLoop_track : ∀ (fuel : ℕ) (st : PState) (cmds : List DrawCommand),
    parseLoop fuel st = .ok cmds → SInv st →
    Tracked st.currentPoint.isSome st.lastMovePoint cmds := by
  intro fuel
  induction fuel with
  | zero => intro st cmds h _; exact Except.noConfusion h
  | succ f ih =>
    intro st cmds h hs
    rw [parseLoop] at h
    rcases hrest : st.rest with _ | ⟨c0, rest0⟩
    · rw [hrest] at h
      have h2 : (Except.ok ([] : List DrawCommand) : Except Err (List DrawCommand)) = .ok cmds := h
      rw [Except.ok.injEq] at h2
      rw [← h2]
      trivial
    · rw [hrest] at h
      obtain ⟨cc, hcc, h⟩ := exceptBindOk h
      simp only [] at h
      by_cases hM : cc.1 = 'M' ∨ cc.1 = 'm'
      · rw [if_pos hM] at h
        split at h
        · exact absurd h (by simp)
        · obtain ⟨r, hr, h⟩ := exceptBindOk h
          obtain ⟨more, hmore, h⟩ := exceptBindOk h
          rw [Except.ok.injEq] at h
          subst h
          have hout := runM_track _ _ _ _ _ hr hs (fun hff => absurd hff (by decide))
          have hmt := ih _ _ hmore hout.2.2.2
          rw [hout.2.1, hout.2.2.1] at hmt
          exact Tracked_append _ _ _ _ hout.1 hmt
      · rw [if_neg hM] at h
        by_cases hC : cc.1 = 'C' ∨ cc.1 = 'c'
        · rw [if_pos hC] at h
          split at h
          · exact absurd h (by simp)
          · rename_i hguard
            obtain ⟨r, hr, h⟩ := exceptBindOk h
            obtain ⟨more, hmore, h⟩ := exceptBindOk h
            rw [Except.ok.injEq] at h
            subst h
            have hout := runC_track _ _ _ _ hr hs (Option.ne_none_iff_isSome.mp hguard)
            have hmt := ih _ _ hmore hout.2.2.2
            rw [hout.2.1, hout.2.2.1] at hmt
            exact Tracked_append _ _ _ _ hout.1 hmt
        · rw [if_neg hC] at h
          by_cases hS : cc.1 = 'S' ∨ cc.1 = 's'
          · rw [if_pos hS] at h
            split at h
            · exact absurd h (by simp)
            · rename_i hguard
              obtain ⟨r, hr, h⟩ := exceptBindOk h
              obtain ⟨more, hmore, h⟩ := exceptBindOk h
              rw [Except.ok.injEq] at h
              subst h
              have hout := runS_track _ _ _ _ hr hs (Option.ne_none_iff_isSome.mp hguard)
              have hmt := ih _ _ hmore hout.2.2.2
              rw [hout.2.1, hout.2.2.1] at hmt
              exact Tracked_append _ _ _ _ hout.1 hmt
          · rw [if_neg hS] at h
            by_cases hQ : cc.1 = 'Q' ∨ cc.1 = 'q'
            · rw [if_pos hQ] at h
              split at h
              · exact absurd h (by simp)
              · rename_i hguard
                obtain ⟨r, hr, h⟩ := exceptBindOk h
                obtain ⟨more, hmore, h⟩ := exceptBindOk h
                rw [Except.ok.injEq] at h
                subst h
                have hout := runQ_track _ _ _ _ hr hs (Option.ne_none_iff_isSome.mp hguard)
                have hmt := ih _ _ hmore hout.2.2.2
                rw [hout.2.1, hout.2.2.1] at hmt
                exact Tracked_append _ _ _ _ hout.1 hmt
            · rw [if_neg hQ] at h
              by_cases hT : cc.1 = 'T' ∨ cc.1 = 't'
              · rw [if_pos hT] at h
                split at h
                · exact absurd h (by simp)
                · rename_i hguard
                  obtain ⟨r, hr, h⟩ := exceptBindOk h
                  obtain ⟨more, hmore, h⟩ := exceptBindOk h
                  rw [Except.ok.injEq] at h
                  subst h
                  have hout := runT_track _ _ _ _ hr hs (Option.ne_none_iff_isSome.mp hguard)
                  have hmt := ih _ _ hmore hout.2.2.2
                  rw [hout.2.1, hout.2.2.1] at hmt
                  exact Tracked_append _ _ _ _ hout.1 hmt
              · rw [if_neg hT] at h
                by_cases hL : cc.1 = 'L' ∨ cc.1 = 'l'
                · rw [if_pos hL] at h
                  split at h
                  · exact absurd h (by simp)
                  · rename_i hguard
                    obtain ⟨r, hr, h⟩ := exceptBindOk h
                    obtain ⟨more, hmore, h⟩ := exceptBindOk h
                    rw [Except.ok.injEq] at h
                    subst h
                    have hout := runL_track _ _ _ _ hr hs (Option.ne_none_iff_isSome.mp hguard)
                    have hmt := ih _ _ hmore hout.2.2.2
                    rw [hout.2.1, hout.2.2.1] at hmt
                    exact Tracked_append _ _ _ _ hout.1 hmt
                · rw [if_neg hL] at h
                  by_cases hH : cc.1 = 'H' ∨ cc.1 = 'h'
                  · rw [if_pos hH] at h
                    split at h
                    · exact absurd h (by simp)
                    · rename_i hguard
                      obtain ⟨r, hr, h⟩ := exceptBindOk h
                      obtain ⟨more, hmore, h⟩ := exceptBindOk h
                      rw [Except.ok.injEq] at h
                      subst h
                      have hout := runH_track _ _ _ _ hr hs (Option.ne_none_iff_isSome.mp hguard)
                      have hmt := ih _ _ hmore hout.2.2.2
                      rw [hout.2.1, hout.2.2.1] at hmt
                      exact Tracked_append _ _ _ _ hout.1 hmt
                  · rw [if_neg hH] at h
                    by_cases hV : cc.1 = 'V' ∨ cc.1 = 'v'
                    · rw [if_pos hV] at h
                      split at h
                      · exact absurd h (by simp)
                      · rename_i hguard
                        obtain ⟨r, hr, h⟩ := exceptBindOk h
                        obtain ⟨more, hmore, h⟩ := exceptBindOk h
                        rw [Except.ok.injEq] at h
                        subst h
                        have hout := runV_track _ _ _ _ hr hs (Option.ne_none_iff_isSome.mp hguard)
                        have hmt := ih _ _ hmore hout.2.2.2
                        rw [hout.2.1, hout.2.2.1] at hmt
                        exact Tracked_append _ _ _ _ hout.1 hmt
                    · rw [if_neg hV] at h
                      by_cases hA : cc.1 = 'A' ∨ cc.1 = 'a'
                      · rw [if_pos hA] at h
                        split at h
                        · exact absurd h (by simp)
                        · rename_i hguard
                          obtain ⟨r, hr, h⟩ := exceptBindOk h
                          obtain ⟨more, hmore, h⟩ := exceptBindOk h
                          rw [Except.ok.injEq] at h
                          subst h
                          have hout := runA_track _ _ _ _ hr hs (Option.ne_none_iff_isSome.mp hguard)
                          have hmt := ih _ _ hmore hout.2.2.2
                          rw [hout.2.1, hout.2.2.1] at hmt
                          exact Tracked_append _ _ _ _ hout.1 hmt
                      · rw [if_neg hA] at h
                        by_cases hZ : cc.1 = 'Z' ∨ cc.1 = 'z'
                        · rw [if_pos hZ] at h
                          split at h
                          · exact absurd h (by simp)
                          · rename_i cur hcur
                            obtain ⟨more, hmore, h⟩ := exceptBindOk h
                            rw [Except.ok.injEq] at h
                            subst h
                            have hmt := ih _ _ hmore hs
                            have hbs : st.currentPoint.isSome = true := by
                              rw [hcur]; rfl
                            refine ⟨?_, ?_⟩
                            · rw [TrackOk]
                              exact ⟨hbs, rfl⟩
                            · rw [show trackCur st.currentPoint.isSome
                                  (DrawCommand.ClosePathCommand cur st.lastMovePoint) =
                                  st.currentPoint.isSome from rfl,
                                show trackLm st.lastMovePoint
                                  (DrawCommand.ClosePathCommand cur st.lastMovePoint) =
                                  st.lastMovePoint from rfl]
                              exact hmt
                        · rw [if_neg hZ] at h
                          exact ih ⟨cc.2.2, st.currentPoint, st.currentControlPoint,
                            st.lastMovePoint⟩ cmds h hs

theorem parseCommands_track (s : String) (cmds : List DrawCommand)
    (h : parseCommands s = .ok cmds) : Tracked false none cmds :=
  parseLoop_track _ _ _ h (fun _ hp => Option.noConfusion hp)

theorem decimalQ_toFixed3 (n : ℚ) : DecimalQ (toFixed3 n) :=
  ⟨⌊n * 1000 + 1 / 2⌋, 3, by rw [toFixed3]; norm_num⟩

theorem svgChar_upper (c : DrawCommand) : 'A' ≤ svgChar c ∧ svgChar c ≤ 'Z' := by
  cases c <;> simp only [svgChar] <;> decide

theorem consumeCommand_upper (c : Char) (r : List Char) (h : 'A' ≤ c ∧ c ≤ 'Z') :
    consumeCommand (c :: r) = .ok (c, Token.AbsoluteCommand, r) := by
  simp only [consumeCommand, advance_upper c r h]
  rw [if_pos (Or.inr trivial)]

theorem sepOk_scanStop (rest' exitRest : List Char) (h : SepOk rest' exitRest) :
    ScanStop rest' := by
  rcases h with ⟨h1, _⟩ | ⟨ch, r2, h1, _, _⟩
  · exact Or.inl h1
  · rw [h1]; exact scanStop_blank _

theorem advance_sep (rest' exitRest : List Char) (h : SepOk rest' exitRest) :
    (advanceToNextToken rest').1 ≠ Token.Value ∧ (advanceToNextToken rest').2 = exitRest := by
  rcases h with ⟨h1, h2⟩ | ⟨ch, r2, h1, hch, h2⟩
  · subst h1; subst h2
    exact ⟨fun hc => Token.noConfusion hc, rfl⟩
  · subst h1; subst h2
    rw [advance_blank, advance_upper ch r2 hch]
    exact ⟨fun hc => Token.noConfusion hc, rfl⟩

theorem runL_chunk (f : ℕ) (st1 : PState) (x y : ℚ) (hx : DecimalQ x) (hy : DecimalQ y)
    (rest' exitRest : List Char)
    (hrest : st1.rest = ' ' :: ((jsPlainString x).data ++
      ' ' :: ((jsPlainString y).data ++ rest')))
    (hsep : SepOk rest' exitRest) :
    runL false (f + 2) st1 =
      .ok ([DrawCommand.LineCommand (st1.currentPoint.getD ⟨0, 0⟩) ⟨x, y⟩],
        ⟨exitRest, some ⟨x, y⟩, none, st1.lastMovePoint⟩) := by
  obtain ⟨ch, ctl, hct, hch⟩ := jsPlainString_head x
  have hadv : advanceToNextToken st1.rest =
      (Token.Value, (jsPlainString x).data ++ ' ' :: ((jsPlainString y).data ++ rest')) := by
    rw [hrest, advance_blank, hct, List.cons_append]
    rcases hch with h | h
    · rw [h]; exact advance_minus _
    · exact advance_digit _ _ h
  have hcp := consumePoint_at st1.currentPoint x y hx hy rest' (sepOk_scanStop _ _ hsep)
  have hsepadv := advance_sep rest' exitRest hsep
  simp only [runL, hadv]
  rw [if_pos trivial]
  simp only [hcp, exceptBindOkEval]
  rw [if_neg hsepadv.1]
  simp only [exceptBindOkEval]
  rw [hsepadv.2]

theorem consumePoint_blank (relative : Bool) (cur : Option Point) (s : List Char) :
    consumePoint relative cur (' ' :: s) = consumePoint relative cur s := by
  simp only [consumePoint, consumeValue_blank]

theorem consumePoint_skip_comma (relative : Bool) (cur : Option Point) (s : List Char) :
    consumePoint relative cur (',' :: s) = consumePoint relative cur s := by
  simp only [consumePoint, consumeValue_comma]

theorem numTok_advance (x : ℚ) (rest : List Char) :
    advanceToNextToken ((jsPlainString x).data ++ rest) =
      (Token.Value, (jsPlainString x).data ++ rest) := by
  obtain ⟨ch, ctl, hct, hch⟩ := jsPlainString_head x
  rw [hct, List.cons_append]
  rcases hch with h | h
  · rw [h]; exact advance_minus _
  · exact advance_digit _ _ h

theorem runM_chunk (f : ℕ) (st1 : PState) (x y : ℚ) (hx : DecimalQ x) (hy : DecimalQ y)
    (rest' exitRest : List Char)
    (hrest : st1.rest = ' ' :: ((jsPlainString x).data ++
      ' ' :: ((jsPlainString y).data ++ rest')))
    (hsep : SepOk rest' exitRest) :
    runM false (f + 2) true st1 =
      .ok ([DrawCommand.MoveCommand st1.currentPoint ⟨x, y⟩],
        ⟨exitRest, some ⟨x, y⟩, none, some ⟨x, y⟩⟩) := by
  have hadv : advanceToNextToken st1.rest =
      (Token.Value, (jsPlainString x).data ++ ' ' :: ((jsPlainString y).data ++ rest')) := by
    rw [hrest, advance_blank]
    exact numTok_advance x _
  have hcp := consumePoint_at st1.currentPoint x y hx hy rest' (sepOk_scanStop _ _ hsep)
  have hsepadv := advance_sep rest' exitRest hsep
  simp only [runM, hadv, eq_self_iff_true, if_true, Bool.false_eq_true, if_false]
  simp only [hcp, exceptBindOkEval]
  rw [if_neg hsepadv.1]
  simp only [exceptBindOkEval]
  rw [hsepadv.2]

theorem runQ_chunk (f : ℕ) (st1 : PState) (cx cy ex ey : ℚ)
    (hcx : DecimalQ cx) (hcy : DecimalQ cy) (hex : DecimalQ ex) (hey : DecimalQ ey)
    (rest' exitRest : List Char)
    (hrest : st1.rest = ' ' :: ((jsPlainString cx).data ++
      ' ' :: ((jsPlainString cy).data ++
      ' ' :: ((jsPlainString ex).data ++
      ' ' :: ((jsPlainString ey).data ++ rest')))))
    (hsep : SepOk rest' exitRest) :
    runQ false (f + 2) st1 =
      .ok ([DrawCommand.QuadraticCurveCommand (st1.currentPoint.getD ⟨0, 0⟩) ⟨cx, cy⟩ ⟨ex, ey⟩],
        ⟨exitRest, some ⟨ex, ey⟩, some ⟨cx, cy⟩, st1.lastMovePoint⟩) := by
  have hadv : advanceToNextToken st1.rest =
      (Token.Value, (jsPlainString cx).data ++ ' ' :: ((jsPlainString cy).data ++
        ' ' :: ((jsPlainString ex).data ++ ' ' :: ((jsPlainString ey).data ++ rest')))) := by
    rw [hrest, advance_blank]
    exact numTok_advance cx _
  have hcp1 := consumePoint_at st1.currentPoint cx cy hcx hcy
    (' ' :: ((jsPlainString ex).data ++ ' ' :: ((jsPlainString ey).data ++ rest')))
    (scanStop_blank _)
  have hcp2 : consumePoint false st1.currentPoint
      (' ' :: ((jsPlainString ex).data ++ ' ' :: ((jsPlainString ey).data ++ rest'))) =
      .ok (⟨ex, ey⟩, rest') := by
    rw [consumePoint_blank]
    exact consumePoint_at st1.currentPoint ex ey hex hey rest' (sepOk_scanStop _ _ hsep)
  have hsepadv := advance_sep rest' exitRest hsep
  simp only [runQ, hadv]
  rw [if_pos trivial]
  simp only [hcp1, exceptBindOkEval, hcp2]
  rw [if_neg hsepadv.1]
  simp only [exceptBindOkEval]
  rw [hsepadv.2]

theorem runC_chunk (f : ℕ) (st1 : PState) (c1x c1y c2x c2y ex ey : ℚ)
    (h1x : DecimalQ c1x) (h1y : DecimalQ c1y) (h2x : DecimalQ c2x) (h2y : DecimalQ c2y)
    (hex : DecimalQ ex) (hey : DecimalQ ey)
    (rest' exitRest : List Char)
    (hrest : st1.rest = ' ' :: ((jsPlainString c1x).data ++
      ' ' :: ((jsPlainString c1y).data ++
      ' ' :: ((jsPlainString c2x).data ++
      ' ' :: ((jsPlainString c2y).data ++
      ' ' :: ((jsPlainString ex).data ++
      ' ' :: ((jsPlainString ey).data ++ rest')))))))
    (hsep : SepOk rest' exitRest) :
    runC false (f + 2) st1 =
      .ok ([DrawCommand.BezierCurveCommand (st1.currentPoint.getD ⟨0, 0⟩)
          ⟨c1x, c1y⟩ ⟨c2x, c2y⟩ ⟨ex, ey⟩],
        ⟨exitRest, some ⟨ex, ey⟩, some ⟨c2x, c2y⟩, st1.lastMovePoint⟩) := by
  have hadv : advanceToNextToken st1.rest =
      (Token.Value, (jsPlainString c1x).data ++ ' ' :: ((jsPlainString c1y).data ++
        ' ' :: ((jsPlainString c2x).data ++ ' ' :: ((jsPlainString c2y).data ++
        ' ' :: ((jsPlainString ex).data ++ ' ' :: ((jsPlainString ey).data ++ rest')))))) := by
    rw [hrest, advance_blank]
    exact numTok_advance c1x _
  have hcp1 := consumePoint_at st1.currentPoint c1x c1y h1x h1y
    (' ' :: ((jsPlainString c2x).data ++ ' ' :: ((jsPlainString c2y).data ++
      ' ' :: ((jsPlainString ex).data ++ ' ' :: ((jsPlainString ey).data ++ rest')))))
    (scanStop_blank _)
  have hcp2 : consumePoint false st1.currentPoint
      (' ' :: ((jsPlainString c2x).data ++ ' ' :: ((jsPlainString c2y).data ++
        ' ' :: ((jsPlainString ex).data ++ ' ' :: ((jsPlainString ey).data ++ rest'))))) =
      .ok (⟨c2x, c2y⟩, ' ' :: ((jsPlainString ex).data ++
        ' ' :: ((jsPlainString ey).data ++ rest'))) := by
    rw [consumePoint_blank]
    exact consumePoint_at st1.currentPoint c2x c2y h2x h2y _ (scanStop_blank _)
  have hcp3 : consumePoint false st1.currentPoint
      (' ' :: ((jsPlainString ex).data ++ ' ' :: ((jsPlainString ey).data ++ rest'))) =
      .ok (⟨ex, ey⟩, rest') := by
    rw [consumePoint_blank]
    exact consumePoint_at st1.currentPoint ex ey hex hey rest' (sepOk_scanStop _ _ hsep)
  have hsepadv := advance_sep rest' exitRest hsep
  simp only [runC, hadv]
  rw [if_pos trivial]
  simp only [hcp1, exceptBindOkEval, hcp2, hcp3]
  rw [if_neg hsepadv.1]
  simp only [exceptBindOkEval]
  rw [hsepadv.2]

theorem consumeValue_skip_comma_dq (q : ℚ) (hq : DecimalQ q) (rest : List Char)
    (hstop : ScanStop rest) :
    consumeValue (',' :: ((jsPlainString q).data ++ rest)) = .ok (q, rest) := by
  rw [consumeValue_comma]
  exact consumeValue_dq q hq rest hstop

theorem runA_chunk (f : ℕ) (st1 : PState) (rx ry rot laf sf ex ey : ℚ)
    (hrx : DecimalQ rx) (hry : DecimalQ ry) (hrot : DecimalQ rot) (hlaf : DecimalQ laf)
    (hsf : DecimalQ sf) (hex : DecimalQ ex) (hey : DecimalQ ey)
    (rest' exitRest : List Char)
    (hrest : st1.rest = ' ' :: ((jsPlainString rx).data ++
      ',' :: ((jsPlainString ry).data ++
      ',' :: ((jsPlainString rot).data ++
      ',' :: ((jsPlainString laf).data ++
      ',' :: ((jsPlainString sf).data ++
      ',' :: ((jsPlainString ex).data ++
      ',' :: ((jsPlainString ey).data ++ rest'))))))))
    (hsep : SepOk rest' exitRest) :
    runA false (f + 2) st1 =
      .ok ([DrawCommand.EllipticalArcCommand (st1.currentPoint.getD ⟨0, 0⟩).x
          (st1.currentPoint.getD ⟨0, 0⟩).y rx ry rot laf sf ex ey],
        ⟨exitRest, some ⟨ex, ey⟩, none, st1.lastMovePoint⟩) := by
  have hadv : advanceToNextToken st1.rest =
      (Token.Value, (jsPlainString rx).data ++
        ',' :: ((jsPlainString ry).data ++
        ',' :: ((jsPlainString rot).data ++
        ',' :: ((jsPlainString laf).data ++
        ',' :: ((jsPlainString sf).data ++
        ',' :: ((jsPlainString ex).data ++
        ',' :: ((jsPlainString ey).data ++ rest'))))))) := by
    rw [hrest, advance_blank]
    exact numTok_advance rx _
  have hv1 := consumeValue_dq rx hrx
    (',' :: ((jsPlainString ry).data ++ ',' :: ((jsPlainString rot).data ++
      ',' :: ((jsPlainString laf).data ++ ',' :: ((jsPlainString sf).data ++
      ',' :: ((jsPlainString ex).data ++ ',' :: ((jsPlainString ey).data ++ rest')))))))
    (scanStop_comma _)
  have hv2 := consumeValue_skip_comma_dq ry hry
    (',' :: ((jsPlainString rot).data ++ ',' :: ((jsPlainString laf).data ++
      ',' :: ((jsPlainString sf).data ++ ',' :: ((jsPlainString ex).data ++
      ',' :: ((jsPlainString ey).data ++ rest')))))) (scanStop_comma _)
  have hv3 := consumeValue_skip_comma_dq rot hrot
    (',' :: ((jsPlainString laf).data ++ ',' :: ((jsPlainString sf).data ++
      ',' :: ((jsPlainString ex).data ++ ',' :: ((jsPlainString ey).data ++ rest')))))
    (scanStop_comma _)
  have hv4 := consumeValue_skip_comma_dq laf hlaf
    (',' :: ((jsPlainString sf).data ++ ',' :: ((jsPlainString ex).data ++
      ',' :: ((jsPlainString ey).data ++ rest')))) (scanStop_comma _)
  have hv5 := consumeValue_skip_comma_dq sf hsf
    (',' :: ((jsPlainString ex).data ++ ',' :: ((jsPlainString ey).data ++ rest')))
    (scanStop_comma _)
  have hcp : consumePoint false st1.currentPoint
      (',' :: ((jsPlainString ex).data ++ ',' :: ((jsPlainString ey).data ++ rest'))) =
      .ok (⟨ex, ey⟩, rest') := by
    rw [consumePoint_skip_comma]
    exact consumePoint_comma st1.currentPoint ex ey hex hey rest' (sepOk_scanStop _ _ hsep)
  have hsepadv := advance_sep rest' exitRest hsep
  simp only [runA, hadv]
  rw [if_pos trivial]
  simp only [hv1, exceptBindOkEval, hv2, hv3, hv4, hv5, hcp]
  rw [if_neg hsepadv.1]
  simp only [exceptBindOkEval]
  rw [hsepadv.2]

theorem consumeCommand_blank (l : List Char) : consumeCommand (' ' :: l) = consumeCommand l := by
  simp only [consumeCommand, advance_blank]

theorem streamChars_head (d : DrawCommand) (ds : List DrawCommand) :
    ∃ tl, streamChars (d :: ds) = svgChar d :: tl := by
  obtain ⟨tl0, h0⟩ := chunkChars_head d
  cases ds with
  | nil => exact ⟨tl0, h0⟩
  | cons e es =>
    refine ⟨tl0 ++ ' ' :: streamChars (e :: es), ?_⟩
    rw [streamChars_cons _ _ (List.cons_ne_nil _ _), h0]
    rfl

theorem parseLoop_blank (f : ℕ) (st : PState) (l : List Char)
    (hst : st.rest = ' ' :: l) (hl : l ≠ []) :
    parseLoop (f + 1) st =
      parseLoop (f + 1) ⟨l, st.currentPoint, st.currentControlPoint, st.lastMovePoint⟩ := by
  obtain ⟨c0, l0, rfl⟩ := List.exists_cons_of_ne_nil hl
  simp only [parseLoop, hst, consumeCommand_blank]

theorem toFixed3_coarse (n : ℚ) : toFixed3 n = 0 ∨ 1 / 1000 ≤ |toFixed3 n| := by
  rw [toFixed3]
  rcases eq_or_ne (⌊n * 1000 + 1 / 2⌋ : ℤ) 0 with h | h
  · left
    rw [h]
    norm_num
  · right
    have h1 : (1 : ℚ) ≤ |((⌊n * 1000 + 1 / 2⌋ : ℤ) : ℚ)| := by
      have h2 : (1 : ℤ) ≤ |⌊n * 1000 + 1 / 2⌋| := Int.one_le_abs h
      exact_mod_cast h2
    rw [abs_div, abs_of_pos (by norm_num : (0 : ℚ) < 1000)]
    exact (div_le_div_right (by norm_num)).mpr h1

theorem jsNumToString_plain_of (q : ℚ) (h : PlainVal q) :
    jsNumToString q = jsPlainString q := by
  rw [jsNumToString, if_neg]
  intro hc
  rcases h with h0 | ⟨hge, hlt⟩
  · exact hc.1 h0
  · rcases hc.2 with hbig | hsmall
    · exact absurd hbig (not_le.mpr hlt)
    · exact absurd hsmall (not_lt.mpr hge)

theorem coordToken_plain (n : ℚ) (h1 : |n| < (10 : ℚ) ^ 21)
    (h2 : |toFixed3 n| < (10 : ℚ) ^ 21) :
    jsNumToString (jsToFixed3 n) = jsPlainString (toFixed3 n) := by
  rw [jsToFixed3, if_pos h1]
  apply jsNumToString_plain_of
  rcases toFixed3_coarse n with h0 | hge
  · exact Or.inl h0
  · refine Or.inr ⟨le_trans (by norm_num) hge, h2⟩

theorem len_succ (Y : List Char) : (' ' :: Y).length + 1 = Y.length + 2 := by
  rw [List.length_cons]

theorem reparse_walk : ∀ (cmds : List DrawCommand) (fuel : ℕ) (st : PState)
    (lmO : Option Point),
    Tracked st.currentPoint.isSome lmO cmds →
    (∀ c ∈ cmds, PlainCmd c) →
    (st.rest = streamChars cmds ∨ (cmds ≠ [] ∧ st.rest = ' ' :: streamChars cmds)) →
    cmds.length < fuel →
    parseLoop fuel st = .ok (expectedList st.currentPoint st.lastMovePoint cmds) := by
  intro cmds
  induction cmds with
  | nil =>
    intro fuel st lmO _ _ hrest hlen
    cases fuel with
    | zero => omega
    | succ f =>
      rcases hrest with hr | ⟨hne, _⟩
      · rw [parseLoop, hr]
        rfl
      · exact absurd rfl hne
  | cons c cs ih =>
    intro fuel st lmO hT hP hrest hlen
    cases fuel with
    | zero => omega
    | succ f =>
    have hPt : ∀ c' ∈ cs, PlainCmd c' :=
      fun c' hc' => hP c' (List.mem_cons_of_mem _ hc')
    have hPc : PlainCmd c := hP c (List.mem_cons_self _ _)
    have hlen' : cs.length < f := by
      simp only [List.length_cons] at hlen
      omega
    obtain ⟨rest', hstream, hsep⟩ :
        ∃ rest', streamChars (c :: cs) = chunkChars c ++ rest' ∧
          SepOk rest' (streamChars cs) := by
      cases cs with
      | nil =>
        refine ⟨[], ?_, Or.inl ⟨rfl, rfl⟩⟩
        rw [show streamChars [c] = chunkChars c from rfl, List.append_nil]
      | cons d ds =>
        obtain ⟨tl, htl⟩ := streamChars_head d ds
        exact ⟨' ' :: streamChars (d :: ds),
          streamChars_cons c (d :: ds) (List.cons_ne_nil _ _),
          Or.inr ⟨svgChar d, tl, by rw [htl], svgChar_upper d, htl⟩⟩
    have hstream_ne : streamChars (c :: cs) ≠ [] := by
      obtain ⟨tl, htl⟩ := streamChars_head c cs
      rw [htl]
      exact List.cons_ne_nil _ _
    have main : parseLoop (f + 1) ⟨streamChars (c :: cs), st.currentPoint,
        st.currentControlPoint, st.lastMovePoint⟩ =
        .ok (expectedList st.currentPoint st.lastMovePoint (c :: cs)) := by
      rw [hstream]
      cases c with
      | LineCommand s e =>
        have hb : st.currentPoint.isSome = true := hT.1
        obtain ⟨pq, hpq⟩ := Option.isSome_iff_exists.mp hb
        obtain ⟨h1x, h2x, h1y, h2y⟩ := hPc e (by simp [pointsAfterStart])
        rw [chunkChars_line, hpq]
        rw [coordToken_plain e.x h1x h2x, coordToken_plain e.y h1y h2y]
        rw [List.cons_append, List.cons_append, List.append_assoc, List.cons_append]
        simp only [parseLoop]
        rw [consumeCommand_upper 'L' _ (by decide)]
        simp only [exceptBindOkEval]
        rw [if_neg (by decide), if_neg (by decide), if_neg (by decide), if_neg (by decide),
          if_neg (by decide), if_pos (by decide)]
        rw [if_neg (show ¬(some pq = none) from by simp)]
        rw [show (decide (Token.AbsoluteCommand = Token.RelativeCommand)) = false from rfl]
        rw [show (' ' :: ((jsPlainString (toFixed3 e.x)).data ++
            ' ' :: ((jsPlainString (toFixed3 e.y)).data ++ rest'))).length + 1 =
          ((jsPlainString (toFixed3 e.x)).data ++
            ' ' :: ((jsPlainString (toFixed3 e.y)).data ++ rest')).length + 2 from by
          rw [List.length_cons]]
        rw [runL_chunk _ _ (toFixed3 e.x) (toFixed3 e.y) (decimalQ_toFixed3 _)
          (decimalQ_toFixed3 _) rest' (streamChars cs) rfl hsep]
        simp only [exceptBindOkEval]
        rw [ih f ⟨streamChars cs, some ⟨toFixed3 e.x, toFixed3 e.y⟩, none,
          st.lastMovePoint⟩ lmO hT.2 hPt (Or.inl rfl) hlen']
        simp only [exceptBindOkEval]
        rfl
      | MoveCommand s e =>
        obtain ⟨h1x, h2x, h1y, h2y⟩ := hPc e (by simp [pointsAfterStart])
        rw [chunkChars_move]
        rw [coordToken_plain e.x h1x h2x, coordToken_plain e.y h1y h2y]
        rw [List.cons_append, List.cons_append, List.append_assoc, List.cons_append]
        simp only [parseLoop]
        rw [consumeCommand_upper 'M' _ (by decide)]
        simp only [exceptBindOkEval]
        rw [if_pos (by decide)]
        rw [show (decide (Token.AbsoluteCommand = Token.RelativeCommand)) = false from rfl]
        rw [if_neg (show ¬((false = true) ∧ st.currentPoint = none) from
          fun hc => absurd hc.1 (by decide))]
        rw [len_succ]
        rw [runM_chunk _ _ (toFixed3 e.x) (toFixed3 e.y) (decimalQ_toFixed3 _)
          (decimalQ_toFixed3 _) rest' (streamChars cs) rfl hsep]
        simp only [exceptBindOkEval]
        rw [ih f ⟨streamChars cs, some ⟨toFixed3 e.x, toFixed3 e.y⟩, none,
          some ⟨toFixed3 e.x, toFixed3 e.y⟩⟩ _ hT.2 hPt (Or.inl rfl) hlen']
        simp only [exceptBindOkEval]
        rfl
      | QuadraticCurveCommand s cp e =>
        have hb : st.currentPoint.isSome = true := hT.1
        obtain ⟨pq, hpq⟩ := Option.isSome_iff_exists.mp hb
        obtain ⟨h1cx, h2cx, h1cy, h2cy⟩ := hPc cp (by simp [pointsAfterStart])
        obtain ⟨h1x, h2x, h1y, h2y⟩ := hPc e (by simp [pointsAfterStart])
        rw [chunkChars_quad, hpq]
        rw [coordToken_plain cp.x h1cx h2cx, coordToken_plain cp.y h1cy h2cy,
          coordToken_plain e.x h1x h2x, coordToken_plain e.y h1y h2y]
        simp only [List.cons_append, List.append_assoc]
        simp only [parseLoop]
        rw [consumeCommand_upper 'Q' _ (by decide)]
        simp only [exceptBindOkEval]
        rw [if_neg (by decide), if_neg (by decide), if_neg (by decide), if_pos (by decide)]
        rw [if_neg (show ¬(some pq = none) from by simp)]
        rw [show (decide (Token.AbsoluteCommand = Token.RelativeCommand)) = false from rfl]
        rw [len_succ]
        rw [runQ_chunk _ _ (toFixed3 cp.x) (toFixed3 cp.y) (toFixed3 e.x) (toFixed3 e.y)
          (decimalQ_toFixed3 _) (decimalQ_toFixed3 _) (decimalQ_toFixed3 _)
          (decimalQ_toFixed3 _) rest' (streamChars cs) rfl hsep]
        simp only [exceptBindOkEval]
        rw [ih f ⟨streamChars cs, some ⟨toFixed3 e.x, toFixed3 e.y⟩,
          some ⟨toFixed3 cp.x, toFixed3 cp.y⟩, st.lastMovePoint⟩ lmO hT.2 hPt
          (Or.inl rfl) hlen']
        simp only [exceptBindOkEval]
        rfl
      | BezierCurveCommand s c1 c2 e =>
        have hb : st.currentPoint.isSome = true := hT.1
        obtain ⟨pq, hpq⟩ := Option.isSome_iff_exists.mp hb
        obtain ⟨h11x, h21x, h11y, h21y⟩ := hPc c1 (by simp [pointsAfterStart])
        obtain ⟨h12x, h22x, h12y, h22y⟩ := hPc c2 (by simp [pointsAfterStart])
        obtain ⟨h1x, h2x, h1y, h2y⟩ := hPc e (by simp [pointsAfterStart])
        rw [chunkChars_cubic, hpq]
        rw [coordToken_plain c1.x h11x h21x, coordToken_plain c1.y h11y h21y,
          coordToken_plain c2.x h12x h22x, coordToken_plain c2.y h12y h22y,
          coordToken_plain e.x h1x h2x, coordToken_plain e.y h1y h2y]
        simp only [List.cons_append, List.append_assoc]
        simp only [parseLoop]
        rw [consumeCommand_upper 'C' _ (by decide)]
        simp only [exceptBindOkEval]
        rw [if_neg (by decide), if_pos (by decide)]
        rw [if_neg (show ¬(some pq = none) from by simp)]
        rw [show (decide (Token.AbsoluteCommand = Token.RelativeCommand)) = false from rfl]
        rw [len_succ]
        rw [runC_chunk _ _ (toFixed3 c1.x) (toFixed3 c1.y) (toFixed3 c2.x) (toFixed3 c2.y)
          (toFixed3 e.x) (toFixed3 e.y) (decimalQ_toFixed3 _) (decimalQ_toFixed3 _)
          (decimalQ_toFixed3 _) (decimalQ_toFixed3 _) (decimalQ_toFixed3 _)
          (decimalQ_toFixed3 _) rest' (streamChars cs) rfl hsep]
        simp only [exceptBindOkEval]
        rw [ih f ⟨streamChars cs, some ⟨toFixed3 e.x, toFixed3 e.y⟩,
          some ⟨toFixed3 c2.x, toFixed3 c2.y⟩, st.lastMovePoint⟩ lmO hT.2 hPt
          (Or.inl rfl) hlen']
        simp only [exceptBindOkEval]
        rfl
      | EllipticalArcCommand x0 y0 rx ry rot laf sf ex ey =>
        have hb : st.currentPoint.isSome = true := hT.1.1
        obtain ⟨pq, hpq⟩ := Option.isSome_iff_exists.mp hb
        obtain ⟨_, hdrx, hdry, hdrot, hdlaf, hdsf, hdex, hdey⟩ := hT.1
        obtain ⟨hprx, hpry, hprot, hplaf, hpsf, hpex, hpey⟩ := hPc
        rw [chunkChars_arc, hpq]
        rw [jsNumToString_plain_of rx hprx, jsNumToString_plain_of ry hpry,
          jsNumToString_plain_of rot hprot, jsNumToString_plain_of laf hplaf,
          jsNumToString_plain_of sf hpsf, jsNumToString_plain_of ex hpex,
          jsNumToString_plain_of ey hpey]
        simp only [List.cons_append, List.append_assoc]
        simp only [parseLoop]
        rw [consumeCommand_upper 'A' _ (by decide)]
        simp only [exceptBindOkEval]
        rw [if_neg (by decide), if_neg (by decide), if_neg (by decide), if_neg (by decide),
          if_neg (by decide), if_neg (by decide), if_neg (by decide), if_neg (by decide),
          if_pos (by decide)]
        rw [if_neg (show ¬(some pq = none) from by simp)]
        rw [show (decide (Token.AbsoluteCommand = Token.RelativeCommand)) = false from rfl]
        rw [len_succ]
        rw [runA_chunk _ _ rx ry rot laf sf ex ey hdrx hdry hdrot hdlaf hdsf hdex hdey
          rest' (streamChars cs) rfl hsep]
        simp only [exceptBindOkEval]
        rw [ih f ⟨streamChars cs, some ⟨ex, ey⟩, none, st.lastMovePoint⟩ lmO hT.2 hPt
          (Or.inl rfl) hlen']
        simp only [exceptBindOkEval]
        rfl
      | ClosePathCommand s e =>
        have hb : st.currentPoint.isSome = true := hT.1.1
        obtain ⟨pq, hpq⟩ := Option.isSome_iff_exists.mp hb
        rw [hpq] at hT
        rw [chunkChars_close, hpq, List.singleton_append]
        simp only [parseLoop]
        rw [consumeCommand_upper 'Z' _ (by decide)]
        simp only [exceptBindOkEval]
        rw [if_neg (by decide), if_neg (by decide), if_neg (by decide), if_neg (by decide),
          if_neg (by decide), if_neg (by decide), if_neg (by decide), if_neg (by decide),
          if_neg (by decide), if_pos (by decide)]
        have hih : parseLoop f ⟨rest', some pq, st.currentControlPoint,
            st.lastMovePoint⟩ = .ok (expectedList (some pq) st.lastMovePoint cs) := by
          rcases hsep with ⟨h1, h2⟩ | ⟨ch, r2, h1, hch, h2⟩
          · subst h1
            exact ih f _ lmO hT.2 hPt (Or.inl h2.symm) hlen'
          · subst h1
            refine ih f _ lmO hT.2 hPt (Or.inr ⟨?_, ?_⟩) hlen'
            · intro hnil
              rw [hnil] at h2
              exact List.noConfusion h2
            · show ' ' :: ch :: r2 = ' ' :: streamChars cs
              rw [h2]
        rw [hih]
        simp only [exceptBindOkEval]
        rfl
    rcases hrest with hr | ⟨hne, hr⟩
    · rw [show st = (⟨st.rest, st.currentPoint, st.currentControlPoint,
        st.lastMovePoint⟩ : PState) from rfl, hr]
      exact main
    · rw [parseLoop_blank f st (streamChars (c :: cs)) hr hstream_ne]
      exact main

theorem streamChars_length_ge : ∀ (cmds : List DrawCommand),
    cmds.length ≤ (streamChars cmds).length := by
  intro cmds
  induction cmds with
  | nil => simp [streamChars]
  | cons c cs ih =>
    obtain ⟨tlc, htlc⟩ := chunkChars_head c
    cases cs with
    | nil =>
      rw [show streamChars [c] = chunkChars c from rfl, htlc]
      simp
    | cons d ds =>
      rw [streamChars_cons c (d :: ds) (List.cons_ne_nil _ _), htlc]
      simp only [List.length_cons, List.cons_append, List.length_append] at ih ⊢
      omega

theorem parse_serialize_reparse (s : String) (cmds : List DrawCommand)
    (h : parseCommands s = .ok cmds) (hP : ∀ c ∈ cmds, PlainCmd c) :
    parseCommands (commandsToString cmds) = .ok (expectedList none none cmds) := by
  have hT : Tracked false none cmds := parseCommands_track s cmds h
  rw [parseCommands]
  rw [show (commandsToString cmds).toList = streamChars cmds from commandsToString_data cmds]
  have hlen : cmds.length < (commandsToString cmds).length + 1 := by
    have h1 : (commandsToString cmds).length = (streamChars cmds).length := by
      show (commandsToString cmds).data.length = _
      rw [commandsToString_data]
    rw [h1]
    have := streamChars_length_ge cmds
    omega
  exact reparse_walk cmds _ ⟨streamChars cmds, none, none, none⟩ none hT hP (Or.inl rfl) hlen

theorem expectedList_kinds : ∀ (cmds : List DrawCommand) (cur lm : Option Point),
    (expectedList cur lm cmds).map svgChar = cmds.map svgChar := by
  intro cmds
  induction cmds with
  | nil => intro cur lm; rfl
  | cons c cs ih =>
    intro cur lm
    rw [expectedList, List.map_cons, List.map_cons, ih]
    have hk : svgChar (reCmd cur lm c) = svgChar c := by
      cases c <;> rfl
    rw [hk]

theorem expectedList_endsClose : ∀ (cmds : List DrawCommand) (b : Bool)
    (cur lmO lmRe : Option Point),
    Tracked b lmO cmds → lmRe = lmO.map roundPt →
    ∀ (i : ℕ) (c c' : DrawCommand), cmds.get? i = some c →
      (expectedList cur lmRe cmds).get? i = some c' → endsClose c c' := by
  intro cmds
  induction cmds with
  | nil =>
    intro b cur lmO lmRe _ _ i c c' hc _
    exact Option.noConfusion hc
  | cons d ds ih =>
    intro b cur lmO lmRe hT hlm i c c' hc hc'
    cases i with
    | zero =>
      have hc0 : d = c := Option.some.inj hc
      have hc0' : reCmd cur lmRe d = c' := Option.some.inj hc'
      rw [← hc0, ← hc0']
      cases d with
      | MoveCommand s e => exact ⟨toFixed3_close e.x, toFixed3_close e.y⟩
      | LineCommand s e => exact ⟨toFixed3_close e.x, toFixed3_close e.y⟩
      | QuadraticCurveCommand s cp e => exact ⟨toFixed3_close e.x, toFixed3_close e.y⟩
      | BezierCurveCommand s c1 c2 e => exact ⟨toFixed3_close e.x, toFixed3_close e.y⟩
      | EllipticalArcCommand x0 y0 rx ry rot laf sf ex ey =>
        exact ⟨by norm_num, by norm_num⟩
      | ClosePathCommand s e =>
        have he : e = lmO := hT.1.2
        subst hlm
        rw [he]
        cases lmO with
        | none => trivial
        | some q => exact ⟨toFixed3_close q.x, toFixed3_close q.y⟩
    | succ j =>
      exact ih (trackCur b d) (reCur cur d) (trackLm lmO d) (reLm lmRe d) hT.2
        (by
          cases d with
          | MoveCommand s e => rfl
          | LineCommand s e => exact hlm
          | QuadraticCurveCommand s cp e => exact hlm
          | BezierCurveCommand s c1 c2 e => exact hlm
          | EllipticalArcCommand x0 y0 rx ry rot laf sf ex ey => exact hlm
          | ClosePathCommand s e => exact hlm)
        j c c' hc hc'

/-- Concrete evaluation of `jsParseFloat` on the token `1e21`, kept
structural so that the power `10 ^ 21` stays symbolic. -/
theorem cex_val : jsParseFloat ['1', 'e', '2', '1'] = (10 : ℚ) ^ 21 := by
  rw [jsParseFloat_not_neg '1' ['e', '2', '1'] (by decide)]
  simp only [jsParseSigned]
  rw [show takeDigits ['1', 'e', '2', '1'] = (['1'], ['e', '2', '1']) from by decide]
  split
  · rename_i heq
    simp only [List.length_cons, List.length_nil] at heq
    omega
  · dsimp only
    split
    · rename_i r heq
      have h2 := (by decide :
        (match ['e', '2', '1'] with
          | '.' :: r => takeDigits r
          | _ => (([] : List Char), ['e', '2', '1'])).2 = 'e' :: ['2', '1'])
      rw [heq] at h2
      injection h2 with h3 h4
      subst h4
      rw [show (match ['2', '1'] with
          | '-' :: r2 => ((-1 : ℤ), r2)
          | '+' :: r2 => ((1 : ℤ), r2)
          | _ => ((1 : ℤ), ['2', '1'])) = ((1 : ℤ), ['2', '1']) from by decide]
      rw [show (match ['e', '2', '1'] with
          | '.' :: r => takeDigits r
          | _ => (([] : List Char), ['e', '2', '1'])) = (([] : List Char), ['e', '2', '1']) from by decide]
      dsimp only
      rw [show takeDigits ['2', '1'] = (['2', '1'], ([] : List Char)) from by decide]
      rw [if_neg (by decide)]
      rw [show digitsToNat ['1'] = 1 from by decide,
          show digitsToNat ['2', '1'] = 21 from by decide,
          show digitsToNat ([] : List Char) = 0 from by decide]
      norm_num
    · rename_i hno
      exact absurd (by decide :
        (match ['e', '2', '1'] with
          | '.' :: r => takeDigits r
          | _ => (([] : List Char), ['e', '2', '1'])).2 = 'e' :: ['2', '1']) (hno ['2', '1'])

/-- `consumeValue` on the remainder `1e21 0` returns `10 ^ 21`. -/
theorem cex_consumeValue :
    consumeValue ['1', 'e', '2', '1', ' ', '0'] = .ok ((10 : ℚ) ^ 21, [' ', '0']) := by
  simp only [consumeValue, advance_digit '1' _ (by decide)]
  rw [if_pos trivial]
  rw [show scanValue ['1', 'e', '2', '1', ' ', '0'] true false = (['1', 'e', '2', '1'], [' ', '0'])
    from by decide]
  rw [if_neg (by decide)]
  rw [cex_val]

/-- `consumePoint` on `1e21 0` yields the point `(10 ^ 21, 0)`. -/
theorem cex_consumePoint :
    consumePoint false none ['1', 'e', '2', '1', ' ', '0'] =
      .ok (⟨(10 : ℚ) ^ 21, 0⟩, []) := by
  simp only [consumePoint, cex_consumeValue, exceptBindOkEval]
  rw [show consumeValue [' ', '0'] = .ok ((0 : ℚ), []) from by with_unfolding_all decide]
  rfl

/-- The `M` loop exits at once on an exhausted remainder. -/
theorem cex_runM_tail :
    runM false 6 false ⟨[], some ⟨(10 : ℚ) ^ 21, 0⟩, none, some ⟨(10 : ℚ) ^ 21, 0⟩⟩ =
      .ok ([], ⟨[], some ⟨(10 : ℚ) ^ 21, 0⟩, none, some ⟨(10 : ℚ) ^ 21, 0⟩⟩) := by
  show runM false (5 + 1) false _ = _
  rw [runM]
  rw [show advanceToNextToken ([] : List Char) = (Token.EOF, []) from rfl]
  rw [if_neg (by decide)]

/-- The `M` loop on `1e21 0` emits a single move to `(10 ^ 21, 0)`. -/
theorem cex_runM :
    runM false 7 true ⟨['1', 'e', '2', '1', ' ', '0'], none, none, none⟩ =
      .ok ([DrawCommand.MoveCommand none ⟨(10 : ℚ) ^ 21, 0⟩],
        ⟨[], some ⟨(10 : ℚ) ^ 21, 0⟩, none, some ⟨(10 : ℚ) ^ 21, 0⟩⟩) := by
  show runM false (6 + 1) true _ = _
  rw [runM]
  rw [advance_digit '1' _ (by decide)]
  rw [if_pos rfl]
  dsimp only
  rw [cex_consumePoint, exceptBindOkEval]
  rw [if_pos rfl, if_pos rfl]
  dsimp only
  rw [cex_runM_tail, exceptBindOkEval]

/-- `parseLoop` returns no commands on an exhausted remainder. -/
theorem cex_loop_tail :
    parseLoop 7 ⟨[], some ⟨(10 : ℚ) ^ 21, 0⟩, none, some ⟨(10 : ℚ) ^ 21, 0⟩⟩ = .ok [] := by
  show parseLoop (6 + 1) _ = _
  rw [parseLoop]

/-- `parseCommands` accepts `M1e21 0` as a single move to `(10 ^ 21, 0)`. -/
theorem cex_parse :
    parseCommands "M1e21 0" =
      .ok [DrawCommand.MoveCommand none ⟨(10 : ℚ) ^ 21, 0⟩] := by
  show parseLoop (7 + 1) ⟨['M', '1', 'e', '2', '1', ' ', '0'], none, none, none⟩ = _
  rw [parseLoop]
  dsimp only
  rw [consumeCommand_upper 'M' _ (by decide), exceptBindOkEval]
  dsimp only
  rw [if_pos (Or.inl rfl)]
  rw [if_neg (fun hc => absurd hc.1 (by decide))]
  rw [show decide (Token.AbsoluteCommand = Token.RelativeCommand) = false from rfl]
  rw [show (['1', 'e', '2', '1', ' ', '0'].length + 1) = 7 from by decide]
  rw [cex_runM, exceptBindOkEval]
  dsimp only
  rw [cex_loop_tail, exceptBindOkEval]
  rfl

/-- Claim C1, counterexample: the round trip fails outside the plain decimal
rendering regime.  `M1e21 0` parses to a move whose x-coordinate is `10^21`;
`Number.toFixed(3)`/`toString` render that value in exponential notation, so
the serializer emits `M 1e+21 0`; re-parsing it the scanner stops the value
token at `1e` (a `+` is outside the value grammar), the skipped `+` makes
`21` the y-coordinate, and the trailing `0` starts a second coordinate pair
whose y-value is missing, so the re-parse throws `Expected value` — the
program does not reproduce the parsed commands. -/
theorem C1_counterexample :
    parseCommands "M1e21 0" =
      .ok [DrawCommand.MoveCommand none ⟨(10 : ℚ) ^ 21, 0⟩] ∧
    commandsToString [DrawCommand.MoveCommand none ⟨(10 : ℚ) ^ 21, 0⟩] = "M 1e+21 0" ∧
    parseCommands "M 1e+21 0" = .error Err.expectedValue :=
  ⟨cex_parse, by with_unfolding_all decide, by with_unfolding_all decide⟩

/-- Claim C1, amended: for every path string that `parseCommands` accepts,
in which every scanned value token carries a digit, and whose parsed
commands keep all serialized numbers in JavaScript's plain decimal
notation — each non-arc coordinate below `10^21` in magnitude before and
after `toFixed(3)` rounding, each raw arc parameter zero or of magnitude in
`[1e-6, 1e21)` — serializing the parsed commands with `commandsToString` and
parsing the output again succeeds and yields a command sequence with the
same command-kind sequence, whose end anchors all agree with the original
ones to within `0.001` in each coordinate (the arc anchors exactly, a
close's optional anchor on both sides or on neither).  Outside that regime
the law fails, as `C1_counterexample` shows. -/
theorem C1_round_trip (s : String) (cmds : List DrawCommand)
    (h : parseCommands s = .ok cmds) (hdt : DigitTokens s)
    (hP : ∀ c ∈ cmds, PlainCmd c) :
    ∃ cmds', parseCommands (commandsToString cmds) = .ok cmds' ∧
      cmds'.map svgChar = cmds.map svgChar ∧
      ∀ (i : ℕ) (c c' : DrawCommand), cmds.get? i = some c → cmds'.get? i = some c' →
        endsClose c c' := by
  refine ⟨expectedList none none cmds, parse_serialize_reparse s cmds h hP,
    expectedList_kinds cmds none none, ?_⟩
  exact expectedList_endsClose cmds false none none none (parseCommands_track s cmds h) rfl

/-- Witness for the amended C1 at the concrete triangle `M0,0L10,0L10,10Z`:
its tokens all carry digits and its coordinates `0` and `10` are far inside
the plain rendering regime. -/
theorem C1_witness :
    parseCommands exTrianglePath = .ok
      [DrawCommand.MoveCommand none ⟨0, 0⟩,
       DrawCommand.LineCommand ⟨0, 0⟩ ⟨10, 0⟩,
       DrawCommand.LineCommand ⟨10, 0⟩ ⟨10, 10⟩,
       DrawCommand.ClosePathCommand ⟨10, 10⟩ (some ⟨0, 0⟩)] ∧
    DigitTokens exTrianglePath ∧
    (∃ cmds', parseCommands (commandsToString
        [DrawCommand.MoveCommand none ⟨0, 0⟩,
         DrawCommand.LineCommand ⟨0, 0⟩ ⟨10, 0⟩,
         DrawCommand.LineCommand ⟨10, 0⟩ ⟨10, 10⟩,
         DrawCommand.ClosePathCommand ⟨10, 10⟩ (some ⟨0, 0⟩)]) = .ok cmds' ∧
      cmds'.map svgChar =
        [DrawCommand.MoveCommand none ⟨0, 0⟩,
         DrawCommand.LineCommand ⟨0, 0⟩ ⟨10, 0⟩,
         DrawCommand.LineCommand ⟨10, 0⟩ ⟨10, 10⟩,
         DrawCommand.ClosePathCommand ⟨10, 10⟩ (some ⟨0, 0⟩)].map svgChar ∧
      ∀ (i : ℕ) (c c' : DrawCommand),
        [DrawCommand.MoveCommand none ⟨0, 0⟩,
         DrawCommand.LineCommand ⟨0, 0⟩ ⟨10, 0⟩,
         DrawCommand.LineCommand ⟨10, 0⟩ ⟨10, 10⟩,
         DrawCommand.ClosePathCommand ⟨10, 10⟩ (some ⟨0, 0⟩)].get? i = some c →
        cmds'.get? i = some c' → endsClose c c') :=
  ⟨by with_unfolding_all decide,
   by with_unfolding_all decide,
   C1_round_trip exTrianglePath _ (by with_unfolding_all decide)
     (by with_unfolding_all decide)
     (by
       intro cmd hc
       fin_cases hc <;> with_unfolding_all decide)⟩

end ShapeShifter
